import Mathlib

/-!
# Verification of the `ssw-gc` managed heap (mark-and-sweep collector)

Shallow embedding of the heap engine from `src/main/cpp/Heap.cpp`,
`src/main/headers/Heap.hpp`, `src/main/headers/TaggedPointer.hpp` and
`src/main/cpp/TypeDescriptor.cpp`.

Modelling conventions:

* Addresses are byte offsets (`Nat`) from the storage base, which we place at
  address 0.  A block's header occupies `[a, a + Align)`, its payload starts at
  `a + Align` (`Block::data()`), and `HeapBase::block(ptr)` maps a payload
  pointer back to the header at `ptr - Align`.
* The arena is an association list from header addresses to `Block` records.
  `Mem.set` models a store through a header pointer: it overwrites the entry
  with that address if present (placement-`new` over existing storage) and adds
  it otherwise.
* The header's `TaggedPointer` word is modelled as the explicit sum
  `HeaderPtr`: `free next` (free bit set, pointer = next free block),
  `typeDesc t` (used block, pointer = its `TypeDescriptor`), and
  `cursor t idx` (used block during marking, pointer = the cell
  `t.begin() + idx` of the descriptor's offset list).  The `mark` tag bit is
  kept next to it in `Block`.  `TaggedPointer::operator=(T*)` preserves the tag
  bits, which is reflected in each operation below.
* `std::size_t` is 64 bits; where the source can underflow (`Block::split`) the
  subtraction is modelled mod `2 ^ 64` by `sizetSub`.
* Pointer-typed payload slots are an association list from byte offsets inside
  the payload to stored payload pointers (`Option Nat`, `none` = null).
* Loops are fuel-indexed so that every definition is executable; `none` results
  cover both exhausted fuel and situations the source leaves undefined
  (failed assertions, dereferencing a dangling pointer, reading a header word
  in the wrong mode).
-/

set_option autoImplicit false
set_option maxRecDepth 2048

namespace SswGc

/-- `HeapBase::Align = alignof(std::max_align_t)`; 16 on the x86-64 target. -/
def Align : Nat := 16

/-- `HeapBase::align(size) = (size + Align - 1) & ~(Align - 1)`.  Because
`Align` is a power of two the mask is equivalent to subtracting the remainder:
rounding up to the next multiple of `Align`. -/
def align (size : Nat) : Nat :=
  (size + Align - 1) - (size + Align - 1) % Align

/-- 64-bit `std::size_t` subtraction `a - b` with wraparound, for operands
below `2 ^ 64`. -/
def sizetSub (a b : Nat) : Nat :=
  (a + 2 ^ 64 - b % 2 ^ 64) % 2 ^ 64

/-- `TypeDescriptor`: object size plus the ordered pointer-field offset list
(`std::ptrdiff_t` entries).  The `name` and the destructor callback do not
affect the heap engine; destructor invocations are recorded in an event log
instead. -/
structure TypeDescriptor where
  size : Nat
  offsets : List Int
  deriving DecidableEq, Repr

/-- Distance from a `TypeDescriptor` base to its offset list
(`ListOffset` in `TypeDescriptor.cpp`); only its positivity matters here. -/
def ListOffset : Nat := 56

/-- The sentinel cell `*end()`: `(char*)this - (char*)this->end()`, the
negated byte distance from the cell one past the offsets back to the
descriptor base. -/
def TypeDescriptor.sentinel (t : TypeDescriptor) : Int :=
  -(Int.ofNat (ListOffset + 8 * t.offsets.length))

/-- Dereference the offset-list cursor `begin() + idx`.  The cells are
`offsets ++ [sentinel]`; reading past the sentinel leaves the allocation
(undefined behavior, `none`). -/
def TypeDescriptor.entry (t : TypeDescriptor) (idx : Nat) : Option Int :=
  if h : idx < t.offsets.length then some (t.offsets.get ⟨idx, h⟩)
  else if idx = t.offsets.length then some t.sentinel
  else none

/-- The pointer part of a block's header word, as the explicit sum over its
three interpretations (cf. spec section on header packing). -/
inductive HeaderPtr where
  /-- Free bit set: the pointer is the next free block (or null). -/
  | free (next : Option Nat)
  /-- Used block: the pointer is its `TypeDescriptor`. -/
  | typeDesc (t : TypeDescriptor)
  /-- Used block during marking: a cursor into the descriptor's offset list. -/
  | cursor (t : TypeDescriptor) (idx : Nat)
  deriving DecidableEq

/-- `HeapBase::Block` together with the payload's pointer-typed slots:
`mSize`, the `mark` tag bit, the header pointer word, and the managed-pointer
fields stored in the payload (offset ↦ payload pointer, `none` = null). -/
structure Block where
  mSize : Nat
  mark : Bool
  hptr : HeaderPtr
  fields : List (Nat × Option Nat)
  deriving DecidableEq

namespace Block

/-- `Block::Block(size, next)`: a fresh free block; the `TaggedPointer`
constructor leaves the mark cleared, then `free(true)` is set. -/
def mkFree (size : Nat) (next : Option Nat) : Block :=
  { mSize := size, mark := false, hptr := .free next, fields := [] }

/-- `Block::free()`. -/
def isFree (b : Block) : Bool :=
  match b.hptr with
  | .free _ => true
  | _ => false

/-- `Block::used()`. -/
def isUsed (b : Block) : Bool := !b.isFree

/-- `Block::next()` (free blocks only; on a used block the source would
reinterpret a descriptor pointer, which no well-formed state does). -/
def nextFree (b : Block) : Option Nat :=
  match b.hptr with
  | .free n => n
  | _ => none

/-- `Block::next(next)`: `mPtr = next; mPtr.free(true)` — assignment preserves
the mark bit, the free bit is (re)set, the size is unchanged. -/
def setNext (b : Block) (next : Option Nat) : Block :=
  { b with hptr := .free next }

/-- `Block::next(next, size)`: as `setNext`, additionally storing the size. -/
def setNextSize (b : Block) (next : Option Nat) (size : Nat) : Block :=
  { b with hptr := .free next, mSize := size }

/-- `Block::type(type)`: `mPtr = &type; mPtr.free(false)` — assignment
preserves the mark bit, the free bit is cleared. -/
def setType (b : Block) (t : TypeDescriptor) : Block :=
  { b with hptr := .typeDesc t }

/-- `Block::following()` as an address: `data() + align(mSize)`. -/
def followingOf (a : Nat) (b : Block) : Nat :=
  a + Align + align b.mSize

end Block

/-- The descriptor length a block's header refers to (0 for free blocks);
only used to size the marking fuel. -/
def Block.descLen (b : Block) : Nat :=
  match b.hptr with
  | .free _ => 0
  | .typeDesc t => t.offsets.length
  | .cursor t _ => t.offsets.length

/-- The link of a freshly constructed free block. -/
theorem Block.nextFree_mkFree (s : Nat) (n : Option Nat) :
    (Block.mkFree s n).nextFree = n := by
  simp [Block.mkFree, Block.nextFree]

/-- The link after `Block::next(next)`. -/
theorem Block.nextFree_setNext (b : Block) (n : Option Nat) :
    (b.setNext n).nextFree = n := by
  simp [Block.setNext, Block.nextFree]

/-- Read a managed-pointer slot `*(payload + off)`; an absent slot reads as
null (the source would read uninitialized payload bytes there, which
well-formed states rule out). -/
def getField : List (Nat × Option Nat) → Nat → Option Nat
  | [], _ => none
  | (o, v) :: rest, off => if o = off then v else getField rest off

/-- Write a managed-pointer slot `*(payload + off) = v`. -/
def setField : List (Nat × Option Nat) → Nat → Option Nat → List (Nat × Option Nat)
  | [], off, v => [(off, v)]
  | (o, w) :: rest, off, v =>
    if o = off then (o, v) :: rest else (o, w) :: setField rest off v

/-- The arena contents: header address ↦ block. -/
abbrev Mem := List (Nat × Block)

namespace Mem

/-- Read the block whose header is at `a`. -/
def lookup : Mem → Nat → Option Block
  | [], _ => none
  | (a', b) :: rest, a => if a' = a then some b else lookup rest a

/-- Store a block at header address `a` (overwrite or add). -/
def set : Mem → Nat → Block → Mem
  | [], a, b => [(a, b)]
  | (a', b') :: rest, a, b =>
    if a' = a then (a, b) :: rest else (a', b') :: set rest a b

end Mem

/-- `HeapBase` state: the arena, `mFreeList`, `mRoots` (payload pointers, in
registration order) and `mHeapEnd` (with `mHeapStart = 0`). -/
structure HeapState where
  mem : Mem
  mFreeList : Option Nat
  mRoots : List Nat
  heapEnd : Nat
  deriving DecidableEq

/-- `HeapBase::HeapBase(storage, size)`: `mHeapEnd = storage + (size & ~(Align
- 1))` and one free block `Block(size - Align)` at the start. -/
def initHeap (size : Nat) : HeapState :=
  { mem := [(0, Block.mkFree (size - Align) none)]
    mFreeList := some 0
    mRoots := []
    heapEnd := size - size % Align }

/-- `HeapBase::registerRoot(object)`: `mRoots.push_back(object)`. -/
def registerRoot (h : HeapState) (p : Nat) : HeapState :=
  { h with mRoots := h.mRoots ++ [p] }

/-- Remove the first occurrence of `p` from a list, keeping the rest. -/
def removeFirst : List Nat → Nat → List Nat
  | [], _ => []
  | x :: xs, p => if x = p then xs else x :: removeFirst xs p

/-- Modelled from the spec: `HeapBase::removeRoot` is called by the demo
(`main.cpp`) but missing from the sources under review (`Heap.hpp` carries
`TODO Add way to remove heap roots` in its place).  Per the spec's roots
surface, `remove_root(payload_ptr)` "removes the first matching entry (no
error if absent)". -/
def removeRoot (h : HeapState) (p : Nat) : HeapState :=
  { h with mRoots := removeFirst h.mRoots p }

/-- `Block::split(newSize)` acting on the block at header address `addr`:
computes `restSize = align(mSize) - align(newSize) - Align` in `std::size_t`
arithmetic and, if `restSize >= Align`, placement-constructs
`Block(restSize, mPtr.get<Block>())` at `this + Align + align(newSize)` and
points `mPtr` at it (tags preserved).  `mSize` of the split block is not
touched by the source. -/
def splitBlock (m : Mem) (addr : Nat) (newSize : Nat) : Mem :=
  match m.lookup addr with
  | none => m
  | some blk =>
    let restSize := sizetSub (sizetSub (align blk.mSize) (align newSize)) Align
    if Align ≤ restSize then
      let newNat := addr + Align + align newSize
      (m.set newNat (Block.mkFree restSize blk.nextFree)).set addr
        (blk.setNext (some newNat))
    else m

/-- The first-fit scan of `HeapBase::tryAllocate`:
`while(cur && cur->size() < type.size()) prev = exchange(cur, cur->next());`
returning `(prev, cur)` on success.  Fuel bounds the walk (the free list is
acyclic in every well-formed state); a dangling link is undefined behavior. -/
def findFit (m : Mem) : Nat → Option Nat → Option Nat → TypeDescriptor →
    Option (Option Nat × Nat)
  | 0, _, _, _ => none
  | fuel + 1, prev, cur, ty =>
    match cur with
    | none => none
    | some c =>
      match m.lookup c with
      | none => none
      | some blk =>
        if blk.mSize < ty.size then findFit m fuel (some c) blk.nextFree ty
        else some (prev, c)

/-- `HeapBase::tryAllocate(type)`: first fit, then `cur->split(type.size())`,
unlink `cur` (the predecessor's next, or `mFreeList`, is set to `cur->next()`,
which after a successful split is the new rest block), stamp the header with
the descriptor (`cur->type(type)`, clearing the free bit, preserving the
mark), and return `cur->data()`. -/
def tryAllocate (h : HeapState) (ty : TypeDescriptor) :
    Option (HeapState × Nat) :=
  match findFit h.mem (h.mem.length + 1) none h.mFreeList ty with
  | none => none
  | some (prev, c) =>
    let m1 := splitBlock h.mem c ty.size
    match m1.lookup c with
    | none => none
    | some curBlk =>
      let nxt := curBlk.nextFree
      match prev with
      | some p =>
        match m1.lookup p with
        | none => none
        | some pblk =>
          some ({ h with
                    mem := ((m1.set p (pblk.setNext nxt)).set c
                      (curBlk.setType ty)) },
                c + Align)
      | none =>
        some ({ h with mem := m1.set c (curBlk.setType ty), mFreeList := nxt },
              c + Align)

/-- `HeapBase::mergeBlocks`: a stub in the source (`TODO implement merging of
free blocks`). -/
def mergeBlocks (h : HeapState) : HeapState := h

/-- `HeapBase::allocate(type, isRoot)`: give up immediately on an empty free
list; otherwise try, on failure merge (stub) and retry once; register the
result as a root when requested.  Returns the payload pointer or null. -/
def allocate (h : HeapState) (ty : TypeDescriptor) (isRoot : Bool) :
    HeapState × Option Nat :=
  match h.mFreeList with
  | none => (h, none)
  | some _ =>
    match tryAllocate h ty with
    | some (h1, p) => (if isRoot then registerRoot h1 p else h1, some p)
    | none =>
      match tryAllocate (mergeBlocks h) ty with
      | some (h1, p) => (if isRoot then registerRoot h1 p else h1, some p)
      | none => (mergeBlocks h, none)

/-- `HeapBase::deallocate(obj)`: push `block(obj)` onto the free list head
with its stored size (no destructor call).  The source asserts the block is
used and unmarked; sequences of valid operations satisfy that. -/
def deallocate (h : HeapState) (obj : Nat) : HeapState :=
  match h.mem.lookup (obj - Align) with
  | none => h
  | some blk =>
    { h with mem := h.mem.set (obj - Align) (blk.setNext h.mFreeList),
             mFreeList := some (obj - Align) }

/-! ## Deutsch-Schorr-Waite marking (`HeapBase::mark`) -/

/-- Outcome of one iteration of the `while(true)` loop of `HeapBase::mark`:
the loop returns with the given memory, continues with a new state, or runs
into undefined behavior. -/
inductive StepResult where
  | done (m : Mem)
  | step (m : Mem) (cur : Nat) (prev : Option Nat)
  | stuck
  deriving DecidableEq

/-- Reading the header word at the top of the loop body: on the first visit
(`!blk.mark()`) the cursor is set to `type().begin()` and the mark is set;
on later visits the cursor advances by one cell
(`blk.ptr() = blk.ptr().get<const ptrdiff_t>() + 1`).  Reading the word in
any other mode reinterprets an unrelated pointer: undefined behavior. -/
def cursorOf (blk : Block) : Option (TypeDescriptor × Nat) :=
  if blk.mark then
    match blk.hptr with
    | .cursor t idx => some (t, idx + 1)
    | _ => none
  else
    match blk.hptr with
    | .typeDesc t => some (t, 0)
    | _ => none

/-- One iteration of the loop body of `HeapBase::mark` (Heap.cpp:257-286)
at payload pointer `cur` with predecessor `prev`.  The header word of `cur`
is written before the field and its target's mark are read (so a self-loop
field sees the block already marked, as in the source, where `blk` is a
reference into the heap). -/
def markStep (m : Mem) (cur : Nat) (prev : Option Nat) : StepResult :=
  match m.lookup (cur - Align) with
  | none => .stuck
  | some blk =>
    match cursorOf blk with
    | none => .stuck
    | some (t, idx) =>
      match t.entry idx with
      | none => .stuck
      | some off =>
        if 0 ≤ off then
          -- Advance: `field = *(byte**)(cur + offset)`
          match getField blk.fields off.toNat with
          | none =>
            .step (m.set (cur - Align)
              { blk with mark := true, hptr := .cursor t idx }) cur prev
          | some f =>
            match (m.set (cur - Align)
                { blk with mark := true, hptr := .cursor t idx }).lookup
                (f - Align) with
            | none => .stuck
            | some fblk =>
              if fblk.mark then
                .step (m.set (cur - Align)
                  { blk with mark := true, hptr := .cursor t idx }) cur prev
              else
                -- reverse the link and descend
                .step ((m.set (cur - Align)
                  { blk with mark := true, hptr := .cursor t idx }).set
                    (cur - Align)
                  { blk with mark := true, hptr := .cursor t idx,
                             fields := setField blk.fields off.toNat prev })
                  f (some cur)
        else
          -- Retreat: `(byte*)cursor + offset` recovers the descriptor base
          -- exactly when the cursor sits on the sentinel cell.
          if idx = t.offsets.length then
            match prev with
            | none => .done (m.set (cur - Align)
                { blk with mark := true, hptr := .typeDesc t })
            | some p =>
              match (m.set (cur - Align)
                  { blk with mark := true, hptr := .typeDesc t }).lookup
                  (p - Align) with
              | none => .stuck
              | some pblk =>
                match pblk.hptr with
                | .cursor pt pidx =>
                  match pt.entry pidx with
                  | none => .stuck
                  | some poff =>
                    if 0 ≤ poff then
                      -- un-reverse: `prev = exchange(*(cur + offset), tmp)`
                      .step (((m.set (cur - Align)
                          { blk with mark := true, hptr := .typeDesc t }).set
                          (p - Align)
                          { pblk with
                              fields := setField pblk.fields poff.toNat
                                (some cur) })) p
                        (getField pblk.fields poff.toNat)
                    else .stuck
                | _ => .stuck
          else .stuck

/-- The fuel-indexed `while(true)` loop of `HeapBase::mark` from payload
pointer `cur` with predecessor `prev`.  `none` covers exhausted fuel and
every situation that is undefined behavior in the source: a payload pointer
with no block, reading the header word in the wrong mode, a cursor leaving
the descriptor's offset list. -/
def markLoop (m : Mem) : Nat → Nat → Option Nat → Option Mem
  | 0, _, _ => none
  | fuel + 1, cur, prev =>
    match markStep m cur prev with
    | .done m1 => some m1
    | .step m1 c1 p1 => markLoop m1 fuel c1 p1
    | .stuck => none

/-- Fuel that dominates the marking measure of any state of `m`
(two steps per block plus one per offset cell, plus one). -/
def markFuel (m : Mem) : Nat :=
  m.foldr (fun ab n => ab.2.descLen + 2 + n) 1

/-- `HeapBase::mark(root)`, including its preconditions
`assert(root)` and `assert(!block(root).mark())`. -/
def markRoot (m : Mem) (root : Nat) : Option Mem :=
  match m.lookup (root - Align) with
  | none => none
  | some blk =>
    if blk.mark then none else markLoop m (markFuel m) root none

/-- The marking phase of `HeapBase::gc`:
`for(auto root : mRoots) this->mark(root);`. -/
def gcMarkPhase (m : Mem) : List Nat → Option Mem
  | [] => some m
  | r :: rs =>
    match markRoot m r with
    | none => none
    | some m1 => gcMarkPhase m1 rs

/-! ## Sweep (`HeapBase::rebuildFreeList`) -/

/-- The inner do-while of `rebuildFreeList`: starting at the unmarked block
`a`, destroy each unmarked used block (recording the destructor invocation by
its header address) and advance, until the next block is past the arena end or
marked.  Returns the end of the run and the destruction log. -/
def extendFree (m : Mem) : Nat → Nat → Nat → Option (Nat × List Nat)
  | 0, _, _ => none
  | fuel + 1, a, heapEnd =>
    match m.lookup a with
    | none => none
    | some blk =>
      let log : List Nat := if blk.isFree then [] else [a]
      let nxt := Block.followingOf a blk
      if nxt < heapEnd then
        match m.lookup nxt with
        | none => none
        | some nblk =>
          if nblk.mark then some (nxt, log)
          else
            match extendFree m fuel nxt heapEnd with
            | none => none
            | some (e, l) => some (e, log ++ l)
      else some (nxt, log)

/-- The linear scan of `rebuildFreeList`: marked blocks get their mark
cleared; each unmarked block starts a run that is replaced by one free block
`blk->next(freeList, free - blk - Align)` prepended to the new list. -/
def rebuildFrom (m : Mem) : Nat → Nat → Nat → Option Nat → List Nat →
    Option (Mem × Option Nat × List Nat)
  | 0, _, _, _, _ => none
  | fuel + 1, a, heapEnd, freeList, log =>
    if a < heapEnd then
      match m.lookup a with
      | none => none
      | some blk =>
        if blk.mark then
          rebuildFrom (m.set a { blk with mark := false }) fuel
            (Block.followingOf a blk) heapEnd freeList log
        else
          match extendFree m (heapEnd + 1) a heapEnd with
          | none => none
          | some (e, dlog) =>
            rebuildFrom (m.set a (blk.setNextSize freeList (e - a - Align)))
              fuel e heapEnd (some a) (log ++ dlog)
    else some (m, freeList, log)

/-- `HeapBase::rebuildFreeList`, also yielding the ordered destructor log. -/
def rebuildFreeList (h : HeapState) : Option (HeapState × List Nat) :=
  match rebuildFrom h.mem (h.heapEnd + 1) 0 h.heapEnd none [] with
  | none => none
  | some (m, fl, log) => some ({ h with mem := m, mFreeList := fl }, log)

/-- `HeapBase::gc()`: mark every registered root, then rebuild the free
list.  The destructor log of the sweep is returned alongside. -/
def gc (h : HeapState) : Option (HeapState × List Nat) :=
  match gcMarkPhase h.mem h.mRoots with
  | none => none
  | some m1 => rebuildFreeList { h with mem := m1 }

/-! ## Linear arena walk and statistics -/

/-- The walk `for(blk = mHeapStart; blk < mHeapEnd; blk = blk->following())`,
returning the visited blocks and the first address at or past `mHeapEnd`. -/
def walkFrom (m : Mem) : Nat → Nat → Nat → Option (List (Nat × Block) × Nat)
  | 0, _, _ => none
  | fuel + 1, a, heapEnd =>
    if a < heapEnd then
      match m.lookup a with
      | none => none
      | some blk =>
        match walkFrom m fuel (Block.followingOf a blk) heapEnd with
        | none => none
        | some (l, e) => some ((a, blk) :: l, e)
    else some ([], a)

/-- The linear arena walk of a heap, from `mHeapStart`. -/
def walk (h : HeapState) : Option (List (Nat × Block) × Nat) :=
  walkFrom h.mem (h.heapEnd + 1) 0 h.heapEnd

/-- The statistics of `HeapBase::collectHeapStats` that do not require live
counting. -/
structure HeapStats where
  heapSize : Nat
  usedSize : Nat
  freeSize : Nat
  numFreeBlocks : Nat
  freeBlockSize : Nat
  numObjects : Nat
  objectSize : Nat
  deriving DecidableEq

/-- One step of the statistics walk (the loop body at Heap.cpp:386-401). -/
def statsStep (s : HeapStats) (ab : Nat × Block) : HeapStats :=
  let b := ab.2
  if b.isFree then
    { s with
        numFreeBlocks := s.numFreeBlocks + 1
        freeBlockSize := s.freeBlockSize + b.mSize
        freeSize := s.freeSize + (Align + align b.mSize) }
  else
    { s with
        numObjects := s.numObjects + 1
        objectSize := s.objectSize + objSize b
        usedSize := s.usedSize + (Align + align b.mSize) }
where
  /-- `blk->type().size()` of a used block. -/
  objSize (b : Block) : Nat :=
    match b.hptr with
    | .typeDesc t => t.size
    | .cursor t _ => t.size
    | .free _ => 0

/-- `HeapBase::collectHeapStats(false)`: the linear walk accumulating sizes
and counts.  (With `countLiveObjects = false` no marking happens, and the
mark-clearing in the used branch is a no-op because outside a collection
cycle every mark is clear.) -/
def collectHeapStats (h : HeapState) : Option HeapStats :=
  match walk h with
  | none => none
  | some (l, _) =>
    some (l.foldl statsStep
      { heapSize := h.heapEnd, usedSize := 0, freeSize := 0,
        numFreeBlocks := 0, freeBlockSize := 0, numObjects := 0,
        objectSize := 0 })

/-! ## Basic lemmas about the memory model -/

theorem Mem.lookup_set (m : Mem) (a : Nat) (b : Block) (x : Nat) :
    (m.set a b).lookup x = if a = x then some b else m.lookup x := by
  induction m with
  | nil =>
    simp only [Mem.set, Mem.lookup]
  | cons hd tl ih =>
    obtain ⟨a1, b1⟩ := hd
    by_cases h1 : a1 = a
    · subst h1
      by_cases h2 : a1 = x <;> simp [Mem.set, Mem.lookup, h2]
    · by_cases h2 : a1 = x
      · subst h2
        have : ¬a = a1 := fun h => h1 h.symm
        simp [Mem.set, Mem.lookup, h1, this]
      · simp [Mem.set, Mem.lookup, h1, h2, ih]

theorem Mem.lookup_set_self (m : Mem) (a : Nat) (b : Block) :
    (m.set a b).lookup a = some b := by
  simp [Mem.lookup_set]

theorem Mem.lookup_set_ne (m : Mem) (a : Nat) (b : Block) (x : Nat)
    (h : a ≠ x) : (m.set a b).lookup x = m.lookup x := by
  simp [Mem.lookup_set, h]

/-! ## C10 — root registration and removal -/

theorem removeFirst_append (l1 l2 : List Nat) (p : Nat) (h : p ∉ l1) :
    removeFirst (l1 ++ p :: l2) p = l1 ++ l2 := by
  induction l1 with
  | nil => simp [removeFirst]
  | cons x xs ih =>
    have hx : x ≠ p := by
      intro hq
      exact h (hq ▸ List.mem_cons_self x xs)
    have hxs : p ∉ xs := fun hm => h (List.mem_cons_of_mem x hm)
    simp [removeFirst, hx, ih hxs]

theorem removeFirst_not_mem (l : List Nat) (p : Nat) (h : p ∉ l) :
    removeFirst l p = l := by
  induction l with
  | nil => rfl
  | cons x xs ih =>
    have hx : x ≠ p := by
      intro hq
      exact h (hq ▸ List.mem_cons_self x xs)
    have hxs : p ∉ xs := fun hm => h (List.mem_cons_of_mem x hm)
    simp [removeFirst, hx, ih hxs]

/-- C10: the heap exposes root removal: `registerRoot` appends the payload
pointer to the ordered roots list, and `removeRoot` (modelled from the spec,
see its doc comment) removes the first entry equal to the given pointer,
leaves the rest of the list unchanged, and reports no error when no entry
matches (it is total and leaves the list as is). -/
theorem C10_register_remove_roots (h : HeapState) (p : Nat) :
    (registerRoot h p).mRoots = h.mRoots ++ [p] ∧
    (∀ l1 l2, h.mRoots = l1 ++ p :: l2 → p ∉ l1 →
      (removeRoot h p).mRoots = l1 ++ l2) ∧
    (p ∉ h.mRoots → removeRoot h p = h) := by
  refine ⟨rfl, ?_, ?_⟩
  · intro l1 l2 hsplit hnot
    simp [removeRoot, hsplit, removeFirst_append l1 l2 p hnot]
  · intro hnot
    simp [removeRoot, removeFirst_not_mem h.mRoots p hnot]

theorem C10_register_remove_roots_witness :
    (removeRoot ⟨[], none, [1, 2, 2, 3], 0⟩ 2).mRoots = [1] ++ [2, 3] :=
  (C10_register_remove_roots ⟨[], none, [1, 2, 2, 3], 0⟩ 2).2.1 [1] [2, 3]
    rfl (by decide)

/-! ## C5 — the split rule (code bug)

`Block::split`'s own documentation says: "If there is enough space for
another block, then this block will be resized to the new size and a new
block will be added after it; if there is not enough space then nothing will
be changed."  The code creates and links the new block but never updates
`mSize` of the block being split.  Moreover `restSize` is computed in
`std::size_t`, so for an exact fit (`align(mSize) = align(newSize)`) the
mathematically negative residue wraps around to `2^64 - Align ≥ Align` and a
bogus free block of that size is created. -/

/-- A 16-byte type with no pointer fields. -/
def ty16 : TypeDescriptor := ⟨16, []⟩

/-- A 144-byte type with no pointer fields. -/
def ty144 : TypeDescriptor := ⟨144, []⟩

/-- The heap of raw size 160 after allocating one 16-byte object and
deallocating it again: the free list holds the head block (payload 144,
still covering the whole arena because `split` did not shrink it) and the
split-off rest block (payload 112). -/
def splitDemoHeap : HeapState :=
  deallocate (allocate (initHeap 160) ty16 false).1 16

/-- C5, evaluated at the failing inputs.  First conjunct group: allocating 16
bytes from the initial 144-byte free block splits it (a new free block of
payload 112 appears at address 32 and takes its place in the free list), yet
the chosen block's stored size stays 144 instead of the claimed requested
aligned size 16.  Second group: an exact-fit request of 144 bytes on a
144-byte free block has mathematical residue `144 - 144 - 16 < 16`, so per
the claim the whole block must be handed out unchanged, but the code's
`size_t` arithmetic wraps and splits off a free block of size `2^64 - 16`. -/
theorem C5_split_code_eval :
    ((allocate (initHeap 160) ty16 false).2 = some 16 ∧
      (allocate (initHeap 160) ty16 false).1.mem.lookup 0 =
        some ⟨144, false, .typeDesc ty16, []⟩ ∧
      (allocate (initHeap 160) ty16 false).1.mem.lookup 32 =
        some (Block.mkFree 112 none)) ∧
    ((allocate splitDemoHeap ty144 false).2 = some 16 ∧
      (allocate splitDemoHeap ty144 false).1.mem.lookup 160 =
        some (Block.mkFree (2 ^ 64 - 16) (some 32))) := by
  constructor
  · refine ⟨by decide, by decide, by decide⟩
  · refine ⟨by decide, by decide⟩

/-! ## C8 — the gc driver does not skip already-marked roots (code bug)

`HeapBase::gc` runs `for(auto root : mRoots) this->mark(root);` with no mark
check, while `HeapBase::mark` asserts `!block(root).mark()`.  If a later root
was already reached from an earlier root, the assertion precondition is
violated. -/

/-- A type with one pointer field at offset 0. -/
def tyPtr : TypeDescriptor := ⟨16, [0]⟩

/-- Two used blocks: the object at payload 16 points to the object at payload
48; both are registered as roots. -/
def twoRootHeap : HeapState :=
  { mem := [(0, ⟨16, false, .typeDesc tyPtr, [(0, some 48)]⟩),
            (32, ⟨16, false, .typeDesc tyPtr, [(0, none)]⟩)]
    mFreeList := none
    mRoots := [16, 48]
    heapEnd := 64 }

/-- C8, evaluated at the failing input: after the driver marks the first
root, the block of the second root is already marked; the driver nevertheless
enters `mark` for it, whose precondition assertion `!block(root).mark()`
fails (modelled by `markRoot` returning `none`), so the marking phase of
`gc()` does not complete.  The claimed skipping of already-marked roots does
not exist in the code. -/
theorem C8_driver_enters_marked_root :
    ((markRoot twoRootHeap.mem 16).map
        (fun m => (m.lookup 32).map Block.mark) = some (some true)) ∧
    markRoot ((markRoot twoRootHeap.mem 16).getD []) 48 = none ∧
    gcMarkPhase twoRootHeap.mem twoRootHeap.mRoots = none ∧
    gc twoRootHeap = none := by
  refine ⟨by decide, by decide, by decide, by decide⟩

/-! ## C4 — conservation and the arena walk under allocate/deallocate

The sequences of heap operations the claim quantifies over. -/

inductive HeapOp where
  | alloc (ty : TypeDescriptor) (isRoot : Bool)
  | dealloc (p : Nat)

/-- Apply one operation (`allocate` discarding the returned pointer,
or `deallocate`). -/
def applyOp (h : HeapState) : HeapOp → HeapState
  | .alloc ty r => (allocate h ty r).1
  | .dealloc p => deallocate h p

/-- Apply a sequence of operations in order. -/
def applyOps (h : HeapState) : List HeapOp → HeapState
  | [] => h
  | op :: ops => applyOps (applyOp h op) ops

/-- The data the arena walk of this implementation depends on: the block at
`mHeapStart` spans the arena exactly (`split` never shrinks `mSize`, so this
holds in every state reachable from a fresh heap). -/
def headInv (h : HeapState) : Prop :=
  ∃ b0, h.mem.lookup 0 = some b0 ∧ Align + align b0.mSize = h.heapEnd

theorem set_msize_zero (m : Mem) (a : Nat) (b blk : Block)
    (ha : m.lookup a = some blk) (hs : b.mSize = blk.mSize) :
    ((m.set a b).lookup 0).map Block.mSize = (m.lookup 0).map Block.mSize := by
  by_cases h : a = 0
  · subst h
    rw [ha, Mem.lookup_set_self]
    simp [hs]
  · rw [Mem.lookup_set_ne _ _ _ _ h]

theorem splitBlock_msize_zero (m : Mem) (addr : Nat) (s : Nat) :
    ((splitBlock m addr s).lookup 0).map Block.mSize =
      (m.lookup 0).map Block.mSize := by
  unfold splitBlock
  cases hm : m.lookup addr with
  | none => simp
  | some blk =>
    simp only
    split
    · have hA : Align = 16 := rfl
      have hnew : addr + Align + align s ≠ 0 := by omega
      by_cases h0 : addr = 0
      · subst h0
        rw [Mem.lookup_set_self, hm]
        rfl
      · rw [Mem.lookup_set_ne _ _ _ _ h0, Mem.lookup_set_ne _ _ _ _ hnew]
    · rfl

theorem tryAllocate_msize_zero (h : HeapState) (ty : TypeDescriptor)
    (h1 : HeapState) (p : Nat) (ht : tryAllocate h ty = some (h1, p)) :
    (h1.mem.lookup 0).map Block.mSize = (h.mem.lookup 0).map Block.mSize ∧
    h1.heapEnd = h.heapEnd := by
  unfold tryAllocate at ht
  split at ht
  · exact absurd ht (by simp)
  · rename_i pc prev c hf
    simp only at ht
    split at ht
    · exact absurd ht (by simp)
    · rename_i curBlk hm1
      have hsplit0 := splitBlock_msize_zero h.mem c ty.size
      split at ht
      · rename_i q
        split at ht
        · exact absurd ht (by simp)
        · rename_i qblk hq
          obtain ⟨hh, -⟩ : ({ h with
              mem := ((splitBlock h.mem c ty.size).set q
                (qblk.setNext curBlk.nextFree)).set c (curBlk.setType ty) } :
              HeapState) = h1 ∧ c + Align = p := by
            have := Option.some.inj ht
            exact ⟨congrArg Prod.fst this, congrArg Prod.snd this⟩
          subst hh
          refine ⟨?_, rfl⟩
          have hstep1 : (((splitBlock h.mem c ty.size).set q
              (qblk.setNext curBlk.nextFree)).lookup 0).map Block.mSize =
              ((splitBlock h.mem c ty.size).lookup 0).map Block.mSize :=
            set_msize_zero _ q _ qblk hq rfl
          by_cases hqc : q = c
          · subst hqc
            have hc2 : ((splitBlock h.mem q ty.size).set q
                (qblk.setNext curBlk.nextFree)).lookup q =
                some (qblk.setNext curBlk.nextFree) := Mem.lookup_set_self _ _ _
            have hqb : qblk = curBlk := by
              rw [hq] at hm1
              exact Option.some.inj hm1
            calc ((((splitBlock h.mem q ty.size).set q
                    (qblk.setNext curBlk.nextFree)).set q
                    (curBlk.setType ty)).lookup 0).map Block.mSize
                = (((splitBlock h.mem q ty.size).set q
                    (qblk.setNext curBlk.nextFree)).lookup 0).map
                    Block.mSize := by
                  refine set_msize_zero _ q _ (qblk.setNext curBlk.nextFree)
                    hc2 ?_
                  simp [Block.setType, Block.setNext, hqb]
              _ = (h.mem.lookup 0).map Block.mSize := by
                  rw [hstep1, hsplit0]
          · have hc2 : ((splitBlock h.mem c ty.size).set q
                (qblk.setNext curBlk.nextFree)).lookup c = some curBlk := by
              rw [Mem.lookup_set_ne _ _ _ _ hqc, hm1]
            calc ((((splitBlock h.mem c ty.size).set q
                    (qblk.setNext curBlk.nextFree)).set c
                    (curBlk.setType ty)).lookup 0).map Block.mSize
                = (((splitBlock h.mem c ty.size).set q
                    (qblk.setNext curBlk.nextFree)).lookup 0).map
                    Block.mSize := set_msize_zero _ c _ curBlk hc2 rfl
              _ = (h.mem.lookup 0).map Block.mSize := by
                  rw [hstep1, hsplit0]
      · obtain ⟨hh, -⟩ : ({ h with
            mem := (splitBlock h.mem c ty.size).set c (curBlk.setType ty),
            mFreeList := curBlk.nextFree } : HeapState) = h1 ∧
            c + Align = p := by
          have := Option.some.inj ht
          exact ⟨congrArg Prod.fst this, congrArg Prod.snd this⟩
        subst hh
        refine ⟨?_, rfl⟩
        calc (((splitBlock h.mem c ty.size).set c
                (curBlk.setType ty)).lookup 0).map Block.mSize
            = ((splitBlock h.mem c ty.size).lookup 0).map Block.mSize :=
              set_msize_zero _ c _ curBlk hm1 rfl
          _ = (h.mem.lookup 0).map Block.mSize := hsplit0

theorem headInv_tryAllocate (h : HeapState) (ty : TypeDescriptor)
    (h1 : HeapState) (p : Nat) (ht : tryAllocate h ty = some (h1, p))
    (hi : headInv h) : headInv h1 := by
  obtain ⟨b0, hb0, hspan⟩ := hi
  obtain ⟨hm, he⟩ := tryAllocate_msize_zero h ty h1 p ht
  rw [hb0] at hm
  cases hl : h1.mem.lookup 0 with
  | none => rw [hl] at hm; exact absurd hm (by simp)
  | some b1 =>
    rw [hl] at hm
    simp only [Option.map] at hm
    have hm' : b1.mSize = b0.mSize := Option.some.inj hm
    exact ⟨b1, hl, by rw [hm', he]; exact hspan⟩

theorem headInv_applyOp (h : HeapState) (op : HeapOp) (hi : headInv h) :
    headInv (applyOp h op) := by
  cases op with
  | alloc ty r =>
    show headInv (allocate h ty r).1
    unfold allocate
    cases hfl : h.mFreeList with
    | none => exact hi
    | some fl =>
      cases ht : tryAllocate h ty with
      | some res =>
        obtain ⟨h1, p⟩ := res
        obtain ⟨b1, hb1, hs1⟩ := headInv_tryAllocate h ty h1 p ht hi
        cases r
        · exact ⟨b1, hb1, hs1⟩
        · exact ⟨b1, hb1, hs1⟩
      | none =>
        cases ht2 : tryAllocate (mergeBlocks h) ty with
        | some res =>
          obtain ⟨h1, p⟩ := res
          obtain ⟨b1, hb1, hs1⟩ :=
            headInv_tryAllocate (mergeBlocks h) ty h1 p ht2 hi
          cases r
          · exact ⟨b1, hb1, hs1⟩
          · exact ⟨b1, hb1, hs1⟩
        | none => exact hi
  | dealloc p =>
    show headInv (deallocate h p)
    unfold deallocate
    split
    · exact hi
    · rename_i blk hl
      obtain ⟨b0, hb0, hspan⟩ := hi
      have hz := set_msize_zero h.mem (p - Align) (blk.setNext h.mFreeList) blk
        hl rfl
      rw [hb0] at hz
      cases hl2 : (h.mem.set (p - Align) (blk.setNext h.mFreeList)).lookup 0 with
      | none => rw [hl2] at hz; exact absurd hz (by simp)
      | some b1 =>
        rw [hl2] at hz
        simp only [Option.map] at hz
        have hm' : b1.mSize = b0.mSize := Option.some.inj hz
        exact ⟨b1, hl2, by rw [hm']; exact hspan⟩

theorem headInv_applyOps (h : HeapState) (ops : List HeapOp) (hi : headInv h) :
    headInv (applyOps h ops) := by
  induction ops generalizing h with
  | nil => exact hi
  | cons op ops ih => exact ih _ (headInv_applyOp h op hi)

theorem headInv_initHeap (N : Nat) (hdvd : Align ∣ N) (hN : 2 * Align ≤ N) :
    headInv (initHeap N) := by
  refine ⟨Block.mkFree (N - Align) none, rfl, ?_⟩
  obtain ⟨k, hk⟩ := hdvd
  subst hk
  simp only [initHeap, Block.mkFree, align, Align] at *
  have h2 : 2 ≤ k := by omega
  have : (16 * k - 16 + 16 - 1) % 16 = 15 := by
    have : 16 * k - 16 + 16 - 1 = 16 * (k - 1) + 15 := by omega
    rw [this]
    omega
  omega

theorem headInv_walk (h : HeapState) (hi : headInv h) :
    ∃ b0, h.mem.lookup 0 = some b0 ∧
      walk h = some ([(0, b0)], h.heapEnd) := by
  obtain ⟨b0, hb0, hspan⟩ := hi
  refine ⟨b0, hb0, ?_⟩
  have hA : Align = 16 := rfl
  have hpos : 16 ≤ h.heapEnd := by omega
  obtain ⟨e, he⟩ : ∃ e, h.heapEnd = e + 16 := ⟨h.heapEnd - 16, by omega⟩
  unfold walk
  rw [he]
  show walkFrom h.mem (e + 16 + 1) 0 (e + 16) = some ([(0, b0)], e + 16)
  rw [show e + 16 + 1 = (e + 16) + 1 from rfl]
  unfold walkFrom
  simp only [show (0 : Nat) < e + 16 from by omega, if_pos, hb0]
  have hfoll : Block.followingOf 0 b0 = e + 16 := by
    have hsp : Align + align b0.mSize = e + 16 := by rw [← he]; exact hspan
    simp only [Block.followingOf, Nat.zero_add]
    exact hsp
  rw [hfoll]
  obtain ⟨f, hf⟩ : ∃ f, e + 16 = f + 1 := ⟨e + 15, by omega⟩
  rw [hf]
  unfold walkFrom
  simp

/-- C4: starting from a fresh heap of any properly aligned raw size, after
every sequence of `allocate` and `deallocate` operations (hence after each
individual operation, since every prefix is such a sequence):
`usedSize + freeSize = heapSize` in the collected statistics, the linear walk
from the heap start terminates exactly at the arena end, and summing
`Align + align(payload_size)` over the visited blocks exactly covers the
arena.  (In this implementation `split` never updates the size of the block
it splits, so a split allocation leaves the walk unchanged and the invariant
is preserved.) -/
theorem C4_conservation_and_walk (N : Nat) (hdvd : Align ∣ N)
    (hN : 2 * Align ≤ N) (ops : List HeapOp) :
    ∃ st l,
      collectHeapStats (applyOps (initHeap N) ops) = some st ∧
      st.usedSize + st.freeSize = st.heapSize ∧
      walk (applyOps (initHeap N) ops) =
        some (l, (applyOps (initHeap N) ops).heapEnd) ∧
      (l.map (fun ab => Align + align ab.2.mSize)).sum =
        (applyOps (initHeap N) ops).heapEnd := by
  have hi := headInv_applyOps (initHeap N) ops (headInv_initHeap N hdvd hN)
  obtain ⟨b0, hb0, hwalk⟩ := headInv_walk _ hi
  obtain ⟨b0', hb0', hspan⟩ := hi
  have hbb : b0' = b0 := by
    rw [hb0] at hb0'
    exact (Option.some.inj hb0').symm
  rw [hbb] at hspan
  have hstats : collectHeapStats (applyOps (initHeap N) ops) =
      some (statsStep
        { heapSize := (applyOps (initHeap N) ops).heapEnd, usedSize := 0,
          freeSize := 0, numFreeBlocks := 0, freeBlockSize := 0,
          numObjects := 0, objectSize := 0 } (0, b0)) := by
    unfold collectHeapStats
    rw [hwalk]
    rfl
  refine ⟨_, [(0, b0)], hstats, ?_, hwalk, ?_⟩
  · unfold statsStep
    cases hfree : b0.isFree <;> simp [hfree, hspan]
  · simpa using hspan

/-- Witness for C4 at a concrete input: raw size 160 and a sequence that
allocates (with a split), deallocates, and allocates an exact fit. -/
theorem C4_conservation_and_walk_witness :
    Align ∣ 160 ∧ 2 * Align ≤ 160 ∧
    ∃ st l,
      collectHeapStats (applyOps (initHeap 160)
        [.alloc ty16 false, .dealloc 16, .alloc ty144 false]) = some st ∧
      st.usedSize + st.freeSize = st.heapSize ∧
      walk (applyOps (initHeap 160)
        [.alloc ty16 false, .dealloc 16, .alloc ty144 false]) =
        some (l, (applyOps (initHeap 160)
          [.alloc ty16 false, .dealloc 16, .alloc ty144 false]).heapEnd) ∧
      (l.map (fun ab => Align + align ab.2.mSize)).sum =
        (applyOps (initHeap 160)
          [.alloc ty16 false, .dealloc 16, .alloc ty144 false]).heapEnd :=
  ⟨by decide, by decide,
    C4_conservation_and_walk 160 (by decide) (by decide)
      [.alloc ty16 false, .dealloc 16, .alloc ty144 false]⟩

/-! ## C9 — first-fit allocation -/

/-- `ChainTo m head l tail`: following `Block::next()` links from `head`
visits exactly the free blocks `l` and ends with the link value `tail`
(`tail = none` for the full, null-terminated free list). -/
inductive ChainTo (m : Mem) : Option Nat → List Nat → Option Nat → Prop
  | nil (p : Option Nat) : ChainTo m p [] p
  | cons (c : Nat) (b : Block) (rest : List Nat) (tail : Option Nat) :
      m.lookup c = some b → b.isFree = true →
      ChainTo m b.nextFree rest tail → ChainTo m (some c) (c :: rest) tail

/-- The first block in free-list order whose payload size is at least the
request: the specification of first fit. -/
def firstFit (m : Mem) (l : List Nat) (r : Nat) : Option Nat :=
  l.find? fun c =>
    match m.lookup c with
    | some b => decide (r ≤ b.mSize)
    | none => false

theorem ChainTo_congr (m m' : Mem) :
    ∀ (l : List Nat) (cur t : Option Nat), ChainTo m cur l t →
      (∀ x ∈ l, m'.lookup x = m.lookup x) → ChainTo m' cur l t := by
  intro l
  induction l with
  | nil =>
    intro cur t hch _
    cases hch
    exact ChainTo.nil _
  | cons x xs ih =>
    intro cur t hch hx
    cases hch with
    | cons _ b _ _ hlook hfree hrest =>
      refine ChainTo.cons x b xs t ?_ hfree
        (ih _ _ hrest fun y hy => hx y (List.mem_cons_of_mem x hy))
      rw [hx x (List.mem_cons_self x xs)]
      exact hlook

theorem ChainTo_append (m : Mem) :
    ∀ (l1 : List Nat) (a : Option Nat) (l2 : List Nat) (t u : Option Nat),
      ChainTo m a l1 t → ChainTo m t l2 u → ChainTo m a (l1 ++ l2) u := by
  intro l1
  induction l1 with
  | nil =>
    intro a l2 t u h1 h2
    cases h1
    exact h2
  | cons x xs ih =>
    intro a l2 t u h1 h2
    cases h1 with
    | cons _ b _ _ hlook hfree hrest =>
      exact ChainTo.cons x b (xs ++ l2) u hlook hfree (ih _ _ _ _ hrest h2)

theorem ChainTo_split (m : Mem) :
    ∀ (l1 : List Nat) (c : Nat) (l2 : List Nat) (a t : Option Nat),
      ChainTo m a (l1 ++ c :: l2) t →
      ChainTo m a l1 (some c) ∧
        ∃ b, m.lookup c = some b ∧ b.isFree = true ∧
          ChainTo m b.nextFree l2 t := by
  intro l1
  induction l1 with
  | nil =>
    intro c l2 a t hch
    cases hch with
    | cons _ b _ _ hlook hfree hrest =>
      exact ⟨ChainTo.nil _, b, hlook, hfree, hrest⟩
  | cons x xs ih =>
    intro c l2 a t hch
    cases hch with
    | cons _ b _ _ hlook hfree hrest =>
      obtain ⟨h1, hb⟩ := ih c l2 _ _ hrest
      exact ⟨ChainTo.cons x b xs (some c) hlook hfree h1, hb⟩

theorem ChainTo_relink (m m' : Mem) (p : Nat) (nxt : Option Nat) :
    ∀ (l1 : List Nat) (cur t : Option Nat),
      ChainTo m cur (l1 ++ [p]) t → p ∉ l1 →
      (∀ x ∈ l1, m'.lookup x = m.lookup x) →
      (∀ b, m.lookup p = some b → m'.lookup p = some (b.setNext nxt)) →
      ChainTo m' cur (l1 ++ [p]) nxt := by
  intro l1
  induction l1 with
  | nil =>
    intro cur t hch _ _ hp
    cases hch with
    | cons _ b _ _ hlook hfree _ =>
      refine ChainTo.cons p (b.setNext nxt) [] nxt (hp b hlook) rfl ?_
      exact ChainTo.nil _
  | cons x xs ih =>
    intro cur t hch hpn hx hp
    cases hch with
    | cons _ b _ _ hlook hfree hrest =>
      have hxp : x ≠ p := fun hq => hpn (hq ▸ List.mem_cons_self x xs)
      refine ChainTo.cons x b (xs ++ [p]) nxt ?_ hfree ?_
      · rw [hx x (List.mem_cons_self x xs)]
        exact hlook
      · exact ih _ _ hrest (fun hq => hpn (List.mem_cons_of_mem x hq))
          (fun y hy => hx y (List.mem_cons_of_mem x hy)) hp

theorem ChainTo_lookup_some (m : Mem) :
    ∀ (l : List Nat) (a t : Option Nat), ChainTo m a l t →
      ∀ x ∈ l, ∃ b, m.lookup x = some b := by
  intro l
  induction l with
  | nil => intro a t _ x hx; exact absurd hx (List.not_mem_nil x)
  | cons y ys ih =>
    intro a t hch x hx
    cases hch with
    | cons _ b _ _ hlook _ hrest =>
      rcases List.mem_cons.mp hx with hq | hq
      · exact ⟨b, hq ▸ hlook⟩
      · exact ih _ _ hrest x hq

theorem lookup_mem_keys (m : Mem) (x : Nat) (b : Block)
    (h : m.lookup x = some b) : x ∈ m.map Prod.fst := by
  induction m with
  | nil => exact absurd h (by simp [Mem.lookup])
  | cons hd tl ih =>
    obtain ⟨a1, b1⟩ := hd
    by_cases hq : a1 = x
    · simp [hq]
    · simp only [Mem.lookup, hq, if_false] at h
      simpa using Or.inr (List.mem_map.mp (ih h) |>.elim
        fun y hy => List.mem_map.mpr ⟨y, hy⟩)

theorem chain_length_le (m : Mem) (a : Option Nat) (l : List Nat)
    (t : Option Nat) (h : ChainTo m a l t) (hnd : l.Nodup) :
    l.length ≤ m.length := by
  have hsub : l ⊆ m.map Prod.fst := by
    intro x hx
    obtain ⟨b, hb⟩ := ChainTo_lookup_some m l a t h x hx
    exact lookup_mem_keys m x b hb
  have := List.Subperm.length_le (List.subperm_of_subset hnd hsub)
  simpa using this

theorem findFit_cons (m : Mem) (fuel : Nat) (prev : Option Nat) (c : Nat)
    (ty : TypeDescriptor) (b : Block) (hb : m.lookup c = some b) :
    findFit m (fuel + 1) prev (some c) ty =
      if b.mSize < ty.size then findFit m fuel (some c) b.nextFree ty
      else some (prev, c) := by
  show (match m.lookup c with
    | none => none
    | some blk =>
      if blk.mSize < ty.size then findFit m fuel (some c) blk.nextFree ty
      else some (prev, c)) =
    if b.mSize < ty.size then findFit m fuel (some c) b.nextFree ty
    else some (prev, c)
  rw [hb]

theorem findFit_chain_none (m : Mem) (ty : TypeDescriptor) :
    ∀ (l : List Nat) (fuel : Nat) (cur prev : Option Nat),
      ChainTo m cur l none → l.length < fuel →
      firstFit m l ty.size = none →
      findFit m fuel prev cur ty = none := by
  intro l
  induction l with
  | nil =>
    intro fuel cur prev hch hfuel _
    cases hch
    obtain ⟨f, rfl⟩ : ∃ f, fuel = f + 1 := ⟨fuel - 1, by omega⟩
    rfl
  | cons c0 rest ih =>
    intro fuel cur prev hch hfuel hff
    cases hch with
    | cons _ b _ _ hlook hfree hrest =>
      obtain ⟨f, rfl⟩ : ∃ f, fuel = f + 1 := ⟨fuel - 1, by omega⟩
      have hsmall : b.mSize < ty.size := by
        by_contra hq
        have : firstFit m (c0 :: rest) ty.size = some c0 := by
          simp [firstFit, List.find?, hlook, Nat.le_of_not_lt hq]
        rw [hff] at this
        exact absurd this (by simp)
      have hff2 : firstFit m rest ty.size = none := by
        have hd : decide (ty.size ≤ b.mSize) = false :=
          decide_eq_false (Nat.not_le.mpr hsmall)
        simp only [firstFit, List.find?, hlook, hd] at hff
        exact hff
      show findFit m (f + 1) prev (some c0) ty = none
      rw [findFit_cons m f prev c0 ty b hlook, if_pos hsmall]
      exact ih f b.nextFree (some c0) hrest (by simpa using hfuel) hff2

theorem findFit_chain_some (m : Mem) (ty : TypeDescriptor) :
    ∀ (l : List Nat) (fuel : Nat) (cur prev : Option Nat) (c : Nat),
      ChainTo m cur l none → l.length < fuel →
      firstFit m l ty.size = some c →
      ∃ l1 l2 blk, l = l1 ++ c :: l2 ∧
        m.lookup c = some blk ∧ ty.size ≤ blk.mSize ∧
        findFit m fuel prev cur ty =
          some (l1.foldl (fun _ x => some x) prev, c) := by
  intro l
  induction l with
  | nil =>
    intro fuel cur prev c _ _ hff
    exact absurd hff (by simp [firstFit])
  | cons c0 rest ih =>
    intro fuel cur prev c hch hfuel hff
    cases hch with
    | cons _ b _ _ hlook hfree hrest =>
      obtain ⟨f, rfl⟩ : ∃ f, fuel = f + 1 := ⟨fuel - 1, by omega⟩
      by_cases hsmall : b.mSize < ty.size
      · have hff2 : firstFit m rest ty.size = some c := by
          have hd : decide (ty.size ≤ b.mSize) = false :=
            decide_eq_false (Nat.not_le.mpr hsmall)
          simp only [firstFit, List.find?, hlook, hd] at hff
          exact hff
        obtain ⟨l1, l2, blk, hdec, hlk, hge, hfind⟩ :=
          ih f b.nextFree (some c0) c hrest (by simpa using hfuel) hff2
        refine ⟨c0 :: l1, l2, blk, by rw [hdec]; rfl, hlk, hge, ?_⟩
        show findFit m (f + 1) prev (some c0) ty = _
        rw [findFit_cons m f prev c0 ty b hlook, if_pos hsmall, hfind]
        rfl
      · have hc : c = c0 := by
          have hd : decide (ty.size ≤ b.mSize) = true :=
            decide_eq_true (Nat.le_of_not_lt hsmall)
          have : firstFit m (c0 :: rest) ty.size = some c0 := by
            simp only [firstFit, List.find?, hlook, hd]
          rw [hff] at this
          exact Option.some.inj this
        subst hc
        refine ⟨[], rest, b, rfl, hlook, Nat.le_of_not_lt hsmall, ?_⟩
        show findFit m (f + 1) prev (some c) ty = some (prev, c)
        rw [findFit_cons m f prev c ty b hlook, if_neg hsmall]

/-- `Block::split` at an address holding `blk`, written out. -/
theorem splitBlock_eq (m : Mem) (c : Nat) (s : Nat) (blk : Block)
    (hm : m.lookup c = some blk) :
    splitBlock m c s =
      if Align ≤ sizetSub (sizetSub (align blk.mSize) (align s)) Align then
        (m.set (c + Align + align s)
          (Block.mkFree (sizetSub (sizetSub (align blk.mSize) (align s)) Align)
            blk.nextFree)).set c (blk.setNext (some (c + Align + align s)))
      else m := by
  unfold splitBlock
  rw [hm]

theorem tryAllocate_none_of_mFreeList_none (h : HeapState)
    (ty : TypeDescriptor) (hfl : h.mFreeList = none) :
    tryAllocate h ty = none := by
  unfold tryAllocate
  rw [hfl]
  rfl

theorem allocate_of_tryAllocate (h : HeapState) (ty : TypeDescriptor)
    (h1 : HeapState) (q : Nat) (ht : tryAllocate h ty = some (h1, q)) :
    allocate h ty false = (h1, some q) := by
  unfold allocate
  cases hfl : h.mFreeList with
  | none =>
    rw [tryAllocate_none_of_mFreeList_none h ty hfl] at ht
    exact absurd ht (by simp)
  | some fl =>
    simp only [ht]
    rfl

/-- C9: given a fixed free-list state (viewed as the chain `l`, with no
duplicate blocks and the address of a would-be split-off block fresh) and a
fixed request, the block chosen by the allocator is uniquely determined: it
is the first block in free-list order whose payload size is at least
`ty.size`.  On success that block is unlinked from the free list (the
split-off rest block, if any, linked in its place), its header is stamped
with the type descriptor with the free bit cleared (`HeaderPtr.typeDesc`),
and the payload pointer — header address plus `Align` — is returned.  If no
block in the free list suffices, `allocate` calls the (stub) coalescer,
retries once, and returns null leaving the heap unchanged; being a total
function it never throws. -/
theorem C9_first_fit_allocate (h : HeapState) (ty : TypeDescriptor)
    (l : List Nat) (hch : ChainTo h.mem h.mFreeList l none) (hnd : l.Nodup)
    (hfresh : ∀ x ∈ l, x + Align + align ty.size ∉ l) :
    (firstFit h.mem l ty.size = none →
      tryAllocate h ty = none ∧ allocate h ty false = (h, none)) ∧
    (∀ c, firstFit h.mem l ty.size = some c →
      ∃ h1 l1 l2 blk,
        l = l1 ++ c :: l2 ∧ h.mem.lookup c = some blk ∧ ty.size ≤ blk.mSize ∧
        tryAllocate h ty = some (h1, c + Align) ∧
        allocate h ty false = (h1, some (c + Align)) ∧
        h1.heapEnd = h.heapEnd ∧ h1.mRoots = h.mRoots ∧
        (∃ cb, h1.mem.lookup c = some cb ∧ cb.hptr = .typeDesc ty) ∧
        ChainTo h1.mem h1.mFreeList
          (l1 ++ if Align ≤ sizetSub (sizetSub (align blk.mSize)
                    (align ty.size)) Align
                 then (c + Align + align ty.size) :: l2 else l2) none) := by
  have hlen : l.length < h.mem.length + 1 :=
    Nat.lt_succ_of_le (chain_length_le h.mem h.mFreeList l none hch hnd)
  constructor
  · intro hnone
    have hfind := findFit_chain_none h.mem ty l (h.mem.length + 1)
      h.mFreeList none hch hlen hnone
    have hta : tryAllocate h ty = none := by
      unfold tryAllocate
      rw [hfind]
    refine ⟨hta, ?_⟩
    unfold allocate
    cases hfl : h.mFreeList with
    | none => rfl
    | some fl =>
      simp only [mergeBlocks] at *
      rw [hta]
  · intro c hsome
    obtain ⟨l1, l2, blk, hdec, hlk, hge, hfind⟩ := findFit_chain_some h.mem ty
      l (h.mem.length + 1) h.mFreeList none c hch hlen hsome
    subst hdec
    obtain ⟨hnd1, hnd2, hdisj⟩ := List.nodup_append.mp hnd
    have hcl2 : c ∉ l2 := (List.nodup_cons.mp hnd2).1
    have hcl1 : c ∉ l1 := fun hq => hdisj hq (List.mem_cons_self _ _)
    have hcmem : c ∈ l1 ++ c :: l2 := by simp
    have hna : c + Align + align ty.size ∉ l1 ++ c :: l2 := hfresh c hcmem
    have hnal1 : c + Align + align ty.size ∉ l1 := fun hq =>
      hna (List.mem_append.mpr (Or.inl hq))
    have hnal2 : c + Align + align ty.size ∉ l2 := fun hq =>
      hna (List.mem_append.mpr (Or.inr (List.mem_cons_of_mem c hq)))
    have hnac : c + Align + align ty.size ≠ c := by
      have hA : Align = 16 := rfl
      omega
    obtain ⟨hchain1, blk', hlk', hfree', hchain2⟩ :=
      ChainTo_split h.mem l1 c l2 h.mFreeList none hch
    have hbb : blk' = blk := by
      rw [hlk] at hlk'
      exact (Option.some.inj hlk').symm
    subst hbb
    by_cases hsp : Align ≤ sizetSub (sizetSub (align blk'.mSize)
        (align ty.size)) Align
    · -- the chosen block is split; the rest block takes its place
      have hsplit_eq : splitBlock h.mem c ty.size =
          (h.mem.set (c + Align + align ty.size)
            (Block.mkFree (sizetSub (sizetSub (align blk'.mSize)
              (align ty.size)) Align) blk'.nextFree)).set c
            (blk'.setNext (some (c + Align + align ty.size))) := by
        rw [splitBlock_eq h.mem c ty.size blk' hlk, if_pos hsp]
      have hm1 : (splitBlock h.mem c ty.size).lookup c =
          some (blk'.setNext (some (c + Align + align ty.size))) := by
        rw [hsplit_eq]
        exact Mem.lookup_set_self _ _ _
      rcases List.eq_nil_or_concat l1 with rfl | ⟨l1p, p, hl1⟩
      · -- no predecessor: the head of the free list is replaced
        have hfind' : findFit h.mem (h.mem.length + 1) none h.mFreeList ty =
            some (none, c) := by simpa using hfind
        have hta : tryAllocate h ty = some
            ({ h with
                mem := (splitBlock h.mem c ty.size).set c
                  ((blk'.setNext (some (c + Align + align ty.size))).setType
                    ty),
                mFreeList := some (c + Align + align ty.size) }, c + Align) := by
          unfold tryAllocate
          simp only [hfind', hm1]
          rfl
        refine ⟨_, [], l2, blk', rfl, hlk, hge, hta,
          allocate_of_tryAllocate h ty _ _ hta, rfl, rfl,
          ⟨_, Mem.lookup_set_self _ _ _, rfl⟩, ?_⟩
        · rw [if_pos hsp]
          show ChainTo _ (some (c + Align + align ty.size))
            ([] ++ (c + Align + align ty.size) :: l2) none
          refine ChainTo.cons _ (Block.mkFree (sizetSub (sizetSub
            (align blk'.mSize) (align ty.size)) Align) blk'.nextFree) l2 none
            ?_ rfl ?_
          · show ((splitBlock h.mem c ty.size).set c _).lookup _ = _
            rw [Mem.lookup_set_ne _ _ _ _ (fun hq => hnac hq.symm), hsplit_eq,
              Mem.lookup_set_ne _ _ _ _ (fun hq => hnac hq.symm),
              Mem.lookup_set_self]
          · rw [Block.nextFree_mkFree]
            refine ChainTo_congr h.mem _ l2 blk'.nextFree none hchain2 ?_
            intro x hx
            show ((splitBlock h.mem c ty.size).set c _).lookup x = _
            rw [Mem.lookup_set_ne _ _ _ _ (fun hq => hcl2 (by rw [hq]; exact hx)),
              hsplit_eq,
              Mem.lookup_set_ne _ _ _ _ (fun hq => hcl2 (by rw [hq]; exact hx)),
              Mem.lookup_set_ne _ _ _ _ (fun hq => hnal2 (by rw [hq]; exact hx))]
      · -- a predecessor exists: its next pointer is redirected
        rw [List.concat_eq_append] at hl1
        subst hl1
        obtain ⟨pb, hpb⟩ : ∃ pb, h.mem.lookup p = some pb :=
          ChainTo_lookup_some h.mem _ _ _ hchain1 p (by simp)
        have hpc : p ≠ c := fun hq => hcl1 (by rw [← hq]; simp)
        have hpna : p ≠ c + Align + align ty.size := fun hq =>
          hnal1 (by rw [← hq]; simp)
        have hfind' : findFit h.mem (h.mem.length + 1) none h.mFreeList ty =
            some (some p, c) := by
          rw [hfind]
          simp [List.foldl_append]
        have hm1p : (splitBlock h.mem c ty.size).lookup p = some pb := by
          rw [hsplit_eq, Mem.lookup_set_ne _ _ _ _ (fun hq => hpc hq.symm),
            Mem.lookup_set_ne _ _ _ _ (fun hq => hpna hq.symm)]
          exact hpb
        have hta : tryAllocate h ty = some
            ({ h with
                mem := ((splitBlock h.mem c ty.size).set p
                  (pb.setNext ((blk'.setNext (some (c + Align +
                    align ty.size))).nextFree))).set c
                  ((blk'.setNext (some (c + Align + align ty.size))).setType
                    ty) }, c + Align) := by
          unfold tryAllocate
          simp only [hfind', hm1, hm1p]
        refine ⟨_, l1p ++ [p], l2, blk', rfl, hlk, hge, hta,
          allocate_of_tryAllocate h ty _ _ hta, rfl, rfl,
          ⟨_, Mem.lookup_set_self _ _ _, rfl⟩, ?_⟩
        · rw [if_pos hsp]
          refine ChainTo_append _ (l1p ++ [p]) h.mFreeList
            ((c + Align + align ty.size) :: l2)
            (some (c + Align + align ty.size)) none ?_ ?_
          · refine ChainTo_relink h.mem _ p (some (c + Align + align ty.size))
              l1p h.mFreeList (some c) hchain1 ?_ ?_ ?_
            · intro hq
              obtain ⟨hq1, hq2⟩ := List.nodup_append.mp hnd1
              exact hq2.2 hq (by simp)
            · intro x hx
              have hxp : x ≠ p := by
                obtain ⟨-, -, hq2⟩ := List.nodup_append.mp hnd1
                exact fun he => hq2 hx (by simp [he])
              have hxc : x ≠ c := fun hq =>
                hcl1 (by rw [← hq]; exact List.mem_append.mpr (Or.inl hx))
              have hxna : x ≠ c + Align + align ty.size := fun hq =>
                hnal1 (by rw [← hq]; exact List.mem_append.mpr (Or.inl hx))
              show (((splitBlock h.mem c ty.size).set p _).set c _).lookup x = _
              rw [Mem.lookup_set_ne _ _ _ _ (fun hq => hxc hq.symm),
                Mem.lookup_set_ne _ _ _ _ (fun hq => hxp hq.symm), hsplit_eq,
                Mem.lookup_set_ne _ _ _ _ (fun hq => hxc hq.symm),
                Mem.lookup_set_ne _ _ _ _ (fun hq => hxna hq.symm)]
            · intro b hb
              have hbe : b = pb := by
                rw [hpb] at hb
                exact (Option.some.inj hb).symm
              subst hbe
              have hcp : c ≠ p := fun hq => hpc hq.symm
              show (((splitBlock h.mem c ty.size).set p _).set c _).lookup p = _
              rw [Mem.lookup_set_ne _ _ _ _ hcp, Mem.lookup_set_self,
                Block.nextFree_setNext]
          · refine ChainTo.cons _ (Block.mkFree (sizetSub (sizetSub
              (align blk'.mSize) (align ty.size)) Align) blk'.nextFree) l2 none
              ?_ rfl ?_
            · show (((splitBlock h.mem c ty.size).set p _).set c _).lookup _ = _
              rw [Mem.lookup_set_ne _ _ _ _ (fun hq => hnac hq.symm),
                Mem.lookup_set_ne _ _ _ _ hpna, hsplit_eq,
                Mem.lookup_set_ne _ _ _ _ (fun hq => hnac hq.symm),
                Mem.lookup_set_self]
            · rw [Block.nextFree_mkFree]
              refine ChainTo_congr h.mem _ l2 blk'.nextFree none hchain2 ?_
              intro x hx
              have hxc : x ≠ c := fun hq => hcl2 (by rw [← hq]; exact hx)
              have hxna : x ≠ c + Align + align ty.size := fun hq =>
                hnal2 (by rw [← hq]; exact hx)
              have hxp : x ≠ p := fun hq =>
                hdisj (by rw [hq]; simp) (List.mem_cons_of_mem c hx)
              show (((splitBlock h.mem c ty.size).set p _).set c _).lookup x = _
              rw [Mem.lookup_set_ne _ _ _ _ (fun hq => hxc hq.symm),
                Mem.lookup_set_ne _ _ _ _ (fun hq => hxp hq.symm), hsplit_eq,
                Mem.lookup_set_ne _ _ _ _ (fun hq => hxc hq.symm),
                Mem.lookup_set_ne _ _ _ _ (fun hq => hxna hq.symm)]
    · -- no split: the whole block is handed out
      have hsplit_eq : splitBlock h.mem c ty.size = h.mem := by
        rw [splitBlock_eq h.mem c ty.size blk' hlk, if_neg hsp]
      have hm1 : (splitBlock h.mem c ty.size).lookup c = some blk' := by
        rw [hsplit_eq]
        exact hlk
      rcases List.eq_nil_or_concat l1 with rfl | ⟨l1p, p, hl1⟩
      · have hfind' : findFit h.mem (h.mem.length + 1) none h.mFreeList ty =
            some (none, c) := by simpa using hfind
        have hta : tryAllocate h ty = some
            ({ h with
                mem := (splitBlock h.mem c ty.size).set c (blk'.setType ty),
                mFreeList := blk'.nextFree }, c + Align) := by
          unfold tryAllocate
          simp only [hfind', hm1]
        refine ⟨_, [], l2, blk', rfl, hlk, hge, hta,
          allocate_of_tryAllocate h ty _ _ hta, rfl, rfl,
          ⟨_, Mem.lookup_set_self _ _ _, rfl⟩, ?_⟩
        · rw [if_neg hsp]
          show ChainTo _ blk'.nextFree ([] ++ l2) none
          refine ChainTo_congr h.mem _ l2 blk'.nextFree none hchain2 ?_
          intro x hx
          show ((splitBlock h.mem c ty.size).set c _).lookup x = _
          rw [Mem.lookup_set_ne _ _ _ _ (fun hq => hcl2 (by rw [hq]; exact hx)), hsplit_eq]
      · rw [List.concat_eq_append] at hl1
        subst hl1
        obtain ⟨pb, hpb⟩ : ∃ pb, h.mem.lookup p = some pb :=
          ChainTo_lookup_some h.mem _ _ _ hchain1 p (by simp)
        have hpc : p ≠ c := fun hq => hcl1 (by rw [← hq]; simp)
        have hfind' : findFit h.mem (h.mem.length + 1) none h.mFreeList ty =
            some (some p, c) := by
          rw [hfind]
          simp [List.foldl_append]
        have hm1p : (splitBlock h.mem c ty.size).lookup p = some pb := by
          rw [hsplit_eq]
          exact hpb
        have hta : tryAllocate h ty = some
            ({ h with
                mem := ((splitBlock h.mem c ty.size).set p
                  (pb.setNext blk'.nextFree)).set c (blk'.setType ty) },
              c + Align) := by
          unfold tryAllocate
          simp only [hfind', hm1, hm1p]
        refine ⟨_, l1p ++ [p], l2, blk', rfl, hlk, hge, hta,
          allocate_of_tryAllocate h ty _ _ hta, rfl, rfl,
          ⟨_, Mem.lookup_set_self _ _ _, rfl⟩, ?_⟩
        · rw [if_neg hsp]
          refine ChainTo_append _ (l1p ++ [p]) h.mFreeList l2
            blk'.nextFree none ?_ ?_
          · refine ChainTo_relink h.mem _ p blk'.nextFree
              l1p h.mFreeList (some c) hchain1 ?_ ?_ ?_
            · intro hq
              obtain ⟨hq1, hq2⟩ := List.nodup_append.mp hnd1
              exact hq2.2 hq (by simp)
            · intro x hx
              have hxp : x ≠ p := by
                obtain ⟨-, -, hq2⟩ := List.nodup_append.mp hnd1
                exact fun he => hq2 hx (by simp [he])
              have hxc : x ≠ c := fun hq =>
                hcl1 (by rw [← hq]; exact List.mem_append.mpr (Or.inl hx))
              show (((splitBlock h.mem c ty.size).set p _).set c _).lookup x = _
              rw [Mem.lookup_set_ne _ _ _ _ (fun hq => hxc hq.symm),
                Mem.lookup_set_ne _ _ _ _ (fun hq => hxp hq.symm), hsplit_eq]
            · intro b hb
              have hbe : b = pb := by
                rw [hpb] at hb
                exact (Option.some.inj hb).symm
              subst hbe
              have hcp : c ≠ p := fun hq => hpc hq.symm
              show (((splitBlock h.mem c ty.size).set p _).set c _).lookup p = _
              rw [Mem.lookup_set_ne _ _ _ _ hcp, Mem.lookup_set_self]
          · refine ChainTo_congr h.mem _ l2 blk'.nextFree none hchain2 ?_
            intro x hx
            have hxc : x ≠ c := fun hq => hcl2 (by rw [← hq]; exact hx)
            have hxp : x ≠ p := fun hq =>
              hdisj (by rw [hq]; simp) (List.mem_cons_of_mem c hx)
            show (((splitBlock h.mem c ty.size).set p _).set c _).lookup x = _
            rw [Mem.lookup_set_ne _ _ _ _ (fun hq => hxc hq.symm),
              Mem.lookup_set_ne _ _ _ _ (fun hq => hxp hq.symm), hsplit_eq]

/-- A heap with two free blocks (payloads 16 and 96) for exercising first
fit: the first is too small for a 48-byte request, the second fits and is
split. -/
def c9Heap : HeapState :=
  { mem := [(0, Block.mkFree 16 (some 32)), (32, Block.mkFree 96 none)]
    mFreeList := some 0
    mRoots := []
    heapEnd := 144 }

/-- A 48-byte type with no pointer fields. -/
def ty48 : TypeDescriptor := ⟨48, []⟩

theorem C9_first_fit_allocate_witness :
    (allocate c9Heap ty48 false).2 = some 48 := by
  have hch : ChainTo c9Heap.mem c9Heap.mFreeList [0, 32] none :=
    ChainTo.cons 0 (Block.mkFree 16 (some 32)) [32] none rfl rfl
      (ChainTo.cons 32 (Block.mkFree 96 none) [] none rfl rfl
        (ChainTo.nil none))
  obtain ⟨h1, l1, l2, blk, hdec, hlk, hge, hta, hal, -⟩ :=
    (C9_first_fit_allocate c9Heap ty48 [0, 32] hch (by decide) (by decide)).2
      32 (by decide)
  rw [hal]
  rfl

/-! ## C1-C3 — the Deutsch-Schorr-Waite marker

Reachability through the pointer-field graph induced by the type
descriptors' offset lists, and the well-formedness of the object graph the
collector's assertions and documentation presuppose. -/

/-- One edge: a managed-pointer field of the used block with payload `p`
holds `q`. -/
def succAt (m : Mem) (p q : Nat) : Prop :=
  ∃ b t o, m.lookup (p - Align) = some b ∧ b.hptr = .typeDesc t ∧
    o ∈ t.offsets ∧ getField b.fields o.toNat = some q

/-- Reflexive-transitive closure of the pointer-field edges, on payload
addresses. -/
def Reaches (m : Mem) (p q : Nat) : Prop :=
  Relation.ReflTransGen (succAt m) p q

/-- The block of payload `q` is marked. -/
def markedInM (m : Mem) (q : Nat) : Prop :=
  ∃ bq, m.lookup (q - Align) = some bq ∧ bq.mark = true

/-- Well-formedness of the arena between marking calls: free blocks are
unmarked, no header is in cursor mode, offset lists are non-negative,
every managed-pointer field holds null or the payload of a used block, and
every marked block's fields point to marked blocks (marked sets are closed;
trivially true when every mark is clear). -/
def MidWF (m : Mem) : Prop :=
  ∀ a b, m.lookup a = some b →
    (b.isFree = true → b.mark = false) ∧
    (∀ t i, b.hptr ≠ .cursor t i) ∧
    (∀ t, b.hptr = .typeDesc t →
      (∀ o ∈ t.offsets, 0 ≤ o) ∧
      (∀ o ∈ t.offsets, ∀ q, getField b.fields o.toNat = some q →
        Align ≤ q ∧ ∃ bq tq, m.lookup (q - Align) = some bq ∧
          bq.hptr = .typeDesc tq) ∧
      (b.mark = true → ∀ o ∈ t.offsets, ∀ q,
        getField b.fields o.toNat = some q → markedInM m q))

theorem getField_setField (fs : List (Nat × Option Nat)) (k : Nat)
    (v : Option Nat) (x : Nat) :
    getField (setField fs k v) x = if k = x then v else getField fs x := by
  induction fs with
  | nil =>
    simp only [setField, getField]
  | cons hd tl ih =>
    obtain ⟨o, w⟩ := hd
    by_cases h1 : o = k
    · subst h1
      by_cases h2 : o = x <;> simp [setField, getField, h2]
    · by_cases h2 : o = x
      · subst h2
        have : ¬k = o := fun hq => h1 hq.symm
        simp [setField, getField, h1, this]
      · simp [setField, getField, h1, h2, ih]

theorem Mem.lookup_some_mem (m : Mem) (a : Nat) (b : Block)
    (h : m.lookup a = some b) : (a, b) ∈ m := by
  induction m with
  | nil => exact absurd h (by simp [Mem.lookup])
  | cons hd tl ih =>
    obtain ⟨a1, b1⟩ := hd
    by_cases hq : a1 = a
    · subst hq
      simp only [Mem.lookup, if_pos rfl] at h
      simp [Option.some.inj h]
    · simp only [Mem.lookup, hq, if_false] at h
      exact List.mem_cons_of_mem _ (ih h)

/-- The per-block contribution to the marking measure: an unmarked used
block still costs its whole scan; a block in cursor mode costs the
remaining offset cells; finished and free blocks cost nothing. -/
def stateCost (b : Block) : Nat :=
  if b.mark then
    match b.hptr with
    | .cursor t i => t.offsets.length + 1 - i
    | _ => 0
  else
    match b.hptr with
    | .typeDesc t => t.offsets.length + 2
    | _ => 0

/-- The marking measure of a memory: it strictly decreases with every
iteration of the marking loop. -/
def memMeasure (m : Mem) : Nat :=
  (m.map fun ab => stateCost ab.2).sum

theorem memMeasure_set (m : Mem) (a : Nat) (bnew : Block) :
    ∀ bold, m.lookup a = some bold →
      memMeasure (m.set a bnew) + stateCost bold =
        memMeasure m + stateCost bnew := by
  induction m with
  | nil => intro bold h; exact absurd h (by simp [Mem.lookup])
  | cons hd tl ih =>
    intro bold h
    obtain ⟨a1, b1⟩ := hd
    by_cases hq : a1 = a
    · subst hq
      simp only [Mem.lookup, if_pos rfl] at h
      rw [Option.some.inj h]
      simp only [Mem.set, if_pos rfl, memMeasure, List.map, List.sum_cons]
      omega
    · simp only [Mem.lookup, hq, if_false] at h
      have := ih bold h
      simp only [Mem.set, hq, if_false, memMeasure, List.map, List.sum_cons]
      simp only [memMeasure] at this
      omega

theorem stateCost_le_descLen (b : Block) : stateCost b ≤ b.descLen + 2 := by
  unfold stateCost Block.descLen
  cases hm : b.mark <;> cases hh : b.hptr <;> simp <;> omega

theorem memMeasure_lt_markFuel (m : Mem) : memMeasure m < markFuel m := by
  induction m with
  | nil => simp [memMeasure, markFuel]
  | cons hd tl ih =>
    have := stateCost_le_descLen hd.2
    simp only [memMeasure, markFuel, List.map, List.sum_cons,
      List.foldr] at *
    omega

/-- Marks only grow at one address under `Mem.set` with a marked block:
`markedInM` is preserved. -/
theorem markedInM_set_marked (m : Mem) (a : Nat) (b : Block)
    (hb : b.mark = true) (q : Nat) (h : markedInM m q) :
    markedInM (m.set a b) q := by
  obtain ⟨bq, hbq, hm⟩ := h
  by_cases hq : a = q - Align
  · exact ⟨b, by rw [hq] at *; exact Mem.lookup_set_self _ _ _, hb⟩
  · exact ⟨bq, by rw [Mem.lookup_set_ne _ _ _ _ hq]; exact hbq, hm⟩

/-- Invariant of one entry `(pj, ij)` of the (virtual) pointer-reversal
stack: the block is marked, its header cursor sits on offset cell `ij`, the
reversed slot holds the next entry up the chain (`none` at the bottom, where
marking started with a null predecessor), the slot's original value is the
next block down (the current block for the top entry), and all earlier
offset cells have been fully processed. -/
def StackEntryInv (mS m : Mem) (root cur : Nat) (stack : List (Nat × Nat))
    (j : Nat) (hj : j < stack.length) : Prop :=
  ∃ b0 t, ∃ hij : (stack.get ⟨j, hj⟩).2 < t.offsets.length,
    mS.lookup ((stack.get ⟨j, hj⟩).1 - Align) = some b0 ∧
    b0.hptr = .typeDesc t ∧
    Reaches mS root (stack.get ⟨j, hj⟩).1 ∧
    0 ≤ t.offsets.get ⟨(stack.get ⟨j, hj⟩).2, hij⟩ ∧
    getField b0.fields (t.offsets.get ⟨(stack.get ⟨j, hj⟩).2, hij⟩).toNat =
      (cur :: stack.map Prod.fst).get? j ∧
    (∃ bm, m.lookup ((stack.get ⟨j, hj⟩).1 - Align) = some bm ∧
      bm.mSize = b0.mSize ∧ bm.mark = true ∧
      bm.hptr = .cursor t (stack.get ⟨j, hj⟩).2 ∧
      ∀ k, getField bm.fields k =
        if (t.offsets.get ⟨(stack.get ⟨j, hj⟩).2, hij⟩).toNat = k
        then (stack.map Prod.fst).get? (j + 1)
        else getField b0.fields k) ∧
    (∀ i, i < (stack.get ⟨j, hj⟩).2 → ∀ (hi : i < t.offsets.length), ∀ q,
      getField b0.fields ((t.offsets.get ⟨i, hi⟩).toNat) = some q →
      markedInM m q)

/-- Invariant of the block currently being visited: unmarked blocks are
still in their original state; marked ones carry a cursor whose earlier
cells (inclusive) all have processed, marked-or-null targets.  Its fields
are always original (its own reversed slot, if any, has been restored). -/
def CurInv (mS m : Mem) (cur : Nat) : Prop :=
  ∃ b0 t, mS.lookup (cur - Align) = some b0 ∧ b0.hptr = .typeDesc t ∧
    ∃ bc, m.lookup (cur - Align) = some bc ∧ bc.mSize = b0.mSize ∧
      (∀ k, getField bc.fields k = getField b0.fields k) ∧
      (b0.mark = true → bc.mark = true) ∧
      (bc.mark = false → bc.hptr = .typeDesc t) ∧
      (bc.mark = true → ∃ i, ∃ hi : i < t.offsets.length,
        bc.hptr = .cursor t i ∧ 0 ≤ t.offsets.get ⟨i, hi⟩ ∧
        ∀ i2, i2 ≤ i → ∀ (hi2 : i2 < t.offsets.length), ∀ q,
          getField b0.fields ((t.offsets.get ⟨i2, hi2⟩).toNat) = some q →
          markedInM m q)

/-- Invariant of every block not on the reversal path: unchanged except that
the mark bit may have been set, and a marked block is a fully processed used
block whose targets are all marked. -/
def OtherInv (mS m : Mem) (a : Nat) (b0 : Block) : Prop :=
  ∃ b, m.lookup a = some b ∧ b.mSize = b0.mSize ∧ b.hptr = b0.hptr ∧
    (∀ k, getField b.fields k = getField b0.fields k) ∧
    (b0.mark = true → b.mark = true) ∧
    (b.mark = true → b0.mark = true ∨
      (∃ t, b0.hptr = .typeDesc t ∧
        ∀ o ∈ t.offsets, ∀ q, getField b0.fields o.toNat = some q →
          markedInM m q))

/-- The full loop invariant of `HeapBase::mark`, between iterations,
relating the current memory `m` to the memory `mS` at the start of the call,
with `stack` the chain of reversed links from `prev` back to the root. -/
structure MarkInv (mS m : Mem) (root cur : Nat) (prev : Option Nat)
    (stack : List (Nat × Nat)) : Prop where
  prevEq : prev = stack.head?.map Prod.fst
  curPayload : Align ≤ cur
  stackPayload : ∀ e ∈ stack, Align ≤ e.1
  rootNil : stack = [] → cur = root
  rootLast : ∀ e, stack.getLast? = some e → e.1 = root
  nodup : (cur :: stack.map Prod.fst).Nodup
  entries : ∀ j (hj : j < stack.length), StackEntryInv mS m root cur stack j hj
  curInv : CurInv mS m cur
  others : ∀ a b0, mS.lookup a = some b0 →
    (∀ e ∈ stack, a ≠ e.1 - Align) → a ≠ cur - Align → OtherInv mS m a b0
  noneDom : ∀ a, mS.lookup a = none → m.lookup a = none
  soundM : ∀ a b, m.lookup a = some b → b.mark = true →
    (∃ b0, mS.lookup a = some b0 ∧ b0.mark = true) ∨ Reaches mS root (a + Align)
  reachCur : Reaches mS root cur

/-- Writing the same address twice keeps only the second write. -/
theorem Mem.set_set (m : Mem) (a : Nat) (x y : Block) :
    (m.set a x).set a y = m.set a y := by
  induction m with
  | nil => simp [Mem.set]
  | cons hd tl ih =>
    obtain ⟨a1, b1⟩ := hd
    by_cases h : a1 = a
    · simp [Mem.set, h]
    · simp [Mem.set, h, ih]

/-- Payload pointers at or past `Align` have distinct header addresses. -/
theorem sub_align_ne (p q : Nat) (hp : Align ≤ p) (hq : Align ≤ q)
    (h : p ≠ q) : p - Align ≠ q - Align := by
  have hA : Align = 16 := rfl
  omega

theorem map_fst_get_zero (l : List (Nat × Nat)) :
    (l.map Prod.fst).get? 0 = l.head?.map Prod.fst := by
  cases l <;> rfl

/-- What `HeapBase::mark(root)` achieves: the memory is unchanged except
that some mark bits were set, exactly on the blocks previously marked or
reachable from the root; the root is marked; well-formedness is
maintained. -/
structure MarkPost (mS m2 : Mem) (root : Nat) : Prop where
  noneDom : ∀ a, mS.lookup a = none → m2.lookup a = none
  blocks : ∀ a b0, mS.lookup a = some b0 → ∃ b, m2.lookup a = some b ∧
    b.mSize = b0.mSize ∧ b.hptr = b0.hptr ∧
    (∀ k, getField b.fields k = getField b0.fields k) ∧
    (b0.mark = true → b.mark = true) ∧
    (b.mark = true → b0.mark = true ∨ Reaches mS root (a + Align))
  rootMarked : markedInM m2 root
  wf : MidWF m2

/-- The invariant is preserved by an iteration that only advances the cursor
of the current block (null field, self-loop, or already-marked target),
provided the freshly passed cell's target (if any) is marked afterwards. -/
theorem MarkInv.stay (mS m : Mem) (root cur : Nat) (prev : Option Nat)
    (stack : List (Nat × Nat)) (inv : MarkInv mS m root cur prev stack)
    (b0 : Block) (t : TypeDescriptor) (bc : Block) (j : Nat)
    (hb0 : mS.lookup (cur - Align) = some b0) (hb0t : b0.hptr = .typeDesc t)
    (hbc : m.lookup (cur - Align) = some bc) (hsize : bc.mSize = b0.mSize)
    (hfields : ∀ k, getField bc.fields k = getField b0.fields k)
    (hj : j < t.offsets.length) (hoffj : 0 ≤ t.offsets.get ⟨j, hj⟩)
    (hprocOld : ∀ i2, i2 < j → ∀ (hi2 : i2 < t.offsets.length), ∀ q,
      getField b0.fields ((t.offsets.get ⟨i2, hi2⟩).toNat) = some q →
      markedInM m q)
    (hprocNew : ∀ q,
      getField b0.fields ((t.offsets.get ⟨j, hj⟩).toNat) = some q →
      markedInM (m.set (cur - Align)
        { bc with mark := true, hptr := .cursor t j }) q) :
    MarkInv mS
      (m.set (cur - Align) { bc with mark := true, hptr := .cursor t j })
      root cur prev stack := by
  set blk1 : Block := { bc with mark := true, hptr := .cursor t j } with hblk1
  have hblk1mark : blk1.mark = true := rfl
  have hmono : ∀ q, markedInM m q →
      markedInM (m.set (cur - Align) blk1) q :=
    fun q hq => markedInM_set_marked m _ blk1 hblk1mark q hq
  have hcurNotStack : ∀ e ∈ stack, cur ≠ e.1 := by
    intro e he hq
    have h1 : cur ∉ stack.map Prod.fst := (List.nodup_cons.mp inv.nodup).1
    exact h1 (hq ▸ List.mem_map_of_mem Prod.fst he)
  refine ⟨inv.prevEq, inv.curPayload, inv.stackPayload, inv.rootNil,
    inv.rootLast, inv.nodup, ?_, ?_, ?_, ?_, ?_, inv.reachCur⟩
  · -- stack entries
    intro j2 hj2
    obtain ⟨b0j, tj, hij, hlookS, hhptr, hreach, hoffpos, horig,
      ⟨bm, hbm, hbmsize, hbmmark, hbmhptr, hbmfields⟩, hproc⟩ :=
      inv.entries j2 hj2
    have hmem : stack.get ⟨j2, hj2⟩ ∈ stack := List.get_mem stack j2 hj2
    have hne : cur - Align ≠ (stack.get ⟨j2, hj2⟩).1 - Align :=
      sub_align_ne _ _ inv.curPayload (inv.stackPayload _ hmem)
        (hcurNotStack _ hmem)
    refine ⟨b0j, tj, hij, hlookS, hhptr, hreach, hoffpos, horig,
      ⟨bm, ?_, hbmsize, hbmmark, hbmhptr, hbmfields⟩, ?_⟩
    · rw [Mem.lookup_set_ne _ _ _ _ hne]; exact hbm
    · intro i hi hi2 q hq
      exact hmono q (hproc i hi hi2 q hq)
  · -- current block
    refine ⟨b0, t, hb0, hb0t, blk1, Mem.lookup_set_self _ _ _, hsize,
      hfields, fun _ => rfl, fun hq => absurd hq (by simp [hblk1]), ?_⟩
    intro _
    refine ⟨j, hj, rfl, hoffj, ?_⟩
    intro i2 hi2le hi2 q hq
    rcases Nat.lt_or_ge i2 j with hlt | hge
    · exact hmono q (hprocOld i2 hlt hi2 q hq)
    · have : i2 = j := Nat.le_antisymm hi2le hge
      subst this
      exact hprocNew q hq
  · -- other blocks
    intro a b0' hS hstackA hcurA
    obtain ⟨b, hb, h1, h2, h3, h4, h5⟩ := inv.others a b0' hS hstackA hcurA
    refine ⟨b, ?_, h1, h2, h3, h4, ?_⟩
    · rw [Mem.lookup_set_ne _ _ _ _ (fun hq => hcurA hq.symm)]; exact hb
    · intro hbm
      rcases h5 hbm with h | ⟨t', ht', hcl⟩
      · exact Or.inl h
      · exact Or.inr ⟨t', ht', fun o ho q hq => hmono q (hcl o ho q hq)⟩
  · -- domain
    intro a ha
    have hm := inv.noneDom a ha
    have hne : cur - Align ≠ a := by
      intro hq
      rw [hq] at hbc
      rw [hbc] at hm
      exact Option.noConfusion hm
    rw [Mem.lookup_set_ne _ _ _ _ hne]; exact hm
  · -- soundness of marks
    intro a b hab hbm
    by_cases hq : cur - Align = a
    · subst hq
      right
      have : cur - Align + Align = cur := Nat.sub_add_cancel inv.curPayload
      rw [this]; exact inv.reachCur
    · rw [Mem.lookup_set_ne _ _ _ _ hq] at hab
      exact inv.soundM a b hab hbm

/-- The invariant is preserved by an iteration that reverses the current
cell's link into an unmarked target and descends: the current block is pushed
onto the (virtual) stack with its cursor position. -/
theorem MarkInv.descend (mS m : Mem) (root cur : Nat) (prev : Option Nat)
    (stack : List (Nat × Nat)) (inv : MarkInv mS m root cur prev stack)
    (b0 : Block) (t : TypeDescriptor) (bc : Block) (j : Nat)
    (f : Nat) (bf0 : Block) (tf : TypeDescriptor) (b : Block)
    (hb0 : mS.lookup (cur - Align) = some b0) (hb0t : b0.hptr = .typeDesc t)
    (hbc : m.lookup (cur - Align) = some bc) (hsize : bc.mSize = b0.mSize)
    (hfields : ∀ k, getField bc.fields k = getField b0.fields k)
    (hj : j < t.offsets.length) (hoffj : 0 ≤ t.offsets.get ⟨j, hj⟩)
    (hf : getField b0.fields ((t.offsets.get ⟨j, hj⟩).toNat) = some f)
    (hfS : mS.lookup (f - Align) = some bf0) (hfSt : bf0.hptr = .typeDesc tf)
    (hfP : Align ≤ f) (hfnew : f ∉ cur :: stack.map Prod.fst)
    (hb : m.lookup (f - Align) = some b) (hbsize : b.mSize = bf0.mSize)
    (hbhptr : b.hptr = bf0.hptr)
    (hbfields : ∀ k, getField b.fields k = getField bf0.fields k)
    (hbmark : b.mark = false) (hbf0mark : bf0.mark = false)
    (hprocOld : ∀ i2, i2 < j → ∀ (hi2 : i2 < t.offsets.length), ∀ q,
      getField b0.fields ((t.offsets.get ⟨i2, hi2⟩).toNat) = some q →
      markedInM m q) :
    MarkInv mS
      (m.set (cur - Align)
        { bc with mark := true, hptr := .cursor t j,
                  fields := setField bc.fields
                    ((t.offsets.get ⟨j, hj⟩).toNat) prev })
      root f (some cur) ((cur, j) :: stack) := by
  set blk2 : Block :=
    { bc with mark := true, hptr := .cursor t j,
              fields := setField bc.fields
                ((t.offsets.get ⟨j, hj⟩).toNat) prev }
    with hblk2
  have hblk2mark : blk2.mark = true := rfl
  have hmono : ∀ q, markedInM m q →
      markedInM (m.set (cur - Align) blk2) q :=
    fun q hq => markedInM_set_marked m _ blk2 hblk2mark q hq
  have hcurNotStack : ∀ e ∈ stack, cur ≠ e.1 := by
    intro e he hq
    have h1 : cur ∉ stack.map Prod.fst := (List.nodup_cons.mp inv.nodup).1
    exact h1 (hq ▸ List.mem_map_of_mem Prod.fst he)
  have hfcur : f ≠ cur := fun hq => hfnew (hq ▸ List.mem_cons_self _ _)
  have hfc16 : cur - Align ≠ f - Align :=
    fun hq => (sub_align_ne f cur hfP inv.curPayload hfcur) hq.symm
  refine ⟨rfl, hfP, ?_, ?_, ?_, ?_, ?_, ?_, ?_, ?_, ?_, ?_⟩
  · -- stack payloads
    intro e he
    rcases List.mem_cons.mp he with h | h
    · rw [h]; exact inv.curPayload
    · exact inv.stackPayload e h
  · -- rootNil (vacuous: the new stack is nonempty)
    intro h; exact absurd h (List.cons_ne_nil _ _)
  · -- rootLast
    intro e he
    cases stack with
    | nil =>
      simp only [List.getLast?_singleton, Option.some.injEq] at he
      rw [← he]; exact (inv.rootNil rfl).symm ▸ rfl
    | cons s ss =>
      rw [List.getLast?_cons_cons] at he
      exact inv.rootLast e he
  · -- nodup
    exact List.nodup_cons.mpr ⟨hfnew, inv.nodup⟩
  · -- stack entries
    intro j2 hj2
    cases j2 with
    | zero =>
      refine ⟨b0, t, hj, hb0, hb0t, inv.reachCur, hoffj, hf,
        ⟨blk2, Mem.lookup_set_self _ _ _, hsize, rfl, rfl, ?_⟩, ?_⟩
      · intro k
        show getField
            (setField bc.fields ((t.offsets.get ⟨j, hj⟩).toNat) prev) k =
          if (t.offsets.get ⟨j, hj⟩).toNat = k
          then (stack.map Prod.fst).get? 0
          else getField b0.fields k
        rw [getField_setField]
        by_cases hk : (t.offsets.get ⟨j, hj⟩).toNat = k
        · rw [if_pos hk, if_pos hk, map_fst_get_zero, ← inv.prevEq]
        · rw [if_neg hk, if_neg hk]
          exact hfields k
      · intro i hi hi2 q hq
        exact hmono q (hprocOld i hi hi2 q hq)
    | succ j2 =>
      have hj2' : j2 < stack.length := Nat.lt_of_succ_lt_succ hj2
      obtain ⟨b0j, tj, hij, hlookS, hhptr, hreach, hoffpos, horig,
        ⟨bm, hbm, hbmsize, hbmmark, hbmhptr, hbmfields⟩, hproc⟩ :=
        inv.entries j2 hj2'
      have hmem : stack.get ⟨j2, hj2'⟩ ∈ stack := List.get_mem stack j2 hj2'
      have hne : cur - Align ≠ (stack.get ⟨j2, hj2'⟩).1 - Align :=
        sub_align_ne _ _ inv.curPayload (inv.stackPayload _ hmem)
          (hcurNotStack _ hmem)
      unfold StackEntryInv
      simp only [List.get_cons_succ, List.map_cons, List.get?_cons_succ]
      refine ⟨b0j, tj, hij, hlookS, hhptr, hreach, hoffpos, horig,
        ⟨bm, ?_, hbmsize, hbmmark, hbmhptr, hbmfields⟩, ?_⟩
      · rw [Mem.lookup_set_ne _ _ _ _ hne]; exact hbm
      · intro i hi hi2 q hq
        exact hmono q (hproc i hi hi2 q hq)
  · -- current block (the descent target)
    refine ⟨bf0, tf, hfS, hfSt, b, ?_, hbsize, hbfields, ?_, ?_, ?_⟩
    · rw [Mem.lookup_set_ne _ _ _ _ hfc16]; exact hb
    · intro hq; rw [hbf0mark] at hq; exact Bool.noConfusion hq
    · intro _; rw [hbhptr, hfSt]
    · intro hq; rw [hbmark] at hq; exact Bool.noConfusion hq
  · -- other blocks
    intro a b0' hS hstackA hcurA
    have hacur : a ≠ cur - Align := hstackA (cur, j) (List.mem_cons_self _ _)
    obtain ⟨bb, hbb, h1, h2, h3, h4, h5⟩ := inv.others a b0' hS
      (fun e he => hstackA e (List.mem_cons_of_mem _ he)) hacur
    refine ⟨bb, ?_, h1, h2, h3, h4, ?_⟩
    · rw [Mem.lookup_set_ne _ _ _ _ (fun hq => hacur hq.symm)]; exact hbb
    · intro hbm2
      rcases h5 hbm2 with h | ⟨t', ht', hcl⟩
      · exact Or.inl h
      · exact Or.inr ⟨t', ht', fun o ho q hq => hmono q (hcl o ho q hq)⟩
  · -- domain
    intro a ha
    have hm := inv.noneDom a ha
    have hne : cur - Align ≠ a := by
      intro hq
      rw [hq] at hbc
      rw [hbc] at hm
      exact Option.noConfusion hm
    rw [Mem.lookup_set_ne _ _ _ _ hne]; exact hm
  · -- soundness of marks
    intro a bb hab hbm2
    by_cases hq : cur - Align = a
    · subst hq
      right
      have : cur - Align + Align = cur := Nat.sub_add_cancel inv.curPayload
      rw [this]; exact inv.reachCur
    · rw [Mem.lookup_set_ne _ _ _ _ hq] at hab
      exact inv.soundM a bb hab hbm2
  · -- reachability of the new current block
    exact Relation.ReflTransGen.tail inv.reachCur
      ⟨b0, t, t.offsets.get ⟨j, hj⟩, hb0, hb0t,
        List.get_mem t.offsets j hj, hf⟩

/-- The invariant is preserved by an iteration that restores the current
block's header from the sentinel cell and pops the reversal stack: the
parent's reversed slot gets the current payload back and becomes the new
current block. -/
theorem MarkInv.retreat (mS m : Mem) (root cur p ip : Nat)
    (rest : List (Nat × Nat))
    (inv : MarkInv mS m root cur (some p) ((p, ip) :: rest))
    (b0 : Block) (t : TypeDescriptor) (bc : Block)
    (hb0 : mS.lookup (cur - Align) = some b0) (hb0t : b0.hptr = .typeDesc t)
    (hbc : m.lookup (cur - Align) = some bc) (hsize : bc.mSize = b0.mSize)
    (hfields : ∀ k, getField bc.fields k = getField b0.fields k)
    (hproc : ∀ o ∈ t.offsets, ∀ q, getField b0.fields o.toNat = some q →
      markedInM m q)
    (b0p : Block) (tp : TypeDescriptor) (bm : Block)
    (hij : ip < tp.offsets.length)
    (hlookSP : mS.lookup (p - Align) = some b0p)
    (hhptrP : b0p.hptr = .typeDesc tp)
    (hreachP : Reaches mS root p)
    (hoffposP : 0 ≤ tp.offsets.get ⟨ip, hij⟩)
    (horig : getField b0p.fields ((tp.offsets.get ⟨ip, hij⟩).toNat) =
      some cur)
    (hbm : m.lookup (p - Align) = some bm)
    (hbmsize : bm.mSize = b0p.mSize) (hbmmark : bm.mark = true)
    (hbmhptr : bm.hptr = .cursor tp ip)
    (hbmfields : ∀ k, getField bm.fields k =
      if (tp.offsets.get ⟨ip, hij⟩).toNat = k
      then (rest.map Prod.fst).get? 0 else getField b0p.fields k)
    (hprocP : ∀ i, i < ip → ∀ (hi : i < tp.offsets.length), ∀ q,
      getField b0p.fields ((tp.offsets.get ⟨i, hi⟩).toNat) = some q →
      markedInM m q) :
    MarkInv mS
      ((m.set (cur - Align) { bc with mark := true, hptr := .typeDesc t }).set
        (p - Align)
        { bm with fields := setField bm.fields
                              ((tp.offsets.get ⟨ip, hij⟩).toNat) (some cur) })
      root p (getField bm.fields ((tp.offsets.get ⟨ip, hij⟩).toNat)) rest := by
  set blkR : Block := { bc with mark := true, hptr := .typeDesc t } with hblkR
  set bmNew : Block :=
    { bm with fields := setField bm.fields
                          ((tp.offsets.get ⟨ip, hij⟩).toNat) (some cur) }
    with hbmNew
  have hblkRmark : blkR.mark = true := rfl
  have hbmNewmark : bmNew.mark = true := hbmmark
  have hstack : cur ∉ ((p, ip) :: rest).map Prod.fst :=
    (List.nodup_cons.mp inv.nodup).1
  have hpc : p ≠ cur := by
    intro hq
    exact hstack (hq ▸ List.mem_cons_self _ _)
  have hpP : Align ≤ p := inv.stackPayload (p, ip) (List.mem_cons_self _ _)
  have hne : cur - Align ≠ p - Align :=
    sub_align_ne cur p inv.curPayload hpP (fun hq => hpc hq.symm)
  have hmono : ∀ q, markedInM m q →
      markedInM ((m.set (cur - Align) blkR).set (p - Align) bmNew) q :=
    fun q hq => markedInM_set_marked _ _ _ hbmNewmark q
      (markedInM_set_marked _ _ _ hblkRmark q hq)
  have hlookCur : ((m.set (cur - Align) blkR).set (p - Align) bmNew).lookup
      (cur - Align) = some blkR := by
    rw [Mem.lookup_set_ne _ _ _ _ (fun hq => hne hq.symm),
      Mem.lookup_set_self]
  have hlookOther : ∀ a, a ≠ cur - Align → a ≠ p - Align →
      ((m.set (cur - Align) blkR).set (p - Align) bmNew).lookup a =
        m.lookup a := by
    intro a h1 h2
    rw [Mem.lookup_set_ne _ _ _ _ (fun hq => h2 hq.symm),
      Mem.lookup_set_ne _ _ _ _ (fun hq => h1 hq.symm)]
  have hrestNodup : (p :: rest.map Prod.fst).Nodup :=
    (List.nodup_cons.mp inv.nodup).2
  refine ⟨?_, hpP, ?_, ?_, ?_, ?_, ?_, ?_, ?_, ?_, ?_, hreachP⟩
  · -- prevEq
    rw [hbmfields, if_pos rfl, map_fst_get_zero]
  · -- stack payloads
    intro e he
    exact inv.stackPayload e (List.mem_cons_of_mem _ he)
  · -- rootNil
    intro h
    subst h
    exact inv.rootLast (p, ip) rfl
  · -- rootLast
    intro e he
    cases rest with
    | nil => exact absurd he (by simp)
    | cons s ss =>
      exact inv.rootLast e (by rw [List.getLast?_cons_cons]; exact he)
  · -- nodup
    exact hrestNodup
  · -- stack entries
    intro j hj
    have hj1 : j + 1 < ((p, ip) :: rest).length := Nat.succ_lt_succ hj
    obtain ⟨b0j, tj, hijj, hlookS, hhptr, hreach, hoffpos, horigj,
      ⟨bmj, hbmj, hbmsizej, hbmmarkj, hbmhptrj, hbmfieldsj⟩, hprocj⟩ :=
      inv.entries (j + 1) hj1
    have hmem : rest.get ⟨j, hj⟩ ∈ rest := List.get_mem rest j hj
    have hmem' : rest.get ⟨j, hj⟩ ∈ (p, ip) :: rest :=
      List.mem_cons_of_mem _ hmem
    have hnec : cur ≠ (rest.get ⟨j, hj⟩).1 := by
      intro hq
      exact hstack (hq ▸ List.mem_map_of_mem Prod.fst hmem')
    have hnep : p ≠ (rest.get ⟨j, hj⟩).1 := by
      intro hq
      exact (List.nodup_cons.mp hrestNodup).1
        (hq ▸ List.mem_map_of_mem Prod.fst hmem)
    have hlift : ((m.set (cur - Align) blkR).set (p - Align) bmNew).lookup
        ((rest.get ⟨j, hj⟩).1 - Align) =
          m.lookup ((rest.get ⟨j, hj⟩).1 - Align) :=
      hlookOther _
        (fun hq => (sub_align_ne _ _ inv.curPayload
          (inv.stackPayload _ hmem') hnec) hq.symm)
        (fun hq => (sub_align_ne _ _ hpP
          (inv.stackPayload _ hmem') hnep) hq.symm)
    refine ⟨b0j, tj, hijj, hlookS, hhptr, hreach, hoffpos, horigj,
      ⟨bmj, ?_, hbmsizej, hbmmarkj, hbmhptrj, hbmfieldsj⟩, ?_⟩
    · rw [hlift]; exact hbmj
    · intro i hi hi2 q hq
      exact hmono q (hprocj i hi hi2 q hq)
  · -- current block (the parent)
    refine ⟨b0p, tp, hlookSP, hhptrP, bmNew, Mem.lookup_set_self _ _ _,
      hbmsize, ?_, fun _ => hbmNewmark, ?_, ?_⟩
    · intro k
      show getField (setField bm.fields _ (some cur)) k = _
      rw [getField_setField]
      by_cases hk : (tp.offsets.get ⟨ip, hij⟩).toNat = k
      · rw [if_pos hk, ← hk, horig]
      · rw [if_neg hk, hbmfields k, if_neg hk]
    · intro hq; rw [hbmNewmark] at hq; exact Bool.noConfusion hq
    · intro _
      refine ⟨ip, hij, hbmhptr, hoffposP, ?_⟩
      intro i2 hi2le hi2 q hq
      rcases Nat.lt_or_ge i2 ip with hlt | hge
      · exact hmono q (hprocP i2 hlt hi2 q hq)
      · have : i2 = ip := Nat.le_antisymm hi2le hge
        subst this
        have : q = cur := by
          have := horig
          rw [hq] at this
          exact Option.some.inj this
        subst this
        exact ⟨blkR, by rw [← Nat.sub_add_cancel inv.curPayload] at hlookCur
                        exact hlookCur, hblkRmark⟩
  · -- other blocks
    intro a b0'' hS hstackA hcurA
    by_cases hac : a = cur - Align
    · subst hac
      have hb0eq : b0'' = b0 := Option.some.inj (hS.symm.trans hb0)
      subst hb0eq
      refine ⟨blkR, hlookCur, hsize, by rw [hb0t], hfields, fun _ => rfl, ?_⟩
      intro _
      exact Or.inr ⟨t, hb0t, fun o ho q hq => hmono q (hproc o ho q hq)⟩
    · obtain ⟨bb, hbb, h1, h2, h3, h4, h5⟩ := inv.others a b0'' hS
        (fun e he => by
          rcases List.mem_cons.mp he with h | h
          · rw [h]; exact hcurA
          · exact hstackA e h) hac
      refine ⟨bb, ?_, h1, h2, h3, h4, ?_⟩
      · rw [hlookOther a hac hcurA]; exact hbb
      · intro hbm2
        rcases h5 hbm2 with h | ⟨t', ht', hcl⟩
        · exact Or.inl h
        · exact Or.inr ⟨t', ht', fun o ho q hq => hmono q (hcl o ho q hq)⟩
  · -- domain
    intro a ha
    have hm := inv.noneDom a ha
    have h1 : a ≠ cur - Align := by
      intro hq
      rw [hq, hbc] at hm
      exact Option.noConfusion hm
    have h2 : a ≠ p - Align := by
      intro hq
      rw [hq, hbm] at hm
      exact Option.noConfusion hm
    rw [hlookOther a h1 h2]; exact hm
  · -- soundness of marks
    intro a bb hab hbm2
    by_cases h2 : a = p - Align
    · subst h2
      right
      rw [Nat.sub_add_cancel hpP]
      exact hreachP
    · by_cases h1 : a = cur - Align
      · subst h1
        right
        rw [Nat.sub_add_cancel inv.curPayload]
        exact inv.reachCur
      · rw [hlookOther a h1 h2] at hab
        exact inv.soundM a bb hab hbm2

/-- Freedom of a block depends only on its header pointer. -/
theorem Block.isFree_eq_of_hptr (b b' : Block) (h : b.hptr = b'.hptr) :
    b.isFree = b'.isFree := by
  unfold Block.isFree
  rw [h]

/-- When the sentinel is reached with a null predecessor, restoring the
root's header finishes the call and establishes the marking
postcondition. -/
theorem MarkPost.of_done (mS m : Mem) (root : Nat) (hWF : MidWF mS)
    (inv : MarkInv mS m root root none [])
    (b0 : Block) (t : TypeDescriptor) (bc : Block)
    (hb0 : mS.lookup (root - Align) = some b0) (hb0t : b0.hptr = .typeDesc t)
    (hbc : m.lookup (root - Align) = some bc) (hsize : bc.mSize = b0.mSize)
    (hfields : ∀ k, getField bc.fields k = getField b0.fields k)
    (hproc : ∀ o ∈ t.offsets, ∀ q, getField b0.fields o.toNat = some q →
      markedInM m q) :
    MarkPost mS
      (m.set (root - Align) { bc with mark := true, hptr := .typeDesc t })
      root := by
  set blkR : Block := { bc with mark := true, hptr := .typeDesc t } with hblkR
  have hblkRmark : blkR.mark = true := rfl
  have harith : root - Align + Align = root := Nat.sub_add_cancel inv.curPayload
  have hmono : ∀ q, markedInM m q →
      markedInM (m.set (root - Align) blkR) q :=
    fun q hq => markedInM_set_marked m _ blkR hblkRmark q hq
  have hblocks : ∀ a b0'', mS.lookup a = some b0'' →
      ∃ bb, (m.set (root - Align) blkR).lookup a = some bb ∧
        bb.mSize = b0''.mSize ∧ bb.hptr = b0''.hptr ∧
        (∀ k, getField bb.fields k = getField b0''.fields k) ∧
        (b0''.mark = true → bb.mark = true) ∧
        (bb.mark = true → b0''.mark = true ∨ Reaches mS root (a + Align)) := by
    intro a b0'' hS
    by_cases hac : a = root - Align
    · subst hac
      have hb0eq : b0'' = b0 := Option.some.inj (hS.symm.trans hb0)
      subst hb0eq
      refine ⟨blkR, Mem.lookup_set_self _ _ _, hsize, by rw [hb0t], hfields,
        fun _ => rfl, ?_⟩
      intro _
      right
      rw [harith]
      exact inv.reachCur
    · obtain ⟨bb, hbb, h1, h2, h3, h4, _⟩ := inv.others a b0'' hS
        (fun e he => absurd he (List.not_mem_nil e)) hac
      refine ⟨bb, ?_, h1, h2, h3, h4, ?_⟩
      · rw [Mem.lookup_set_ne _ _ _ _ (fun hq => hac hq.symm)]; exact hbb
      · intro hbm2
        rcases inv.soundM a bb hbb hbm2 with ⟨b0m, hb0m, hb0mmark⟩ | h
        · exact Or.inl
            ((Option.some.inj (hb0m.symm.trans hS)) ▸ hb0mmark)
        · exact Or.inr h
  have hmonoS : ∀ q, markedInM mS q → markedInM (m.set (root - Align) blkR) q := by
    intro q ⟨bq0, hbq0, hbq0m⟩
    obtain ⟨bb, hbb, _, _, _, h4, _⟩ := hblocks _ _ hbq0
    exact ⟨bb, hbb, h4 hbq0m⟩
  refine ⟨?_, hblocks, ⟨blkR, Mem.lookup_set_self _ _ _, rfl⟩, ?_⟩
  · -- domain
    intro a ha
    have hm := inv.noneDom a ha
    have hne : root - Align ≠ a := by
      intro hq
      rw [hq] at hbc
      rw [hbc] at hm
      exact Option.noConfusion hm
    rw [Mem.lookup_set_ne _ _ _ _ hne]; exact hm
  · -- well-formedness of the resulting memory
    intro a bb hab
    cases hS : mS.lookup a with
    | none =>
      have hm := inv.noneDom a hS
      have hne : root - Align ≠ a := by
        intro hq
        rw [hq] at hbc
        rw [hbc] at hm
        exact Option.noConfusion hm
      rw [Mem.lookup_set_ne _ _ _ _ hne, hm] at hab
      exact Option.noConfusion hab
    | some b0'' =>
      obtain ⟨bb', hbb', h1, h2, h3, _, _⟩ := hblocks a b0'' hS
      have hbbeq : bb = bb' := Option.some.inj (hab.symm.trans hbb')
      subst hbbeq
      obtain ⟨hw1, hw2, hw3⟩ := hWF a b0'' hS
      refine ⟨?_, ?_, ?_⟩
      · -- free blocks are unmarked
        intro hfree
        have hfree0 : b0''.isFree = true :=
          (Block.isFree_eq_of_hptr _ _ h2).symm.trans hfree
        by_cases hac : a = root - Align
        · subst hac
          have hb0eq : b0'' = b0 := Option.some.inj (hS.symm.trans hb0)
          have hcontra : b0''.isFree = false := by
            unfold Block.isFree
            rw [hb0eq, hb0t]
          rw [hfree0] at hcontra
          exact Bool.noConfusion hcontra
        · obtain ⟨bx, hbx, _, _, _, _, h5x⟩ := inv.others a b0'' hS
            (fun e he => absurd he (List.not_mem_nil e)) hac
          have hlook : (m.set (root - Align) blkR).lookup a = some bx := by
            rw [Mem.lookup_set_ne _ _ _ _ (fun hq => hac hq.symm)]; exact hbx
          have hbxeq : bb = bx := Option.some.inj (hab.symm.trans hlook)
          subst hbxeq
          cases hbmk : bb.mark with
          | false => rfl
          | true =>
            rcases h5x hbmk with h | ⟨t', ht', _⟩
            · exact absurd (hw1 hfree0) (by rw [h]; simp)
            · have hcontra : b0''.isFree = false := by
                unfold Block.isFree
                rw [ht']
              rw [hfree0] at hcontra
              exact Bool.noConfusion hcontra
      · -- no header is left in cursor mode
        intro t' i' hq
        rw [h2] at hq
        exact hw2 t' i' hq
      · -- used blocks
        intro t'' ht''
        have ht0 : b0''.hptr = .typeDesc t'' := by rw [← h2]; exact ht''
        obtain ⟨hwa, hwb, hwc⟩ := hw3 t'' ht0
        refine ⟨hwa, ?_, ?_⟩
        · intro o ho q hq
          have hq0 : getField b0''.fields o.toNat = some q := by
            rw [← h3]; exact hq
          obtain ⟨hqa, bq0, tq, hbq0, hbq0t⟩ := hwb o ho q hq0
          obtain ⟨bqq, hbqq, _, hqh, _, _, _⟩ := hblocks _ _ hbq0
          exact ⟨hqa, bqq, tq, hbqq, by rw [hqh]; exact hbq0t⟩
        · -- marked blocks have marked targets
          intro hbm2 o ho q hq
          have hq0 : getField b0''.fields o.toNat = some q := by
            rw [← h3]; exact hq
          by_cases hac : a = root - Align
          · subst hac
            have hb0eq : b0'' = b0 := Option.some.inj (hS.symm.trans hb0)
            subst hb0eq
            have ht : t'' = t := by
              rw [hb0t] at ht0
              exact (HeaderPtr.typeDesc.inj ht0).symm
            subst ht
            exact hmono q (hproc o ho q hq0)
          · obtain ⟨bx, hbx, _, _, _, _, h5x⟩ := inv.others a b0'' hS
              (fun e he => absurd he (List.not_mem_nil e)) hac
            have hlook : (m.set (root - Align) blkR).lookup a = some bx := by
              rw [Mem.lookup_set_ne _ _ _ _ (fun hq2 => hac hq2.symm)]
              exact hbx
            have hbxeq : bb = bx := Option.some.inj (hab.symm.trans hlook)
            subst hbxeq
            rcases h5x hbm2 with h | ⟨t', ht', hcl⟩
            · exact hmonoS q (hwc h o ho q hq0)
            · have ht : t' = t'' := by
                rw [ht'] at ht0
                exact HeaderPtr.typeDesc.inj ht0
              subst ht
              exact hmono q (hcl o ho q hq0)

/-- One iteration of the marking loop, started in the invariant, either
returns with the postcondition established or steps to a state that again
satisfies the invariant with a strictly smaller measure. -/
theorem markStep_spec (mS : Mem) (root : Nat) (hWF : MidWF mS)
    (m : Mem) (cur : Nat) (prev : Option Nat) (stack : List (Nat × Nat))
    (inv : MarkInv mS m root cur prev stack) :
    (∃ m2, markStep m cur prev = .done m2 ∧ MarkPost mS m2 root) ∨
    (∃ m1 c1 p1 stack1, markStep m cur prev = .step m1 c1 p1 ∧
      MarkInv mS m1 root c1 p1 stack1 ∧ memMeasure m1 < memMeasure m) := by
  obtain ⟨b0, t, hb0, hb0t, bc, hbc, hsize, hfields, hmarkMono, hunm, hmk⟩ :=
    inv.curInv
  obtain ⟨hw1, hw2, hw3⟩ := hWF _ _ hb0
  obtain ⟨hoffpos, htargets, hclosed⟩ := hw3 t hb0t
  obtain ⟨j, hjle, hcursor, hcost, hprocOld⟩ :
      ∃ j, j ≤ t.offsets.length ∧ cursorOf bc = some (t, j) ∧
        t.offsets.length + 2 - j ≤ stateCost bc ∧
        (∀ i2, i2 < j → ∀ (hi2 : i2 < t.offsets.length), ∀ q,
          getField b0.fields ((t.offsets.get ⟨i2, hi2⟩).toNat) = some q →
          markedInM m q) := by
    cases hbcm : bc.mark with
    | false =>
      refine ⟨0, Nat.zero_le _, ?_, ?_, ?_⟩
      · simp [cursorOf, hbcm, hunm hbcm]
      · have hsc : stateCost bc = t.offsets.length + 2 := by
          simp [stateCost, hbcm, hunm hbcm]
        omega
      · intro i2 hi2 _ _ _
        exact absurd hi2 (Nat.not_lt_zero _)
    | true =>
      obtain ⟨i, hi, hhp, _, hpr⟩ := hmk hbcm
      refine ⟨i + 1, hi, ?_, ?_, ?_⟩
      · simp [cursorOf, hbcm, hhp]
      · have hsc : stateCost bc = t.offsets.length + 1 - i := by
          simp [stateCost, hbcm, hhp]
        omega
      · intro i2 hlt hi2 q hq
        exact hpr i2 (Nat.lt_succ_iff.mp hlt) hi2 q hq
  by_cases hjA : j < t.offsets.length
  · -- advance: the cursor sits on a real offset cell
    have hentry : t.entry j = some (t.offsets.get ⟨j, hjA⟩) := by
      unfold TypeDescriptor.entry
      rw [dif_pos hjA]
    set off : Int := t.offsets.get ⟨j, hjA⟩ with hoffdef
    have hoffmem : off ∈ t.offsets := List.get_mem t.offsets j hjA
    have hoffj : 0 ≤ off := hoffpos off hoffmem
    have hfbc : getField bc.fields off.toNat = getField b0.fields off.toNat :=
      hfields _
    have hmeas : ∀ (blkN : Block),
        stateCost blkN = t.offsets.length + 1 - j →
        memMeasure (m.set (cur - Align) blkN) < memMeasure m := by
      intro blkN hcostN
      have hms := memMeasure_set m (cur - Align) blkN bc hbc
      omega
    cases hf : getField b0.fields off.toNat with
    | none =>
      right
      refine ⟨m.set (cur - Align) { bc with mark := true, hptr := .cursor t j },
            cur, prev, stack, ?_, ?_, ?_⟩
      · show markStep m cur prev = .step
          (m.set (cur - Align) { bc with mark := true, hptr := .cursor t j })
          cur prev
        simp only [markStep, hbc, hcursor, hentry, hoffj, if_true, hfbc, hf]
      · exact MarkInv.stay mS m root cur prev stack inv b0 t bc j hb0 hb0t
          hbc hsize hfields hjA hoffj hprocOld
          (fun q hq => absurd (hf.symm.trans hq) (fun h => Option.noConfusion h))
      · exact hmeas _ rfl
    | some f =>
      obtain ⟨hfP, bf0, tf, hfS, hfSt⟩ := htargets off hoffmem f hf
      by_cases hfcur : f = cur
      · -- self-loop: the freshly written header is already marked
        right
        refine ⟨m.set (cur - Align) { bc with mark := true, hptr := .cursor t j },
            cur, prev, stack, ?_, ?_, ?_⟩
        · show markStep m cur prev = .step
            (m.set (cur - Align) { bc with mark := true, hptr := .cursor t j })
            cur prev
          simp only [markStep, hbc, hcursor, hentry, hoffj, if_true, hfbc, hf,
            hfcur, Mem.lookup_set_self]
        · refine MarkInv.stay mS m root cur prev stack inv b0 t bc j hb0 hb0t
            hbc hsize hfields hjA hoffj hprocOld ?_
          intro q hq
          have hqf : q = f := (Option.some.inj (hf.symm.trans hq)).symm
          rw [hqf, hfcur]
          exact ⟨_, Mem.lookup_set_self _ _ _, rfl⟩
        · exact hmeas _ rfl
      · have hnecf : cur - Align ≠ f - Align :=
          sub_align_ne cur f inv.curPayload hfP (fun hq => hfcur hq.symm)
        by_cases hfstack : f ∈ stack.map Prod.fst
        · -- the target is on the reversal path: it is marked
          obtain ⟨⟨jj, hjj⟩, hget⟩ := List.mem_iff_get.mp hfstack
          have hjj' : jj < stack.length := by
            simpa using hjj
          have hget' : (stack.get ⟨jj, hjj'⟩).1 = f := by
            rw [← hget, List.get_map]
          obtain ⟨_, _, _, _, _, _, _, _,
            ⟨bm, hbm, _, hbmmark, _, _⟩, _⟩ := inv.entries jj hjj'
          rw [hget'] at hbm
          right
          refine ⟨m.set (cur - Align) { bc with mark := true, hptr := .cursor t j },
            cur, prev, stack, ?_, ?_, ?_⟩
          · show markStep m cur prev = .step
              (m.set (cur - Align)
                { bc with mark := true, hptr := .cursor t j }) cur prev
            simp only [markStep, hbc, hcursor, hentry, hoffj, if_true, hfbc,
              hf, Mem.lookup_set_ne _ _ _ _ hnecf, hbm, hbmmark, if_true]
          · refine MarkInv.stay mS m root cur prev stack inv b0 t bc j hb0
              hb0t hbc hsize hfields hjA hoffj hprocOld ?_
            intro q hq
            have hqf : q = f := (Option.some.inj (hf.symm.trans hq)).symm
            subst hqf
            exact markedInM_set_marked m _ _ rfl q ⟨bm, hbm, hbmmark⟩
          · exact hmeas _ rfl
        · -- the target is off the path
          have hstackne : ∀ e ∈ stack, f - Align ≠ e.1 - Align := by
            intro e he
            exact sub_align_ne f e.1 hfP (inv.stackPayload e he)
              (fun hq => hfstack (hq ▸ List.mem_map_of_mem Prod.fst he))
          obtain ⟨bb, hbb, hbsize, hbhptr, hbfields, hbmM, hbdis⟩ :=
            inv.others (f - Align) bf0 hfS hstackne
              (fun hq => hnecf hq.symm)
          cases hbmk : bb.mark with
          | true =>
            right
            refine ⟨m.set (cur - Align) { bc with mark := true, hptr := .cursor t j },
            cur, prev, stack, ?_, ?_, ?_⟩
            · show markStep m cur prev = .step
                (m.set (cur - Align)
                  { bc with mark := true, hptr := .cursor t j }) cur prev
              simp only [markStep, hbc, hcursor, hentry, hoffj, if_true,
                hfbc, hf, Mem.lookup_set_ne _ _ _ _ hnecf, hbb, hbmk, if_true]
            · refine MarkInv.stay mS m root cur prev stack inv b0 t bc j hb0
                hb0t hbc hsize hfields hjA hoffj hprocOld ?_
              intro q hq
              have hqf : q = f := (Option.some.inj (hf.symm.trans hq)).symm
              subst hqf
              exact markedInM_set_marked m _ _ rfl q ⟨bb, hbb, hbmk⟩
            · exact hmeas _ rfl
          | false =>
            -- unmarked target: reverse the link and descend
            have hbf0m : bf0.mark = false := by
              cases h : bf0.mark with
              | false => rfl
              | true =>
                have := hbmM h
                rw [hbmk] at this
                exact Bool.noConfusion this
            have hfnew : f ∉ cur :: stack.map Prod.fst := by
              intro h
              rcases List.mem_cons.mp h with h | h
              · exact hfcur h
              · exact hfstack h
            right
            refine ⟨(m.set (cur - Align)
                  { bc with mark := true, hptr := .cursor t j }).set
                  (cur - Align)
                  { bc with mark := true, hptr := .cursor t j,
                            fields := setField bc.fields off.toNat prev },
              f, some cur, (cur, j) :: stack, ?_, ?_, ?_⟩
            · show markStep m cur prev = .step
                ((m.set (cur - Align)
                  { bc with mark := true, hptr := .cursor t j }).set
                  (cur - Align)
                  { bc with mark := true, hptr := .cursor t j,
                            fields := setField bc.fields off.toNat prev })
                f (some cur)
              simp only [markStep, hbc, hcursor, hentry, hoffj, if_true,
                hfbc, hf, Mem.lookup_set_ne _ _ _ _ hnecf, hbb, hbmk,
                Bool.false_eq_true, if_false]
            · rw [Mem.set_set]
              exact MarkInv.descend mS m root cur prev stack inv b0 t bc j f
                bf0 tf bb hb0 hb0t hbc hsize hfields hjA hoffj hf hfS hfSt
                hfP hfnew hbb hbsize hbhptr hbfields hbmk hbf0m hprocOld
            · rw [Mem.set_set]
              exact hmeas _ rfl
  · -- the cursor sits on the sentinel cell: restore and retreat
    have hjB : j = t.offsets.length := Nat.le_antisymm hjle (Nat.le_of_not_lt hjA)
    subst hjB
    have hentry : t.entry t.offsets.length = some t.sentinel := by
      unfold TypeDescriptor.entry
      rw [dif_neg (lt_irrefl _), if_pos rfl]
    have hneg : ¬(0 ≤ t.sentinel) := by
      unfold TypeDescriptor.sentinel ListOffset
      intro h
      have h2 : (0:Int) < Int.ofNat (56 + 8 * t.offsets.length) :=
        Int.ofNat_pos.mpr (by omega)
      omega
    have hprocAll : ∀ o ∈ t.offsets, ∀ q,
        getField b0.fields o.toNat = some q → markedInM m q := by
      intro o ho q hq
      obtain ⟨⟨i2, hi2⟩, hgeto⟩ := List.mem_iff_get.mp ho
      exact hprocOld i2 hi2 hi2 q (by rw [hgeto]; exact hq)
    have hcostR : stateCost { bc with mark := true, hptr := .typeDesc t }
        = 0 := rfl
    cases hprev : prev with
    | none =>
      -- null predecessor: the traversal is complete
      subst hprev
      have hnil : stack = [] := by
        have h := inv.prevEq
        cases stack with
        | nil => rfl
        | cons s ss => exact Option.noConfusion h
      subst hnil
      have hcr : cur = root := inv.rootNil rfl
      subst hcr
      left
      refine ⟨m.set (cur - Align)
        { bc with mark := true, hptr := .typeDesc t }, ?_, ?_⟩
      · show markStep m cur none = .done
          (m.set (cur - Align) { bc with mark := true, hptr := .typeDesc t })
        simp [markStep, hbc, hcursor, hentry, hneg]
      · exact MarkPost.of_done mS m cur hWF inv b0 t bc hb0 hb0t hbc hsize
          hfields hprocAll
    | some p =>
      -- pop the reversal stack
      subst hprev
      obtain ⟨⟨p0, ip⟩, rest, hstk⟩ :
          ∃ e rest, stack = e :: rest := by
        cases stack with
        | nil => exact absurd inv.prevEq (by simp)
        | cons e rest => exact ⟨e, rest, rfl⟩
      subst hstk
      have hp0 : p = p0 := by
        have h := inv.prevEq
        simp only [List.head?_cons, Option.map_some'] at h
        exact Option.some.inj h
      subst hp0
      obtain ⟨b0p, tp, hij0, hlookSP0, hhptrP0, hreachP0, hoffposP0, horigP0,
        ⟨bm, hbm0, hbmsize0, hbmmark0, hbmhptr0, hbmfieldsP0⟩, hprocP0⟩ :=
        inv.entries 0 (Nat.succ_pos _)
      have hij : ip < tp.offsets.length := hij0
      have hlookSP : mS.lookup (p - Align) = some b0p := hlookSP0
      have hhptrP : b0p.hptr = .typeDesc tp := hhptrP0
      have hreachP : Reaches mS root p := hreachP0
      have hoffposP : 0 ≤ tp.offsets.get ⟨ip, hij⟩ := hoffposP0
      have horigP : getField b0p.fields ((tp.offsets.get ⟨ip, hij⟩).toNat) =
          some cur := horigP0
      have hbm : m.lookup (p - Align) = some bm := hbm0
      have hbmsize : bm.mSize = b0p.mSize := hbmsize0
      have hbmmark : bm.mark = true := hbmmark0
      have hbmhptr : bm.hptr = .cursor tp ip := hbmhptr0
      have hbmfieldsP : ∀ k, getField bm.fields k =
          if (tp.offsets.get ⟨ip, hij⟩).toNat = k
          then (rest.map Prod.fst).get? 0 else getField b0p.fields k :=
        hbmfieldsP0
      have hprocP : ∀ i, i < ip → ∀ (hi : i < tp.offsets.length), ∀ q,
          getField b0p.fields ((tp.offsets.get ⟨i, hi⟩).toNat) = some q →
          markedInM m q := hprocP0
      have hpc : p ≠ cur := by
        intro hq
        exact (List.nodup_cons.mp inv.nodup).1
          (hq ▸ List.mem_cons_self _ _)
      have hpP : Align ≤ p := inv.stackPayload (p, ip) (List.mem_cons_self _ _)
      have hnecp : cur - Align ≠ p - Align :=
        sub_align_ne cur p inv.curPayload hpP (fun hq => hpc hq.symm)
      have hentryP : tp.entry ip = some (tp.offsets.get ⟨ip, hij⟩) := by
        unfold TypeDescriptor.entry
        rw [dif_pos hij]
      right
      refine ⟨(m.set (cur - Align)
            { bc with mark := true, hptr := .typeDesc t }).set (p - Align)
            { bm with fields := setField bm.fields
                                  ((tp.offsets.get ⟨ip, hij⟩).toNat)
                                  (some cur) },
        p, getField bm.fields ((tp.offsets.get ⟨ip, hij⟩).toNat),
        rest, ?_, ?_, ?_⟩
      · show markStep m cur (some p) = .step
          ((m.set (cur - Align)
            { bc with mark := true, hptr := .typeDesc t }).set (p - Align)
            { bm with fields := setField bm.fields
                                  ((tp.offsets.get ⟨ip, hij⟩).toNat)
                                  (some cur) })
          p (getField bm.fields ((tp.offsets.get ⟨ip, hij⟩).toNat))
        simp only [markStep, hbc, hcursor, hentry, hneg, if_false,
          Mem.lookup_set_ne _ _ _ _ hnecp, hbm, hbmhptr, hentryP,
          hoffposP, if_true]
      · exact MarkInv.retreat mS m root cur p ip rest inv b0 t bc hb0 hb0t
          hbc hsize hfields hprocAll b0p tp bm hij hlookSP hhptrP hreachP
          hoffposP horigP hbm hbmsize hbmmark hbmhptr hbmfieldsP hprocP
      · have hbmset : (m.set (cur - Align)
            { bc with mark := true, hptr := .typeDesc t }).lookup (p - Align)
              = some bm := by
          rw [Mem.lookup_set_ne _ _ _ _ hnecp]
          exact hbm
        have hms1 := memMeasure_set m (cur - Align)
          { bc with mark := true, hptr := .typeDesc t } bc hbc
        have hms2 := memMeasure_set
          (m.set (cur - Align) { bc with mark := true, hptr := .typeDesc t })
          (p - Align)
          { bm with fields := setField bm.fields
                                ((tp.offsets.get ⟨ip, hij⟩).toNat)
                                (some cur) }
          bm hbmset
        have hcostbm : stateCost
            { bm with fields := setField bm.fields
                                  ((tp.offsets.get ⟨ip, hij⟩).toNat)
                                  (some cur) } = stateCost bm := rfl
        rw [hcostR] at hms1
        rw [hcostbm] at hms2
        omega

/-- The marking loop terminates with the postcondition whenever it starts in
the invariant with fuel exceeding the measure. -/
theorem markLoop_spec (mS : Mem) (root : Nat) (hWF : MidWF mS) :
    ∀ (fuel : Nat) (m : Mem) (cur : Nat) (prev : Option Nat)
      (stack : List (Nat × Nat)),
      MarkInv mS m root cur prev stack → memMeasure m < fuel →
      ∃ m2, markLoop m fuel cur prev = some m2 ∧ MarkPost mS m2 root := by
  intro fuel
  induction fuel with
  | zero =>
    intro m cur prev stack _ hfuel
    exact absurd hfuel (Nat.not_lt_zero _)
  | succ fuel ih =>
    intro m cur prev stack hinv hfuel
    rcases markStep_spec mS root hWF m cur prev stack hinv with
      ⟨m2, hstep, hpost⟩ | ⟨m1, c1, p1, stack1, hstep, hinv1, hlt⟩
    · exact ⟨m2, by simp [markLoop, hstep], hpost⟩
    · obtain ⟨m2, hloop, hpost⟩ := ih m1 c1 p1 stack1 hinv1 (by omega)
      exact ⟨m2, by simp only [markLoop, hstep]; exact hloop, hpost⟩

/-- The invariant at the start of `HeapBase::mark(root)`: the root is an
unmarked used block and the reversal stack is empty. -/
theorem MarkInv.init (m : Mem) (root : Nat) (hP : Align ≤ root)
    (br : Block) (tr : TypeDescriptor)
    (hbr : m.lookup (root - Align) = some br)
    (hbrt : br.hptr = .typeDesc tr) (hbrm : br.mark = false) :
    MarkInv m m root root none [] := by
  refine ⟨rfl, hP, ?_, fun _ => rfl, ?_, ?_, ?_, ?_, ?_, fun _ h => h, ?_,
    Relation.ReflTransGen.refl⟩
  · intro e he
    exact absurd he (List.not_mem_nil e)
  · intro e he
    exact absurd he (by simp)
  · simp
  · intro j hj
    exact absurd hj (Nat.not_lt_zero j)
  · refine ⟨br, tr, hbr, hbrt, br, hbr, rfl, fun _ => rfl, fun h => h,
      fun _ => hbrt, ?_⟩
    intro h
    rw [hbrm] at h
    exact Bool.noConfusion h
  · intro a b0 hS _ _
    exact ⟨b0, hS, rfl, rfl, fun _ => rfl, fun h => h, fun h => Or.inl h⟩
  · intro a b hab hbm
    exact Or.inl ⟨b, hab, hbm⟩

/-- `HeapBase::mark(root)` on an unmarked used root block in a well-formed
memory succeeds and establishes the marking postcondition. -/
theorem markRoot_spec (m : Mem) (root : Nat) (hWF : MidWF m)
    (hP : Align ≤ root) (br : Block) (tr : TypeDescriptor)
    (hbr : m.lookup (root - Align) = some br)
    (hbrt : br.hptr = .typeDesc tr) (hbrm : br.mark = false) :
    ∃ m2, markRoot m root = some m2 ∧ MarkPost m m2 root := by
  obtain ⟨m2, hloop, hpost⟩ := markLoop_spec m root hWF (markFuel m) m root
    none [] (MarkInv.init m root hP br tr hbr hbrt hbrm)
    (memMeasure_lt_markFuel m)
  refine ⟨m2, ?_, hpost⟩
  unfold markRoot
  rw [hbr]
  simp only [hbrm, Bool.false_eq_true, if_false]
  exact hloop

/-- Pointer-field edges are invariant under any transformation that
preserves header pointers and field contents. -/
theorem succAt_iff_shape (mA mB : Mem)
    (hnone : ∀ a, mA.lookup a = none → mB.lookup a = none)
    (hblocks : ∀ a b0, mA.lookup a = some b0 → ∃ b, mB.lookup a = some b ∧
      b.hptr = b0.hptr ∧ ∀ k, getField b.fields k = getField b0.fields k) :
    ∀ p q, succAt mB p q ↔ succAt mA p q := by
  intro p q
  constructor
  · rintro ⟨b, t, o, hlook, hhp, ho, hgf⟩
    cases hA : mA.lookup (p - Align) with
    | none =>
      rw [hnone _ hA] at hlook
      exact absurd hlook (by simp)
    | some b0 =>
      obtain ⟨b', hb', hhp', hgf'⟩ := hblocks _ _ hA
      have hbeq : b' = b := Option.some.inj (hb'.symm.trans hlook)
      subst hbeq
      refine ⟨b0, t, o, hA, ?_, ho, ?_⟩
      · rw [← hhp']; exact hhp
      · rw [← hgf']; exact hgf
  · rintro ⟨b0, t, o, hA, hhp0, ho, hgf0⟩
    obtain ⟨b, hb, hhp', hgf'⟩ := hblocks _ _ hA
    exact ⟨b, t, o, hb, hhp'.trans hhp0, ho, (hgf' _).trans hgf0⟩

/-- Reachability is invariant under shape-preserving transformations. -/
theorem Reaches_iff_shape (mA mB : Mem)
    (hnone : ∀ a, mA.lookup a = none → mB.lookup a = none)
    (hblocks : ∀ a b0, mA.lookup a = some b0 → ∃ b, mB.lookup a = some b ∧
      b.hptr = b0.hptr ∧ ∀ k, getField b.fields k = getField b0.fields k)
    (p q : Nat) : Reaches mB p q ↔ Reaches mA p q :=
  ⟨Relation.ReflTransGen.mono
    (fun a b h => (succAt_iff_shape mA mB hnone hblocks a b).mp h),
   Relation.ReflTransGen.mono
    (fun a b h => (succAt_iff_shape mA mB hnone hblocks a b).mpr h)⟩

/-- In a well-formed memory the marked set is closed under reachability. -/
theorem reach_marked (m2 : Mem) (hwf : MidWF m2) :
    ∀ x y, Reaches m2 x y → markedInM m2 x → markedInM m2 y := by
  intro x y h
  induction h with
  | refl => exact id
  | tail _ hedge ih =>
    intro hx
    obtain ⟨b, t, o, hlook, hhp, ho, hgf⟩ := hedge
    obtain ⟨bz, hbz, hbzm⟩ := ih hx
    have hbeq : bz = b := Option.some.inj (hbz.symm.trans hlook)
    subst hbeq
    exact ((hwf _ _ hlook).2.2 t hhp).2.2 hbzm o ho _ hgf

/-- Relation between the memory before the marking phase (`m0`, all marks
assumed clear by the caller) and the memory after some prefix of the roots
has been processed: shapes are preserved and a block is marked exactly when
it was already marked or its payload satisfies `P` (the payloads reached by
the processed roots). -/
structure PhaseInv (m0 mk : Mem) (P : Nat → Prop) : Prop where
  noneDom : ∀ a, m0.lookup a = none → mk.lookup a = none
  blocks : ∀ a b0, m0.lookup a = some b0 → ∃ b, mk.lookup a = some b ∧
    b.mSize = b0.mSize ∧ b.hptr = b0.hptr ∧
    (∀ k, getField b.fields k = getField b0.fields k) ∧
    (b.mark = true ↔ (b0.mark = true ∨ P (a + Align)))
  wf : MidWF mk

theorem PhaseInv.mono (m0 mk : Mem) (P Q : Nat → Prop)
    (hPQ : ∀ x, P x ↔ Q x) (hinv : PhaseInv m0 mk P) : PhaseInv m0 mk Q := by
  refine ⟨hinv.noneDom, ?_, hinv.wf⟩
  intro a b0 hS
  obtain ⟨b, h1, h2, h3, h4, h5⟩ := hinv.blocks a b0 hS
  exact ⟨b, h1, h2, h3, h4, h5.trans (or_congr Iff.rfl (hPQ _))⟩

theorem PhaseInv.initial (m0 : Mem) (hWF : MidWF m0) :
    PhaseInv m0 m0 (fun _ => False) :=
  ⟨fun _ h => h,
   fun a b0 hS => ⟨b0, hS, rfl, rfl, fun _ => rfl, by simp⟩,
   hWF⟩

/-- One successful `mark(root)` call extends the phase invariant by the
payloads reachable from that root. -/
theorem PhaseInv.step (m0 mk : Mem) (P : Nat → Prop) (r : Nat)
    (hinv : PhaseInv m0 mk P) (hP : Align ≤ r)
    (br0 : Block) (tr : TypeDescriptor)
    (hbr0 : m0.lookup (r - Align) = some br0)
    (hbr0t : br0.hptr = .typeDesc tr)
    (mk1 : Mem) (hsucc : markRoot mk r = some mk1) :
    PhaseInv m0 mk1 (fun x => P x ∨ Reaches m0 r x) := by
  obtain ⟨bk, hbk, hbksize, hbkhptr, hbkfields, hbkmark⟩ :=
    hinv.blocks _ _ hbr0
  cases hmk : bk.mark with
  | true =>
    unfold markRoot at hsucc
    simp only [hbk] at hsucc
    rw [hmk] at hsucc
    simp at hsucc
  | false =>
    obtain ⟨m2', heq, hpost⟩ := markRoot_spec mk r hinv.wf hP bk tr hbk
      (by rw [hbkhptr]; exact hbr0t) hmk
    have hm2 : m2' = mk1 := Option.some.inj (heq.symm.trans hsucc)
    subst hm2
    have hshape0k : ∀ a b0, m0.lookup a = some b0 → ∃ b, mk.lookup a = some b ∧
        b.hptr = b0.hptr ∧ ∀ k, getField b.fields k = getField b0.fields k := by
      intro a b0 hS
      obtain ⟨b, h1, _, h3, h4, _⟩ := hinv.blocks a b0 hS
      exact ⟨b, h1, h3, h4⟩
    have hshapek1 : ∀ a b0, mk.lookup a = some b0 → ∃ b, m2'.lookup a = some b ∧
        b.hptr = b0.hptr ∧ ∀ k, getField b.fields k = getField b0.fields k := by
      intro a b0 hS
      obtain ⟨b, h1, _, h3, h4, _, _⟩ := hpost.blocks a b0 hS
      exact ⟨b, h1, h3, h4⟩
    refine ⟨?_, ?_, hpost.wf⟩
    · intro a ha
      exact hpost.noneDom a (hinv.noneDom a ha)
    · intro a b0 hS
      obtain ⟨bk', hbk', hs1, hs2, hs3, hiff⟩ := hinv.blocks a b0 hS
      obtain ⟨bb, hbb, ht1, ht2, ht3, ht4, ht5⟩ := hpost.blocks a bk' hbk'
      refine ⟨bb, hbb, ht1.trans hs1, ht2.trans hs2,
        fun k => (ht3 k).trans (hs3 k), ?_⟩
      constructor
      · intro hbbm
        rcases ht5 hbbm with hkm | hre
        · rcases hiff.mp hkm with h | h
          · exact Or.inl h
          · exact Or.inr (Or.inl h)
        · exact Or.inr (Or.inr
            ((Reaches_iff_shape m0 mk hinv.noneDom hshape0k r _).mp hre))
      · intro hcase
        rcases hcase with h | h | h
        · exact ht4 (hiff.mpr (Or.inl h))
        · exact ht4 (hiff.mpr (Or.inr h))
        · -- reachable from the freshly marked root: closed marked set
          have hrk : Reaches mk r (a + Align) :=
            (Reaches_iff_shape m0 mk hinv.noneDom hshape0k r _).mpr h
          have hrk1 : Reaches m2' r (a + Align) :=
            (Reaches_iff_shape mk m2' hpost.noneDom hshapek1 r _).mpr hrk
          have hmket : markedInM m2' (a + Align) :=
            reach_marked m2' hpost.wf r (a + Align) hrk1 hpost.rootMarked
          obtain ⟨bq, hbq, hbqm⟩ := hmket
          have haa : a + Align - Align = a := by simp
          rw [haa] at hbq
          have : bq = bb := Option.some.inj (hbq.symm.trans hbb)
          subst this
          exact hbqm

/-- The marking phase of `gc()` over a roots list, as repeated extension of
the phase invariant. -/
theorem gcMarkPhase_inv (m0 : Mem) :
    ∀ (roots : List Nat),
      (∀ r ∈ roots, Align ≤ r ∧ ∃ br tr,
        m0.lookup (r - Align) = some br ∧ br.hptr = .typeDesc tr) →
      ∀ (mk : Mem) (P : Nat → Prop), PhaseInv m0 mk P →
      ∀ m2, gcMarkPhase mk roots = some m2 →
      PhaseInv m0 m2 (fun x => P x ∨ ∃ r ∈ roots, Reaches m0 r x) := by
  intro roots
  induction roots with
  | nil =>
    intro _ mk P hinv m2 hph
    have hmk : mk = m2 := Option.some.inj hph
    subst hmk
    refine PhaseInv.mono m0 mk P _ (fun x => ?_) hinv
    simp
  | cons r rs ih =>
    intro hroots mk P hinv m2 hph
    unfold gcMarkPhase at hph
    cases hmr : markRoot mk r with
    | none =>
      rw [hmr] at hph
      exact absurd hph (by simp)
    | some mk1 =>
      rw [hmr] at hph
      obtain ⟨hPr, br0, tr, hbr0, hbr0t⟩ := hroots r (List.mem_cons_self _ _)
      have hstep := PhaseInv.step m0 mk P r hinv hPr br0 tr hbr0 hbr0t mk1 hmr
      have hrs := ih (fun r' hr' => hroots r' (List.mem_cons_of_mem _ hr'))
        mk1 _ hstep m2 hph
      refine PhaseInv.mono m0 m2 _ _ (fun x => ?_) hrs
      constructor
      · rintro (⟨hp | hr⟩ | ⟨r', hr', hre⟩)
        · exact Or.inl hp
        · exact Or.inr ⟨r, List.mem_cons_self _ _, hr⟩
        · exact Or.inr ⟨r', List.mem_cons_of_mem _ hr', hre⟩
      · rintro (hp | ⟨r', hr', hre⟩)
        · exact Or.inl (Or.inl hp)
        · rcases List.mem_cons.mp hr' with hq | hq
          · subst hq
            exact Or.inl (Or.inr hre)
          · exact Or.inr ⟨r', hq, hre⟩

/-- `Block::following()` strictly advances. -/
theorem followingOf_gt (a : Nat) (b : Block) : a < Block.followingOf a b := by
  unfold Block.followingOf
  have hA : Align = 16 := rfl
  omega

/-- The inner do-while of the sweep strictly advances. -/
theorem extendFree_gt (m : Mem) (heapEnd : Nat) :
    ∀ fuel a e log, extendFree m fuel a heapEnd = some (e, log) → a < e := by
  intro fuel
  induction fuel with
  | zero =>
    intro a e log h
    exact absurd h (by simp [extendFree])
  | succ fuel ih =>
    intro a e log h
    unfold extendFree at h
    cases hl : m.lookup a with
    | none => simp only [hl] at h; exact Option.noConfusion h
    | some blk =>
      simp only [hl] at h
      have hfol := followingOf_gt a blk
      by_cases hn : Block.followingOf a blk < heapEnd
      · rw [if_pos hn] at h
        cases hnl : m.lookup (Block.followingOf a blk) with
        | none => simp only [hnl] at h; exact Option.noConfusion h
        | some nblk =>
          simp only [hnl] at h
          cases hnm : nblk.mark with
          | true =>
            rw [hnm] at h
            simp only [if_true] at h
            have : Block.followingOf a blk = e :=
              congrArg Prod.fst (Option.some.inj h)
            omega
          | false =>
            rw [hnm] at h
            simp only [Bool.false_eq_true, if_false] at h
            cases hrec : extendFree m fuel (Block.followingOf a blk) heapEnd
              with
            | none => simp only [hrec] at h; exact Option.noConfusion h
            | some el =>
              obtain ⟨e1, l1⟩ := el
              simp only [hrec] at h
              have he1 : e1 = e := congrArg Prod.fst (Option.some.inj h)
              have := ih _ _ _ hrec
              omega
      · rw [if_neg hn] at h
        have : Block.followingOf a blk = e :=
          congrArg Prod.fst (Option.some.inj h)
        omega

/-- Across the sweep scan, addresses below the scan position are untouched,
and every marked block either only has its mark cleared or is untouched:
its size, header, and fields survive. -/
theorem rebuildFrom_marked (heapEnd : Nat) :
    ∀ fuel a fl log m m2 fl2 log2,
      rebuildFrom m fuel a heapEnd fl log = some (m2, fl2, log2) →
      (∀ x, x < a → m2.lookup x = m.lookup x) ∧
      (∀ x b, m.lookup x = some b → b.mark = true →
        m2.lookup x = some { b with mark := false } ∨
          m2.lookup x = some b) := by
  intro fuel
  induction fuel with
  | zero =>
    intro a fl log m m2 fl2 log2 h
    exact absurd h (by simp [rebuildFrom])
  | succ fuel ih =>
    intro a fl log m m2 fl2 log2 h
    unfold rebuildFrom at h
    by_cases ha : a < heapEnd
    · rw [if_pos ha] at h
      cases hl : m.lookup a with
      | none => simp only [hl] at h; exact Option.noConfusion h
      | some blk =>
        simp only [hl] at h
        cases hbm : blk.mark with
        | true =>
          rw [hbm] at h
          simp only [if_true] at h
          obtain ⟨ih1, ih2⟩ := ih _ _ _ _ _ _ _ h
          have hfol := followingOf_gt a blk
          constructor
          · intro x hx
            rw [ih1 x (by omega)]
            exact Mem.lookup_set_ne _ _ _ _ (by omega)
          · intro x b hxb hbmk
            by_cases hax : x = a
            · subst hax
              have hbeq : b = blk := Option.some.inj (hxb.symm.trans hl)
              subst hbeq
              left
              rw [ih1 _ hfol]
              exact Mem.lookup_set_self _ _ _
            · exact ih2 x b
                (by rw [Mem.lookup_set_ne _ _ _ _ (fun hq => hax hq.symm)]
                    exact hxb) hbmk
        | false =>
          rw [hbm] at h
          simp only [Bool.false_eq_true, if_false] at h
          cases he : extendFree m (heapEnd + 1) a heapEnd with
          | none => simp only [he] at h; exact Option.noConfusion h
          | some el =>
            obtain ⟨e, dlog⟩ := el
            simp only [he] at h
            have hae : a < e := extendFree_gt m heapEnd _ _ _ _ he
            obtain ⟨ih1, ih2⟩ := ih _ _ _ _ _ _ _ h
            constructor
            · intro x hx
              rw [ih1 x (by omega)]
              exact Mem.lookup_set_ne _ _ _ _ (by omega)
            · intro x b hxb hbmk
              by_cases hax : x = a
              · subst hax
                have hbeq : b = blk := Option.some.inj (hxb.symm.trans hl)
                subst hbeq
                rw [hbmk] at hbm
                exact Bool.noConfusion hbm
              · exact ih2 x b
                  (by rw [Mem.lookup_set_ne _ _ _ _ (fun hq => hax hq.symm)]
                      exact hxb) hbmk
    · rw [if_neg ha] at h
      have hm : m = m2 := congrArg Prod.fst (Option.some.inj h)
      subst hm
      exact ⟨fun _ _ => rfl, fun x b hxb _ => Or.inr hxb⟩

/-- The marking loop returns only from the retreat branch with a null
predecessor: the header cursor sits on the sentinel cell (one past the
offset list) and the offset read there is negative. -/
theorem markStep_done_inv (m' : Mem) (cur : Nat) (prev : Option Nat)
    (m2 : Mem) (hdone : markStep m' cur prev = .done m2) :
    prev = none ∧ ∃ blk t, m'.lookup (cur - Align) = some blk ∧
      cursorOf blk = some (t, t.offsets.length) ∧ t.sentinel < 0 := by
  unfold markStep at hdone
  cases hl : m'.lookup (cur - Align) with
  | none =>
    simp only [hl] at hdone
    exact StepResult.noConfusion hdone
  | some blk =>
    simp only [hl] at hdone
    cases hc : cursorOf blk with
    | none =>
      simp only [hc] at hdone
      exact StepResult.noConfusion hdone
    | some ti =>
      obtain ⟨t, idx⟩ := ti
      simp only [hc] at hdone
      cases he : t.entry idx with
      | none =>
        simp only [he] at hdone
        exact StepResult.noConfusion hdone
      | some off =>
        simp only [he] at hdone
        by_cases hoff : 0 ≤ off
        · rw [if_pos hoff] at hdone
          cases hgf : getField blk.fields off.toNat with
          | none =>
            simp only [hgf] at hdone
            exact StepResult.noConfusion hdone
          | some f =>
            simp only [hgf] at hdone
            cases hfl : (m'.set (cur - Align)
                { blk with mark := true, hptr := .cursor t idx }).lookup
                (f - Align) with
            | none =>
              simp only [hfl] at hdone
              exact StepResult.noConfusion hdone
            | some fblk =>
              simp only [hfl] at hdone
              cases hfm : fblk.mark with
              | true =>
                rw [hfm] at hdone
                simp at hdone
              | false =>
                rw [hfm] at hdone
                simp at hdone
        · rw [if_neg hoff] at hdone
          by_cases hix : idx = t.offsets.length
          · rw [if_pos hix] at hdone
            cases hprev2 : prev with
            | none =>
              refine ⟨rfl, blk, t, rfl, ?_, ?_⟩
              · rw [← hix]; exact hc
              · have hofs : off = t.sentinel := by
                  rw [hix] at he
                  unfold TypeDescriptor.entry at he
                  rw [dif_neg (lt_irrefl _), if_pos rfl] at he
                  exact (Option.some.inj he).symm
                rw [← hofs]
                omega
            | some p =>
              simp only [hprev2] at hdone
              cases hpl : (m'.set (cur - Align)
                  { blk with mark := true, hptr := .typeDesc t }).lookup
                  (p - Align) with
              | none =>
                simp only [hpl] at hdone
                exact StepResult.noConfusion hdone
              | some pblk =>
                simp only [hpl] at hdone
                cases hph : pblk.hptr with
                | free n =>
                  simp only [hph] at hdone
                  exact StepResult.noConfusion hdone
                | typeDesc t2 =>
                  simp only [hph] at hdone
                  exact StepResult.noConfusion hdone
                | cursor pt pidx =>
                  simp only [hph] at hdone
                  cases hpe : pt.entry pidx with
                  | none =>
                    simp only [hpe] at hdone
                    exact StepResult.noConfusion hdone
                  | some poff =>
                    simp only [hpe] at hdone
                    by_cases hpo : 0 ≤ poff
                    · rw [if_pos hpo] at hdone
                      exact StepResult.noConfusion hdone
                    · rw [if_neg hpo] at hdone
                      exact StepResult.noConfusion hdone
          · rw [if_neg hix] at hdone
            exact StepResult.noConfusion hdone

/-- A two-node cycle `A.p = B, B.p = A` (headers 0 and 32, payloads 16 and
48), with `A`'s payload registered as the only root. -/
def cycleMem : Mem :=
  [(0, ⟨16, false, .typeDesc tyPtr, [(0, some 48)]⟩),
   (32, ⟨16, false, .typeDesc tyPtr, [(0, some 16)]⟩)]

def cycleHeap : HeapState := ⟨cycleMem, none, [16], 64⟩

/-- The marking phase's result on the cycle heap: both blocks marked. -/
def cycleMarked : Mem :=
  [(0, ⟨16, true, .typeDesc tyPtr, [(0, some 48)]⟩),
   (32, ⟨16, true, .typeDesc tyPtr, [(0, some 16)]⟩)]

theorem cycleMem_WF : MidWF cycleMem := by
  intro a b hab
  have hmem := Mem.lookup_some_mem _ _ _ hab
  simp only [cycleMem, List.mem_cons, List.not_mem_nil, or_false] at hmem
  rcases hmem with h | h
  · rw [Prod.ext_iff] at h
    obtain ⟨ha, hb⟩ := h
    subst ha
    subst hb
    refine ⟨fun h => rfl, fun t i h => HeaderPtr.noConfusion h, ?_⟩
    intro t ht
    have htt : tyPtr = t := HeaderPtr.typeDesc.inj ht
    subst htt
    refine ⟨by decide, ?_, ?_⟩
    · intro o ho q hq
      have ho0 : o = 0 := by simpa [tyPtr] using ho
      subst ho0
      have hq48 : q = 48 := by simpa [getField] using hq.symm
      subst hq48
      exact ⟨by decide, ⟨16, false, .typeDesc tyPtr, [(0, some 16)]⟩, tyPtr,
        by decide, rfl⟩
    · intro hm
      exact Bool.noConfusion hm
  · rw [Prod.ext_iff] at h
    obtain ⟨ha, hb⟩ := h
    subst ha
    subst hb
    refine ⟨fun h => rfl, fun t i h => HeaderPtr.noConfusion h, ?_⟩
    intro t ht
    have htt : tyPtr = t := HeaderPtr.typeDesc.inj ht
    subst htt
    refine ⟨by decide, ?_, ?_⟩
    · intro o ho q hq
      have ho0 : o = 0 := by simpa [tyPtr] using ho
      subst ho0
      have hq16 : q = 16 := by simpa [getField] using hq.symm
      subst hq16
      exact ⟨by decide, ⟨16, false, .typeDesc tyPtr, [(0, some 48)]⟩, tyPtr,
        by decide, rfl⟩
    · intro hm
      exact Bool.noConfusion hm

theorem cycleMem_clear : ∀ a b, cycleMem.lookup a = some b →
    b.mark = false := by
  intro a b hab
  have hmem := Mem.lookup_some_mem _ _ _ hab
  simp only [cycleMem, List.mem_cons, List.not_mem_nil, or_false] at hmem
  rcases hmem with h | h <;>
    (rw [Prod.ext_iff] at h
     have hb : b = _ := h.2
     rw [hb])

theorem cycleMem_rootsOk : ∀ r ∈ cycleHeap.mRoots, Align ≤ r ∧
    ∃ br tr, cycleHeap.mem.lookup (r - Align) = some br ∧
      br.hptr = .typeDesc tr := by
  intro r hr
  have : r = 16 := by simpa [cycleHeap] using hr
  subst this
  exact ⟨by decide, ⟨16, false, .typeDesc tyPtr, [(0, some 48)]⟩, tyPtr,
    rfl, rfl⟩

/-- C3: on a well-formed object graph (cycles and sharing included) the
Deutsch-Schorr-Waite loop started at an unmarked used root terminates: it
returns within `memMeasure m + 1` iterations, where the measure is bounded by
the sum over all blocks of (number of pointer cells + 2) — i.e. each offset
cell is passed at most once forward and each block is entered and left at
most once more than its cells (each edge is traversed at most twice,
`memMeasure m < markFuel m`); and the loop returns exactly from the state
with `prev == null` where the cursor reads the negative sentinel offset. -/
theorem C3_dsw_terminates (m : Mem) (root : Nat) (hWF : MidWF m)
    (hP : Align ≤ root) (br : Block) (tr : TypeDescriptor)
    (hbr : m.lookup (root - Align) = some br)
    (hbrt : br.hptr = .typeDesc tr) (hbrm : br.mark = false) :
    (∃ m2, markLoop m (memMeasure m + 1) root none = some m2 ∧
      MarkPost m m2 root) ∧
    memMeasure m < markFuel m ∧
    (∀ (m' : Mem) (cur : Nat) (prev : Option Nat) (m2 : Mem),
      markStep m' cur prev = .done m2 →
      prev = none ∧ ∃ blk t, m'.lookup (cur - Align) = some blk ∧
        cursorOf blk = some (t, t.offsets.length) ∧ t.sentinel < 0) := by
  refine ⟨?_, memMeasure_lt_markFuel m, markStep_done_inv⟩
  exact markLoop_spec m root hWF (memMeasure m + 1) m root none []
    (MarkInv.init m root hP br tr hbr hbrt hbrm) (Nat.lt_succ_self _)

theorem C3_dsw_terminates_witness :
    ∃ m2, markLoop cycleMem (memMeasure cycleMem + 1) 16 none = some m2 ∧
      MarkPost cycleMem m2 16 :=
  (C3_dsw_terminates cycleMem 16 cycleMem_WF (by decide)
    ⟨16, false, .typeDesc tyPtr, [(0, some 48)]⟩ tyPtr rfl rfl rfl).1

/-- C2: starting from a well-formed memory with every mark clear and valid
roots, if the marking phase of `gc()` runs to completion then a block is
marked exactly when its payload is reachable from some registered root
through the pointer-field graph of the type descriptors' offset lists. -/
theorem C2_marked_iff_reachable (h : HeapState) (hWF : MidWF h.mem)
    (hclear : ∀ a b, h.mem.lookup a = some b → b.mark = false)
    (hroots : ∀ r ∈ h.mRoots, Align ≤ r ∧ ∃ br tr,
      h.mem.lookup (r - Align) = some br ∧ br.hptr = .typeDesc tr)
    (m2 : Mem) (hphase : gcMarkPhase h.mem h.mRoots = some m2) :
    ∀ a b, m2.lookup a = some b →
      (b.mark = true ↔ ∃ r ∈ h.mRoots, Reaches h.mem r (a + Align)) := by
  have hinv := gcMarkPhase_inv h.mem h.mRoots hroots h.mem _
    (PhaseInv.initial h.mem hWF) m2 hphase
  intro a b hab
  cases hS : h.mem.lookup a with
  | none =>
    rw [hinv.noneDom a hS] at hab
    exact absurd hab (by simp)
  | some b0 =>
    obtain ⟨bb, hbb, _, _, _, hiff⟩ := hinv.blocks a b0 hS
    have hbe : bb = b := Option.some.inj (hbb.symm.trans hab)
    subst hbe
    constructor
    · intro hm
      rcases hiff.mp hm with h1 | h1 | h1
      · rw [hclear a b0 hS] at h1
        exact Bool.noConfusion h1
      · exact h1.elim
      · exact h1
    · intro h1
      exact hiff.mpr (Or.inr (Or.inr h1))

theorem C2_marked_iff_reachable_witness :
    (⟨16, true, .typeDesc tyPtr, [(0, some 16)]⟩ : Block).mark = true ↔
      ∃ r ∈ cycleHeap.mRoots, Reaches cycleHeap.mem r (32 + Align) :=
  C2_marked_iff_reachable cycleHeap cycleMem_WF cycleMem_clear
    cycleMem_rootsOk cycleMarked (by decide) 32 _ (by decide)

/-- C1: under the same preconditions, a completed `gc()` leaves every block
reachable from a registered root in place with its size, header pointer and
every managed-pointer field unchanged (the marking phase only flips header
tag bits it later restores, and the sweep only clears mark bits of marked
blocks). -/
theorem C1_fields_preserved (h : HeapState) (hWF : MidWF h.mem)
    (hclear : ∀ a b, h.mem.lookup a = some b → b.mark = false)
    (hroots : ∀ r ∈ h.mRoots, Align ≤ r ∧ ∃ br tr,
      h.mem.lookup (r - Align) = some br ∧ br.hptr = .typeDesc tr)
    (h2 : HeapState) (log : List Nat) (hgc : gc h = some (h2, log)) :
    ∀ a b0, h.mem.lookup a = some b0 →
      (∃ r ∈ h.mRoots, Reaches h.mem r (a + Align)) →
      ∃ b2, h2.mem.lookup a = some b2 ∧ b2.mSize = b0.mSize ∧
        b2.hptr = b0.hptr ∧
        (∀ k, getField b2.fields k = getField b0.fields k) := by
  unfold gc at hgc
  cases hph : gcMarkPhase h.mem h.mRoots with
  | none =>
    rw [hph] at hgc
    exact absurd hgc (by simp)
  | some m1 =>
    rw [hph] at hgc
    unfold rebuildFreeList at hgc
    simp only at hgc
    cases hrb : rebuildFrom m1 (h.heapEnd + 1) 0 h.heapEnd none [] with
    | none =>
      rw [hrb] at hgc
      exact absurd hgc (by simp)
    | some res =>
      obtain ⟨m2', fl2, log2⟩ := res
      rw [hrb] at hgc
      simp only at hgc
      have hpair := Option.some.inj hgc
      have hh2 : h2 = { h with mem := m2', mFreeList := fl2 } :=
        (congrArg Prod.fst hpair).symm
      have hinv := gcMarkPhase_inv h.mem h.mRoots hroots h.mem _
        (PhaseInv.initial h.mem hWF) m1 hph
      intro a b0 ha hreach
      obtain ⟨b1, hb1, hs, hh, hf, hiff⟩ := hinv.blocks a b0 ha
      have hb1m : b1.mark = true := hiff.mpr (Or.inr (Or.inr hreach))
      rcases (rebuildFrom_marked h.heapEnd _ _ _ _ _ _ _ _ hrb).2 a b1 hb1
          hb1m with h1 | h1
      · refine ⟨{ b1 with mark := false }, ?_, hs, hh, hf⟩
        rw [hh2]
        exact h1
      · refine ⟨b1, ?_, hs, hh, hf⟩
        rw [hh2]
        exact h1

theorem C1_fields_preserved_witness :
    (∃ r ∈ cycleHeap.mRoots, Reaches cycleHeap.mem r (0 + Align)) ∧
    ∃ b2, cycleHeap.mem.lookup 0 = some b2 ∧
      getField b2.fields 0 = some 48 := by
  have hreach : ∃ r ∈ cycleHeap.mRoots, Reaches cycleHeap.mem r (0 + Align) :=
    ⟨16, by decide, Relation.ReflTransGen.refl⟩
  have happ := C1_fields_preserved cycleHeap cycleMem_WF cycleMem_clear
    cycleMem_rootsOk cycleHeap [] (by decide) 0
    ⟨16, false, .typeDesc tyPtr, [(0, some 48)]⟩ (by decide) hreach
  obtain ⟨b2, h1, _, _, h4⟩ := happ
  exact ⟨hreach, b2, h1, by rw [h4 0]; decide⟩

/-! ## Sweep structure: runs, free list, walks (C6, C7) -/

theorem align_dvd (s : Nat) : Align ∣ align s := by
  unfold align
  have hA : Align = 16 := rfl
  rw [hA]
  have h1 := Nat.div_add_mod (s + 16 - 1) 16
  exact ⟨(s + 16 - 1) / 16, by omega⟩

theorem align_eq_of_dvd (n : Nat) (h : Align ∣ n) : align n = n := by
  unfold align
  have hA : Align = 16 := rfl
  rw [hA] at h ⊢
  obtain ⟨k, rfl⟩ := h
  have h1 := Nat.div_add_mod (16 * k + 16 - 1) 16
  have h2 : (16 * k + 16 - 1) % 16 < 16 := Nat.mod_lt _ (by omega)
  omega

theorem followingOf_dvd (a : Nat) (b : Block) (ha : Align ∣ a) :
    Align ∣ Block.followingOf a b := by
  unfold Block.followingOf
  exact Nat.dvd_add (Nat.dvd_add ha (Dvd.intro 1 rfl)) (align_dvd b.mSize)

/-- Every block visited by the linear walk is present in memory. -/
theorem walkFrom_lookup (m : Mem) (heapEnd : Nat) :
    ∀ fuel a l e, walkFrom m fuel a heapEnd = some (l, e) →
      ∀ ab ∈ l, m.lookup ab.1 = some ab.2 := by
  intro fuel
  induction fuel with
  | zero =>
    intro a l e h
    exact absurd h (by simp [walkFrom])
  | succ fuel ih =>
    intro a l e h
    unfold walkFrom at h
    by_cases ha : a < heapEnd
    · rw [if_pos ha] at h
      cases hl : m.lookup a with
      | none => simp only [hl] at h; exact Option.noConfusion h
      | some blk =>
        simp only [hl] at h
        cases hw : walkFrom m fuel (Block.followingOf a blk) heapEnd with
        | none => simp only [hw] at h; exact Option.noConfusion h
        | some r =>
          obtain ⟨l', e'⟩ := r
          simp only [hw] at h
          obtain ⟨h1, h2⟩ := Prod.mk.injEq .. ▸ Option.some.inj h
          subst h2
          intro ab hab
          rw [← h1] at hab
          rcases List.mem_cons.mp hab with hq | hq
          · rw [hq]; exact hl
          · exact ih _ _ _ hw ab hq
    · rw [if_neg ha] at h
      have h1 : ([] : List (Nat × Block)) = l :=
        congrArg Prod.fst (Option.some.inj h)
      intro ab hab
      rw [← h1] at hab
      exact absurd hab (List.not_mem_nil ab)

/-- The linear walk visits strictly increasing addresses within the arena,
starting at the scan position. -/
theorem walkFrom_bounds (m : Mem) (heapEnd : Nat) :
    ∀ fuel a l e, walkFrom m fuel a heapEnd = some (l, e) →
      (∀ ab ∈ l, a ≤ ab.1 ∧ ab.1 < heapEnd) ∧
      List.Pairwise (· < ·) (l.map Prod.fst) ∧ a ≤ e := by
  intro fuel
  induction fuel with
  | zero =>
    intro a l e h
    exact absurd h (by simp [walkFrom])
  | succ fuel ih =>
    intro a l e h
    unfold walkFrom at h
    by_cases ha : a < heapEnd
    · rw [if_pos ha] at h
      cases hl : m.lookup a with
      | none => simp only [hl] at h; exact Option.noConfusion h
      | some blk =>
        simp only [hl] at h
        cases hw : walkFrom m fuel (Block.followingOf a blk) heapEnd with
        | none => simp only [hw] at h; exact Option.noConfusion h
        | some r =>
          obtain ⟨l', e'⟩ := r
          simp only [hw] at h
          obtain ⟨h1, h2⟩ := Prod.mk.injEq .. ▸ Option.some.inj h
          subst h2
          obtain ⟨ihb, ihp, ihe⟩ := ih _ _ _ hw
          have hfol := followingOf_gt a blk
          subst h1
          refine ⟨?_, ?_, by omega⟩
          · intro ab hab
            rcases List.mem_cons.mp hab with hq | hq
            · rw [hq]; exact ⟨Nat.le_refl a, ha⟩
            · have := ihb ab hq
              omega
          · rw [List.map_cons]
            refine List.pairwise_cons.mpr ⟨?_, ihp⟩
            intro x hx
            obtain ⟨ab, hab, habx⟩ := List.mem_map.mp hx
            have := ihb ab hab
            omega
    · rw [if_neg ha] at h
      obtain ⟨h1, h2⟩ := Prod.mk.injEq .. ▸ Option.some.inj h
      subst h2
      rw [← h1]
      exact ⟨fun ab hab => absurd hab (List.not_mem_nil ab), by simp,
        Nat.le_refl a⟩

/-- Prepending one step to a successful walk. -/
theorem walkFrom_cons (m : Mem) (heapEnd fw : Nat) (a : Nat) (blk : Block)
    (ha : a < heapEnd) (hl : m.lookup a = some blk)
    (lw : List (Nat × Block)) (ew : Nat)
    (hw : walkFrom m fw (Block.followingOf a blk) heapEnd = some (lw, ew)) :
    walkFrom m (fw + 1) a heapEnd = some ((a, blk) :: lw, ew) := by
  show walkFrom m (fw + 1) a heapEnd = _
  unfold walkFrom
  rw [if_pos ha]
  simp only [hl, hw]

/-- A successful walk succeeds identically with any fuel exceeding its
length. -/
theorem walkFrom_fuel_free (m : Mem) (heapEnd : Nat) :
    ∀ fuel a l e, walkFrom m fuel a heapEnd = some (l, e) →
      ∀ fuel2, l.length < fuel2 → walkFrom m fuel2 a heapEnd = some (l, e) := by
  intro fuel
  induction fuel with
  | zero =>
    intro a l e h
    exact absurd h (by simp [walkFrom])
  | succ fuel ih =>
    intro a l e h fuel2 hlen
    unfold walkFrom at h
    by_cases ha : a < heapEnd
    · rw [if_pos ha] at h
      cases hl : m.lookup a with
      | none => simp only [hl] at h; exact Option.noConfusion h
      | some blk =>
        simp only [hl] at h
        cases hw : walkFrom m fuel (Block.followingOf a blk) heapEnd with
        | none => simp only [hw] at h; exact Option.noConfusion h
        | some r =>
          obtain ⟨l', e'⟩ := r
          simp only [hw] at h
          obtain ⟨h1, h2⟩ := Prod.mk.injEq .. ▸ Option.some.inj h
          subst h2
          subst h1
          obtain ⟨f2, rfl⟩ : ∃ f2, fuel2 = f2 + 1 := by
            cases fuel2 with
            | zero => simp at hlen
            | succ f2 => exact ⟨f2, rfl⟩
          have hih := ih _ _ _ hw f2 (by simpa using hlen)
          exact walkFrom_cons m heapEnd f2 a blk ha hl l' e' hih
    · rw [if_neg ha] at h
      obtain ⟨f2, rfl⟩ : ∃ f2, fuel2 = f2 + 1 := by
        cases fuel2 with
        | zero => simp at hlen
        | succ f2 => exact ⟨f2, rfl⟩
      show walkFrom m (f2 + 1) a heapEnd = _
      unfold walkFrom
      rw [if_neg ha]
      exact h

/-- The walk advances by at least `Align` per visited block. -/
theorem walkFrom_length_bound (m : Mem) (heapEnd : Nat) :
    ∀ fuel a l e, walkFrom m fuel a heapEnd = some (l, e) →
      l = [] ∨ (Align * l.length + a ≤ Align + heapEnd ∧ 0 < heapEnd) := by
  intro fuel
  induction fuel with
  | zero =>
    intro a l e h
    exact absurd h (by simp [walkFrom])
  | succ fuel ih =>
    intro a l e h
    unfold walkFrom at h
    by_cases ha : a < heapEnd
    · rw [if_pos ha] at h
      cases hl : m.lookup a with
      | none => simp only [hl] at h; exact Option.noConfusion h
      | some blk =>
        simp only [hl] at h
        cases hw : walkFrom m fuel (Block.followingOf a blk) heapEnd with
        | none => simp only [hw] at h; exact Option.noConfusion h
        | some r =>
          obtain ⟨l', e'⟩ := r
          simp only [hw] at h
          obtain ⟨h1, h2⟩ := Prod.mk.injEq .. ▸ Option.some.inj h
          subst h2
          subst h1
          right
          have hfol : a + Align ≤ Block.followingOf a blk := by
            unfold Block.followingOf
            omega
          have hA : Align = 16 := rfl
          rw [hA] at hfol
          rcases ih _ _ _ hw with hnil | hbound
          · subst hnil
            simp only [List.length_cons, List.length_nil, hA]
            omega
          · obtain ⟨hbound, hpos⟩ := hbound
            rw [hA] at hbound
            simp only [List.length_cons, hA]
            refine ⟨?_, hpos⟩
            have hmul : 16 * (l'.length + 1) = 16 * l'.length + 16 := by ring
            omega
    · rw [if_neg ha] at h
      obtain ⟨h1, _⟩ := Prod.mk.injEq .. ▸ Option.some.inj h
      left
      exact h1.symm

/-- Any successful walk also succeeds with the canonical fuel
`heapEnd + 1`. -/
theorem walkFrom_canonical (m : Mem) (heapEnd : Nat) (fuel a : Nat)
    (l : List (Nat × Block)) (e : Nat)
    (h : walkFrom m fuel a heapEnd = some (l, e)) :
    walkFrom m (heapEnd + 1) a heapEnd = some (l, e) := by
  refine walkFrom_fuel_free m heapEnd fuel a l e h (heapEnd + 1) ?_
  rcases walkFrom_length_bound m heapEnd fuel a l e h with hnil | hbound
  · subst hnil
    simp
  · obtain ⟨hbound, hpos⟩ := hbound
    have hA : Align = 16 := rfl
    rw [hA] at hbound
    by_cases hlen : l.length < heapEnd + 1
    · exact hlen
    · exfalso
      have h16 : 16 * (heapEnd + 1) ≤ 16 * l.length :=
        Nat.mul_le_mul_left 16 (by omega)
      have hmul : 16 * (heapEnd + 1) = 16 * heapEnd + 16 := by ring
      have hm2 : heapEnd ≤ 16 * heapEnd := by omega
      omega

/-- Walks coincide address-for-address over memories whose blocks have the
same sizes. -/
theorem walk_transport (mA mB : Mem)
    (hnone : ∀ a, mA.lookup a = none → mB.lookup a = none)
    (hsize : ∀ a b0, mA.lookup a = some b0 → ∃ b1, mB.lookup a = some b1 ∧
      b1.mSize = b0.mSize) (heapEnd : Nat) :
    ∀ fuel a l e, walkFrom mA fuel a heapEnd = some (l, e) →
      ∃ l1, walkFrom mB fuel a heapEnd = some (l1, e) ∧
        l1.map Prod.fst = l.map Prod.fst := by
  intro fuel
  induction fuel with
  | zero =>
    intro a l e h
    exact absurd h (by simp [walkFrom])
  | succ fuel ih =>
    intro a l e h
    unfold walkFrom at h
    by_cases ha : a < heapEnd
    · rw [if_pos ha] at h
      cases hl : mA.lookup a with
      | none => simp only [hl] at h; exact Option.noConfusion h
      | some blk =>
        simp only [hl] at h
        cases hw : walkFrom mA fuel (Block.followingOf a blk) heapEnd with
        | none => simp only [hw] at h; exact Option.noConfusion h
        | some r =>
          obtain ⟨l', e'⟩ := r
          simp only [hw] at h
          obtain ⟨h1, h2⟩ := Prod.mk.injEq .. ▸ Option.some.inj h
          subst h2
          subst h1
          obtain ⟨b1, hb1, hb1s⟩ := hsize a blk hl
          have hfoleq : Block.followingOf a b1 = Block.followingOf a blk := by
            unfold Block.followingOf
            rw [hb1s]
          obtain ⟨l1, hw1, hmap⟩ := ih _ _ _ hw
          refine ⟨(a, b1) :: l1, ?_, ?_⟩
          · show walkFrom mB (fuel + 1) a heapEnd = _
            unfold walkFrom
            rw [if_pos ha]
            simp only [hb1, hfoleq, hw1]
          · simp only [List.map_cons, hmap]
    · rw [if_neg ha] at h
      obtain ⟨h1, h2⟩ := Prod.mk.injEq .. ▸ Option.some.inj h
      subst h2
      refine ⟨[], ?_, by rw [← h1]⟩
      show walkFrom mB (fuel + 1) a heapEnd = _
      unfold walkFrom
      rw [if_neg ha]

/-- The inner do-while of the sweep: starting at an unmarked block it
consumes a maximal run of consecutive unmarked blocks, logging the used ones
in ascending order, and stops exactly at the arena end or at a marked
block; the run is an initial segment of the linear walk. -/
theorem extendFree_spec (m : Mem) (heapEnd : Nat) :
    ∀ fuel a e dlog, extendFree m fuel a heapEnd = some (e, dlog) →
      a < heapEnd →
      (∀ b, m.lookup a = some b → b.mark = false) →
      Align ∣ a →
      a < e ∧ Align ∣ e ∧
      (e < heapEnd → ∃ bm, m.lookup e = some bm ∧ bm.mark = true) ∧
      ∃ lrun : List (Nat × Block),
        lrun ≠ [] ∧
        (∀ ab ∈ lrun, a ≤ ab.1 ∧ ab.1 < e ∧ ab.2.mark = false ∧
          m.lookup ab.1 = some ab.2) ∧
        dlog = (lrun.filter fun ab => !ab.2.mark && !ab.2.isFree).map
          Prod.fst ∧
        (∀ fw lw ew, walkFrom m fw e heapEnd = some (lw, ew) →
          walkFrom m (fw + lrun.length) a heapEnd =
            some (lrun ++ lw, ew)) := by
  intro fuel
  induction fuel with
  | zero =>
    intro a e dlog h
    exact absurd h (by simp [extendFree])
  | succ fuel ih =>
    intro a e dlog h ha hm0 hdvd
    unfold extendFree at h
    cases hl : m.lookup a with
    | none => simp only [hl] at h; exact Option.noConfusion h
    | some blk =>
      simp only [hl] at h
      have hmk : blk.mark = false := hm0 blk hl
      have hfol := followingOf_gt a blk
      have hfdvd := followingOf_dvd a blk hdvd
      by_cases hn : Block.followingOf a blk < heapEnd
      · rw [if_pos hn] at h
        cases hnl : m.lookup (Block.followingOf a blk) with
        | none => simp only [hnl] at h; exact Option.noConfusion h
        | some nblk =>
          simp only [hnl] at h
          cases hnm : nblk.mark with
          | true =>
            rw [hnm] at h
            simp only [if_true] at h
            obtain ⟨h1, h2⟩ := Prod.mk.injEq .. ▸ Option.some.inj h
            subst h1
            refine ⟨hfol, hfdvd, fun _ => ⟨nblk, hnl, hnm⟩,
              [(a, blk)], by simp, ?_, ?_, ?_⟩
            · intro ab hab
              have : ab = (a, blk) := by simpa using hab
              subst this
              exact ⟨Nat.le_refl a, hfol, hmk, hl⟩
            · rw [← h2]
              cases hbf : blk.isFree <;>
                simp [List.filter, hbf, hmk]
            · intro fw lw ew hw
              exact walkFrom_cons m heapEnd fw a blk ha hl lw ew hw
          | false =>
            rw [hnm] at h
            simp only [Bool.false_eq_true, if_false] at h
            cases hrec : extendFree m fuel (Block.followingOf a blk) heapEnd
              with
            | none => simp only [hrec] at h; exact Option.noConfusion h
            | some el =>
              obtain ⟨e1, l1⟩ := el
              simp only [hrec] at h
              obtain ⟨h1, h2⟩ := Prod.mk.injEq .. ▸ Option.some.inj h
              subst h1
              obtain ⟨ihlt, ihdvd, ihmax, lrun', hne', hbounds', hlog',
                hwalk'⟩ := ih _ _ _ hrec hn
                (fun b hb => by
                  rw [Option.some.inj (hnl.symm.trans hb)] at hnm
                  exact hnm) hfdvd
              refine ⟨by omega, ihdvd, ihmax, (a, blk) :: lrun',
                by simp, ?_, ?_, ?_⟩
              · intro ab hab
                rcases List.mem_cons.mp hab with hq | hq
                · subst hq
                  exact ⟨Nat.le_refl a, by omega, hmk, hl⟩
                · have := hbounds' ab hq
                  refine ⟨by omega, this.2.1, this.2.2⟩
              · rw [← h2, hlog']
                cases hbf : blk.isFree <;>
                  simp [List.filter, hbf, hmk]
              · intro fw lw ew hw
                have hmid := hwalk' fw lw ew hw
                have := walkFrom_cons m heapEnd (fw + lrun'.length) a blk ha
                  hl (lrun' ++ lw) ew hmid
                simpa [List.length_cons, Nat.add_assoc, Nat.add_comm,
                  Nat.add_left_comm] using this
      · rw [if_neg hn] at h
        obtain ⟨h1, h2⟩ := Prod.mk.injEq .. ▸ Option.some.inj h
        subst h1
        refine ⟨hfol, hfdvd, fun hcon => absurd hcon hn,
          [(a, blk)], by simp, ?_, ?_, ?_⟩
        · intro ab hab
          have : ab = (a, blk) := by simpa using hab
          subst this
          exact ⟨Nat.le_refl a, hfol, hmk, hl⟩
        · rw [← h2]
          cases hbf : blk.isFree <;>
            simp [List.filter, hbf, hmk]
        · intro fw lw ew hw
          exact walkFrom_cons m heapEnd fw a blk ha hl lw ew hw

/-- A walk that starts above a written address never sees the write. -/
theorem walkFrom_untouched (m : Mem) (y : Nat) (b : Block) (heapEnd : Nat) :
    ∀ fuel x l e, y < x →
      walkFrom (m.set y b) fuel x heapEnd = some (l, e) →
      walkFrom m fuel x heapEnd = some (l, e) := by
  intro fuel
  induction fuel with
  | zero =>
    intro x l e _ h
    exact absurd h (by simp [walkFrom])
  | succ fuel ih =>
    intro x l e hyx h
    unfold walkFrom at h ⊢
    by_cases hx : x < heapEnd
    · rw [if_pos hx] at h ⊢
      rw [Mem.lookup_set_ne _ _ _ _ (by omega)] at h
      cases hl : m.lookup x with
      | none => rw [hl] at h; exact h
      | some blk =>
        rw [hl] at h
        simp only at h ⊢
        cases hw : walkFrom (m.set y b) fuel (Block.followingOf x blk)
            heapEnd with
        | none => simp only [hw] at h; exact Option.noConfusion h
        | some r =>
          obtain ⟨l', e'⟩ := r
          have hfol := followingOf_gt x blk
          rw [ih _ _ _ (by omega) hw]
          simp only [hw] at h
          exact h
    · rw [if_neg hx] at h ⊢
      exact h

/-- The full structure of one sweep scan (`rebuildFrom`) over a memory in
which free blocks are unmarked: addresses below the scan are untouched; the
walk of the result has only clear marks, no two adjacent free blocks, and a
used first block where the input was marked; the new free list prepends, in
descending address order, exactly one free block per maximal unmarked run,
of usable size (run end − run start) − `Align`, each run ending at the arena
end or at a marked block; and the appended destructor log lists exactly the
unmarked used blocks of the input walk, in ascending order. -/
theorem rebuildFrom_sweep (heapEnd : Nat) :
    ∀ fuel a fl log m m2 fl2 log2,
      rebuildFrom m fuel a heapEnd fl log = some (m2, fl2, log2) →
      Align ∣ a →
      (∀ x b, m.lookup x = some b → b.isFree = true → b.mark = false) →
      (∀ x, x < a → m2.lookup x = m.lookup x) ∧
      (∃ fw2 l2 e2, walkFrom m2 fw2 a heapEnd = some (l2, e2) ∧
        (∀ ab ∈ l2, ab.2.mark = false) ∧
        List.Chain' (fun p q : Nat × Block =>
          ¬(p.2.isFree = true ∧ q.2.isFree = true)) l2 ∧
        (∀ hd tl, l2 = hd :: tl → hd.1 = a ∧
          (∀ b, m.lookup a = some b → b.mark = true →
            hd.2.isFree = false))) ∧
      (∃ runs : List (Nat × Nat),
        ChainTo m2 fl2 ((runs.map Prod.fst).reverse) fl ∧
        List.Pairwise (· < ·) (runs.map Prod.fst) ∧
        (∀ pr ∈ runs, a ≤ pr.1 ∧ pr.1 + Align ≤ pr.2 ∧
          (∃ b0, m.lookup pr.1 = some b0 ∧ b0.mark = false) ∧
          (∃ b2, m2.lookup pr.1 = some b2 ∧ b2.isFree = true ∧
            b2.mSize = pr.2 - pr.1 - Align) ∧
          (pr.2 < heapEnd → ∃ bm, m.lookup pr.2 = some bm ∧
            bm.mark = true))) ∧
      (∃ fw l1 e1, walkFrom m fw a heapEnd = some (l1, e1) ∧
        log2 = log ++ (l1.filter fun ab =>
          !ab.2.mark && !ab.2.isFree).map Prod.fst) := by
  intro fuel
  induction fuel with
  | zero =>
    intro a fl log m m2 fl2 log2 h
    exact absurd h (by simp [rebuildFrom])
  | succ fuel ih =>
    intro a fl log m m2 fl2 log2 h hdvd hfu
    unfold rebuildFrom at h
    by_cases ha : a < heapEnd
    · rw [if_pos ha] at h
      cases hl : m.lookup a with
      | none => simp only [hl] at h; exact Option.noConfusion h
      | some blk =>
        simp only [hl] at h
        cases hbm : blk.mark with
        | true =>
          -- marked block: clear the mark and continue
          rw [hbm] at h
          simp only [if_true] at h
          have hfol := followingOf_gt a blk
          have hfu' : ∀ x b,
              (m.set a { blk with mark := false }).lookup x = some b →
              b.isFree = true → b.mark = false := by
            intro x b hxb hbf
            by_cases hax : a = x
            · subst hax
              rw [Mem.lookup_set_self] at hxb
              rw [← Option.some.inj hxb]
            · rw [Mem.lookup_set_ne _ _ _ _ hax] at hxb
              exact hfu x b hxb hbf
          obtain ⟨A', B', C', D'⟩ := ih _ _ _ _ _ _ _ h
            (followingOf_dvd a blk hdvd) hfu'
          have hm2a : m2.lookup a = some { blk with mark := false } := by
            rw [A' a hfol]
            exact Mem.lookup_set_self _ _ _
          have hbused : blk.isFree = false := by
            cases hq : blk.isFree with
            | false => rfl
            | true =>
              rw [hfu a blk hl hq] at hbm
              exact Bool.noConfusion hbm
          refine ⟨?_, ?_, ?_, ?_⟩
          · intro x hx
            rw [A' x (by omega)]
            exact Mem.lookup_set_ne _ _ _ _ (by omega)
          · obtain ⟨fw2, l2', e2, hw', hmk', hch', _⟩ := B'
            refine ⟨fw2 + 1, (a, { blk with mark := false }) :: l2', e2,
              ?_, ?_, ?_, ?_⟩
            · exact walkFrom_cons m2 heapEnd fw2 a _ ha hm2a l2' e2 hw'
            · intro ab hab
              rcases List.mem_cons.mp hab with hq | hq
              · rw [hq]
              · exact hmk' ab hq
            · refine List.chain'_cons'.mpr ⟨?_, hch'⟩
              intro y _
              intro ⟨hfree1, _⟩
              rw [show ({ blk with mark := false } : Block).isFree
                  = blk.isFree from rfl, hbused] at hfree1
              exact Bool.noConfusion hfree1
            · intro hd tl hq
              obtain ⟨hq1, hq2⟩ := List.cons.inj hq
              refine ⟨by rw [← hq1], ?_⟩
              intro b hb _
              rw [← hq1]
              show blk.isFree = false
              exact hbused
          · obtain ⟨runs', hchain', hpair', hruns'⟩ := C'
            refine ⟨runs', hchain', hpair', ?_⟩
            intro pr hpr
            obtain ⟨hp1, hp2, ⟨b0, hb0, hb0m⟩, hb2, hmax⟩ := hruns' pr hpr
            refine ⟨by omega, hp2, ⟨b0, ?_, hb0m⟩, hb2, ?_⟩
            · rw [Mem.lookup_set_ne _ _ _ _ (by omega)] at hb0
              exact hb0
            · intro hlt
              obtain ⟨bm, hbmx, hbmm⟩ := hmax hlt
              have hA : Align = 16 := rfl
              refine ⟨bm, ?_, hbmm⟩
              rw [Mem.lookup_set_ne _ _ _ _ (by omega)] at hbmx
              exact hbmx
          · obtain ⟨fw, l1', e1, hw1', hlog'⟩ := D'
            have hw1 := walkFrom_untouched m a { blk with mark := false }
              heapEnd fw _ _ _ hfol hw1'
            refine ⟨fw + 1, (a, blk) :: l1', e1,
              walkFrom_cons m heapEnd fw a blk ha hl l1' e1 hw1, ?_⟩
            rw [hlog']
            simp [List.filter, hbm]
        | false =>
          -- unmarked block: replace the whole run by one free block
          rw [hbm] at h
          simp only [Bool.false_eq_true, if_false] at h
          cases he : extendFree m (heapEnd + 1) a heapEnd with
          | none => simp only [he] at h; exact Option.noConfusion h
          | some el =>
            obtain ⟨e, dlog⟩ := el
            simp only [he] at h
            obtain ⟨hae, hedvd, hmax, lrun, hlne, hlbounds, hdlog,
              hwalkcomp⟩ := extendFree_spec m heapEnd _ _ _ _ he ha
              (fun b hb => by rw [← Option.some.inj (hl.symm.trans hb)]
                              exact hbm) hdvd
            set freed : Block := blk.setNextSize fl (e - a - Align) with hfr
            have hfreedmark : freed.mark = false := hbm
            have hfreedfree : freed.isFree = true := rfl
            have hfu' : ∀ x b, (m.set a freed).lookup x = some b →
                b.isFree = true → b.mark = false := by
              intro x b hxb hbf
              by_cases hax : a = x
              · subst hax
                rw [Mem.lookup_set_self] at hxb
                rw [← Option.some.inj hxb]
                exact hfreedmark
              · rw [Mem.lookup_set_ne _ _ _ _ hax] at hxb
                exact hfu x b hxb hbf
            obtain ⟨A', B', C', D'⟩ := ih _ _ _ _ _ _ _ h hedvd hfu'
            have hm2a : m2.lookup a = some freed := by
              rw [A' a hae]
              exact Mem.lookup_set_self _ _ _
            have hA : Align = 16 := rfl
            have haligned : a + Align ≤ e := by
              obtain ⟨ka, hka⟩ := hdvd
              obtain ⟨ke, hke⟩ := hedvd
              rw [hA] at hka hke ⊢
              omega
            have hfole : Block.followingOf a freed = e := by
              unfold Block.followingOf
              have hsz : freed.mSize = e - a - Align := rfl
              rw [hsz, align_eq_of_dvd]
              · rw [hA] at haligned ⊢
                omega
              · obtain ⟨ka, hka⟩ := hdvd
                obtain ⟨ke, hke⟩ := hedvd
                rw [hA] at hka hke ⊢
                omega
            refine ⟨?_, ?_, ?_, ?_⟩
            · intro x hx
              rw [A' x (by omega)]
              exact Mem.lookup_set_ne _ _ _ _ (by omega)
            · obtain ⟨fw2, l2', e2, hw', hmk', hch', hhd'⟩ := B'
              refine ⟨fw2 + 1, (a, freed) :: l2', e2, ?_, ?_, ?_, ?_⟩
              · have := walkFrom_cons m2 heapEnd fw2 a freed ha hm2a l2'
                  e2 (by rw [hfole]; exact hw')
                exact this
              · intro ab hab
                rcases List.mem_cons.mp hab with hq | hq
                · rw [hq]; exact hfreedmark
                · exact hmk' ab hq
              · refine List.chain'_cons'.mpr ⟨?_, hch'⟩
                intro y hy
                cases hl2' : l2' with
                | nil => rw [hl2'] at hy; exact absurd hy (by simp)
                | cons hd tl =>
                  rw [hl2'] at hy
                  have hyhd : hd = y := by simpa using hy
                  subst hyhd
                  obtain ⟨hhd1, hhd2⟩ := hhd' hd tl hl2'
                  obtain ⟨hbs, _, _⟩ := walkFrom_bounds m2 heapEnd fw2 _ _ _
                    hw'
                  have hehe : e < heapEnd := by
                    have := hbs hd (by rw [hl2']; exact List.mem_cons_self _ _)
                    omega
                  obtain ⟨bm, hbmx, hbmm⟩ := hmax hehe
                  have hused := hhd2 bm
                    (by rw [Mem.lookup_set_ne _ _ _ _ (by omega)]
                        exact hbmx) hbmm
                  intro ⟨_, hfree2⟩
                  rw [hused] at hfree2
                  exact Bool.noConfusion hfree2
              · intro hd tl hq
                obtain ⟨hq1, _⟩ := List.cons.inj hq
                refine ⟨by rw [← hq1], ?_⟩
                intro b hb hbmk
                have hbeq : blk = b := Option.some.inj hb
                rw [← hbeq] at hbmk
                rw [hbmk] at hbm
                exact Bool.noConfusion hbm
            · obtain ⟨runs', hchain', hpair', hruns'⟩ := C'
              refine ⟨(a, e) :: runs', ?_, ?_, ?_⟩
              · simp only [List.map_cons, List.reverse_cons]
                refine ChainTo_append m2 _ fl2 [a] (some a) fl hchain' ?_
                refine ChainTo.cons a freed [] fl hm2a hfreedfree ?_
                have hnf : freed.nextFree = fl := rfl
                rw [hnf]
                exact ChainTo.nil fl
              · simp only [List.map_cons]
                refine List.pairwise_cons.mpr ⟨?_, hpair'⟩
                intro x hx
                obtain ⟨pr, hpr, hprx⟩ := List.mem_map.mp hx
                have := (hruns' pr hpr).1
                omega
              · intro pr hpr
                rcases List.mem_cons.mp hpr with hq | hq
                · subst hq
                  refine ⟨Nat.le_refl a, haligned, ⟨blk, hl, hbm⟩,
                    ⟨freed, hm2a, hfreedfree, rfl⟩, hmax⟩
                · obtain ⟨hp1, hp2, ⟨b0, hb0, hb0m⟩, hb2, hmaxr⟩ :=
                    hruns' pr hq
                  refine ⟨by omega, hp2, ⟨b0, ?_, hb0m⟩, hb2, ?_⟩
                  · rw [Mem.lookup_set_ne _ _ _ _ (by omega)] at hb0
                    exact hb0
                  · intro hlt
                    obtain ⟨bm, hbmx, hbmm⟩ := hmaxr hlt
                    refine ⟨bm, ?_, hbmm⟩
                    rw [Mem.lookup_set_ne _ _ _ _ (by omega)] at hbmx
                    exact hbmx
            · obtain ⟨fw, l1', e1, hw1', hlog'⟩ := D'
              have hw1 := walkFrom_untouched m a freed heapEnd fw _ _ _
                hae hw1'
              refine ⟨fw + lrun.length, lrun ++ l1', e1,
                hwalkcomp fw l1' e1 hw1, ?_⟩
              rw [hlog', hdlog]
              rw [List.filter_append, List.map_append, List.append_assoc]
    · rw [if_neg ha] at h
      have hinj := Option.some.inj h
      have hm : m = m2 := congrArg Prod.fst hinj
      have hfl : fl = fl2 := congrArg Prod.fst (congrArg Prod.snd hinj)
      have hlog : log = log2 := congrArg Prod.snd (congrArg Prod.snd hinj)
      subst hm
      subst hfl
      subst hlog
      refine ⟨fun _ _ => rfl, ?_, ?_, ?_⟩
      · refine ⟨1, [], a, ?_, by simp, List.chain'_nil,
          fun hd tl hq => absurd hq (by simp)⟩
        unfold walkFrom
        rw [if_neg ha]
      · exact ⟨[], ChainTo.nil fl, by simp, fun pr hpr =>
          absurd hpr (List.not_mem_nil pr)⟩
      · refine ⟨1, [], a, ?_, by simp⟩
        unfold walkFrom
        rw [if_neg ha]

/-- C6: in a memory whose free blocks are unmarked, a completed
`rebuildFreeList` replaces each maximal run of consecutive unmarked blocks
(ending at the arena end or at a marked block) by exactly one free block of
usable size (run end − run start) − `Align`, prepending it to the new free
list, so the free list enumerates the run starts in descending address
order; and in the walk of the result every mark bit is clear and no free
block is adjacent to another free block. -/
theorem C6_sweep_runs (h : HeapState)
    (hfu : ∀ x b, h.mem.lookup x = some b → b.isFree = true →
      b.mark = false)
    (h2 : HeapState) (log : List Nat)
    (hrb : rebuildFreeList h = some (h2, log)) :
    (∃ l2 e2, walkFrom h2.mem (h.heapEnd + 1) 0 h.heapEnd = some (l2, e2) ∧
      (∀ ab ∈ l2, ab.2.mark = false) ∧
      List.Chain' (fun p q : Nat × Block =>
        ¬(p.2.isFree = true ∧ q.2.isFree = true)) l2) ∧
    (∃ runs : List (Nat × Nat),
      ChainTo h2.mem h2.mFreeList ((runs.map Prod.fst).reverse) none ∧
      List.Pairwise (· < ·) (runs.map Prod.fst) ∧
      (∀ pr ∈ runs, pr.1 + Align ≤ pr.2 ∧
        (∃ b0, h.mem.lookup pr.1 = some b0 ∧ b0.mark = false) ∧
        (∃ b2, h2.mem.lookup pr.1 = some b2 ∧ b2.isFree = true ∧
          b2.mSize = pr.2 - pr.1 - Align) ∧
        (pr.2 < h.heapEnd → ∃ bm, h.mem.lookup pr.2 = some bm ∧
          bm.mark = true))) := by
  unfold rebuildFreeList at hrb
  cases hr : rebuildFrom h.mem (h.heapEnd + 1) 0 h.heapEnd none [] with
  | none =>
    rw [hr] at hrb
    exact absurd hrb (by simp)
  | some res =>
    obtain ⟨m2', fl2, log2⟩ := res
    rw [hr] at hrb
    simp only at hrb
    have hpair := Option.some.inj hrb
    have hh2 : h2 = { h with mem := m2', mFreeList := fl2 } :=
      (congrArg Prod.fst hpair).symm
    obtain ⟨_, B, C, _⟩ := rebuildFrom_sweep h.heapEnd _ _ _ _ _ _ _ _ hr
      (Dvd.intro 0 rfl) hfu
    constructor
    · obtain ⟨fw2, l2, e2, hw, hmk, hch, _⟩ := B
      refine ⟨l2, e2, ?_, hmk, hch⟩
      rw [hh2]
      exact walkFrom_canonical m2' h.heapEnd fw2 0 l2 e2 hw
    · obtain ⟨runs, hchain, hpairw, hruns⟩ := C
      refine ⟨runs, ?_, hpairw, ?_⟩
      · rw [hh2]
        exact hchain
      · intro pr hpr
        obtain ⟨_, hp2, hb0, hb2, hmax⟩ := hruns pr hpr
        refine ⟨hp2, hb0, ?_, hmax⟩
        rw [hh2]
        exact hb2

def sweepHeap : HeapState :=
  ⟨[(0, ⟨16, true, .typeDesc ty16, []⟩),
    (32, ⟨16, false, .typeDesc ty16, []⟩),
    (64, ⟨16, false, .free none, []⟩)], some 64, [], 96⟩

def sweepHeap2 : HeapState :=
  ⟨[(0, ⟨16, false, .typeDesc ty16, []⟩),
    (32, ⟨48, false, .free none, []⟩),
    (64, ⟨16, false, .free none, []⟩)], some 32, [], 96⟩

theorem sweepHeap_fu : ∀ x b, sweepHeap.mem.lookup x = some b →
    b.isFree = true → b.mark = false := by
  intro x b hxb hbf
  have hmem := Mem.lookup_some_mem _ _ _ hxb
  simp only [sweepHeap, List.mem_cons, List.not_mem_nil, or_false] at hmem
  rcases hmem with hq | hq | hq <;>
    (rw [Prod.ext_iff] at hq
     have hb : b = _ := hq.2
     subst hb) <;> first
      | rfl
      | exact absurd hbf (by decide)

theorem C6_sweep_runs_witness :
    (∃ l2 e2, walkFrom sweepHeap2.mem (sweepHeap.heapEnd + 1) 0
        sweepHeap.heapEnd = some (l2, e2) ∧
      (∀ ab ∈ l2, ab.2.mark = false) ∧
      List.Chain' (fun p q : Nat × Block =>
        ¬(p.2.isFree = true ∧ q.2.isFree = true)) l2) ∧
    (∃ runs : List (Nat × Nat),
      ChainTo sweepHeap2.mem sweepHeap2.mFreeList
        ((runs.map Prod.fst).reverse) none ∧
      List.Pairwise (· < ·) (runs.map Prod.fst) ∧
      (∀ pr ∈ runs, pr.1 + Align ≤ pr.2 ∧
        (∃ b0, sweepHeap.mem.lookup pr.1 = some b0 ∧ b0.mark = false) ∧
        (∃ b2, sweepHeap2.mem.lookup pr.1 = some b2 ∧ b2.isFree = true ∧
          b2.mSize = pr.2 - pr.1 - Align) ∧
        (pr.2 < sweepHeap.heapEnd → ∃ bm, sweepHeap.mem.lookup pr.2 =
          some bm ∧ bm.mark = true))) :=
  C6_sweep_runs sweepHeap sweepHeap_fu sweepHeap2 [32] (by decide)

/-- The heap for the destructor-log witness: the two-node root cycle plus
one unreachable used block at header 64. -/
def c7Mem : Mem :=
  [(0, ⟨16, false, .typeDesc tyPtr, [(0, some 48)]⟩),
   (32, ⟨16, false, .typeDesc tyPtr, [(0, some 16)]⟩),
   (64, ⟨16, false, .typeDesc ty16, []⟩)]

def c7Heap : HeapState := ⟨c7Mem, none, [16], 96⟩

theorem c7Mem_WF : MidWF c7Mem := by
  intro a b hab
  have hmem := Mem.lookup_some_mem _ _ _ hab
  simp only [c7Mem, List.mem_cons, List.not_mem_nil, or_false] at hmem
  have hlook1 : c7Mem.lookup 32 =
      some ⟨16, false, .typeDesc tyPtr, [(0, some 16)]⟩ := by decide
  have hlook0 : c7Mem.lookup 0 =
      some ⟨16, false, .typeDesc tyPtr, [(0, some 48)]⟩ := by decide
  rcases hmem with h | h | h <;>
    (rw [Prod.ext_iff] at h
     obtain ⟨ha, hb⟩ := h
     subst ha
     subst hb
     refine ⟨fun h => rfl, fun t i h => HeaderPtr.noConfusion h, ?_⟩
     intro t ht
     have htt := HeaderPtr.typeDesc.inj ht
     subst htt)
  · refine ⟨by decide, ?_, fun hm => Bool.noConfusion hm⟩
    intro o ho q hq
    have ho0 : o = 0 := by simpa [tyPtr] using ho
    subst ho0
    have hq48 : q = 48 := by simpa [getField] using hq.symm
    subst hq48
    exact ⟨by decide, ⟨16, false, .typeDesc tyPtr, [(0, some 16)]⟩, tyPtr,
      hlook1, rfl⟩
  · refine ⟨by decide, ?_, fun hm => Bool.noConfusion hm⟩
    intro o ho q hq
    have ho0 : o = 0 := by simpa [tyPtr] using ho
    subst ho0
    have hq16 : q = 16 := by simpa [getField] using hq.symm
    subst hq16
    exact ⟨by decide, ⟨16, false, .typeDesc tyPtr, [(0, some 48)]⟩, tyPtr,
      hlook0, rfl⟩
  · refine ⟨by decide, ?_, fun hm => Bool.noConfusion hm⟩
    intro o ho q hq
    exact absurd ho (by simp [ty16])

theorem c7Mem_clear : ∀ a b, c7Mem.lookup a = some b → b.mark = false := by
  intro a b hab
  have hmem := Mem.lookup_some_mem _ _ _ hab
  simp only [c7Mem, List.mem_cons, List.not_mem_nil, or_false] at hmem
  rcases hmem with h | h | h <;>
    (rw [Prod.ext_iff] at h
     have hb : b = _ := h.2
     rw [hb])

theorem c7Mem_rootsOk : ∀ r ∈ c7Heap.mRoots, Align ≤ r ∧
    ∃ br tr, c7Heap.mem.lookup (r - Align) = some br ∧
      br.hptr = .typeDesc tr := by
  intro r hr
  have : r = 16 := by simpa [c7Heap] using hr
  subst this
  exact ⟨by decide, ⟨16, false, .typeDesc tyPtr, [(0, some 48)]⟩, tyPtr,
    rfl, rfl⟩

/-- C7: across one completed `gc()` cycle from a well-formed, mark-clear
state, the sweep's destructor log lists, in ascending arena order and
without repetition, addresses of blocks that were used and unreachable from
every registered root — and conversely every used unreachable block of the
arena walk is destroyed (reachable blocks and blocks that were already free
are never destroyed). -/
theorem C7_destructors (h : HeapState) (hWF : MidWF h.mem)
    (hclear : ∀ a b, h.mem.lookup a = some b → b.mark = false)
    (hroots : ∀ r ∈ h.mRoots, Align ≤ r ∧ ∃ br tr,
      h.mem.lookup (r - Align) = some br ∧ br.hptr = .typeDesc tr)
    (h2 : HeapState) (log : List Nat) (hgc : gc h = some (h2, log))
    (l0 : List (Nat × Block)) (e0 : Nat)
    (hw0 : walkFrom h.mem (h.heapEnd + 1) 0 h.heapEnd = some (l0, e0)) :
    List.Pairwise (· < ·) log ∧
    (∀ x ∈ log, ∃ b0, h.mem.lookup x = some b0 ∧ b0.isFree = false ∧
      ¬∃ r ∈ h.mRoots, Reaches h.mem r (x + Align)) ∧
    (∀ x b0, (x, b0) ∈ l0 → b0.isFree = false →
      (¬∃ r ∈ h.mRoots, Reaches h.mem r (x + Align)) → x ∈ log) := by
  unfold gc at hgc
  cases hph : gcMarkPhase h.mem h.mRoots with
  | none =>
    rw [hph] at hgc
    exact absurd hgc (by simp)
  | some m1 =>
    rw [hph] at hgc
    have hinv := gcMarkPhase_inv h.mem h.mRoots hroots h.mem _
      (PhaseInv.initial h.mem hWF) m1 hph
    have hfu1 : ∀ x b, m1.lookup x = some b → b.isFree = true →
        b.mark = false :=
      fun x b hxb hbf => (hinv.wf x b hxb).1 hbf
    unfold rebuildFreeList at hgc
    simp only at hgc
    cases hrb : rebuildFrom m1 (h.heapEnd + 1) 0 h.heapEnd none [] with
    | none =>
      rw [hrb] at hgc
      exact absurd hgc (by simp)
    | some res =>
      obtain ⟨m2', fl2, log2⟩ := res
      rw [hrb] at hgc
      simp only at hgc
      have hpair := Option.some.inj hgc
      have hlogeq : log2 = log := congrArg Prod.snd hpair
      obtain ⟨_, _, _, D⟩ := rebuildFrom_sweep h.heapEnd _ _ _ _ _ _ _ _
        hrb (Dvd.intro 0 rfl) hfu1
      obtain ⟨fw, l1, e1, hw1, hlog1⟩ := D
      -- identify the sweep's walk of `m1` with the transported input walk
      have hsize1 : ∀ a b0, h.mem.lookup a = some b0 → ∃ b1,
          m1.lookup a = some b1 ∧ b1.mSize = b0.mSize := by
        intro a b0 hS
        obtain ⟨b1, h1, h2', _⟩ := hinv.blocks a b0 hS
        exact ⟨b1, h1, h2'⟩
      obtain ⟨l1', hw1', hmap⟩ := walk_transport h.mem m1 hinv.noneDom
        hsize1 h.heapEnd _ _ _ _ hw0
      have hcanon := walkFrom_canonical m1 h.heapEnd fw 0 l1 e1 hw1
      have hinj := Option.some.inj (hcanon.symm.trans hw1')
      have hl1 : l1 = l1' := congrArg Prod.fst hinj
      rw [← hl1] at hmap
      have hlookup1 : ∀ ab ∈ l1, m1.lookup ab.1 = some ab.2 :=
        walkFrom_lookup m1 h.heapEnd _ _ _ _ hw1
      have hlookup0 : ∀ ab ∈ l0, h.mem.lookup ab.1 = some ab.2 :=
        walkFrom_lookup h.mem h.heapEnd _ _ _ _ hw0
      have hlog : log = (l1.filter fun ab =>
          !ab.2.mark && !ab.2.isFree).map Prod.fst := by
        rw [← hlogeq, hlog1]
        simp
      refine ⟨?_, ?_, ?_⟩
      · -- ascending, no repetition
        rw [hlog]
        have hpw := (walkFrom_bounds m1 h.heapEnd _ _ _ _ hw1).2.1
        exact hpw.sublist (List.Sublist.map Prod.fst (List.filter_sublist l1))
      · -- only unreachable used blocks are logged
        intro x hx
        rw [hlog] at hx
        obtain ⟨ab, habf, habx⟩ := List.mem_map.mp hx
        obtain ⟨hab1, hpred⟩ := List.mem_filter.mp habf
        obtain ⟨hnm, hnf⟩ := Bool.and_eq_true_iff.mp hpred
        have habm : ab.2.mark = false := by
          cases hq : ab.2.mark
          · rfl
          · rw [hq] at hnm; exact Bool.noConfusion hnm
        have habfree : ab.2.isFree = false := by
          cases hq : ab.2.isFree
          · rfl
          · rw [hq] at hnf; exact Bool.noConfusion hnf
        have hlk1 : m1.lookup ab.1 = some ab.2 := hlookup1 ab hab1
        subst habx
        cases hS : h.mem.lookup ab.1 with
        | none =>
          rw [hinv.noneDom _ hS] at hlk1
          exact absurd hlk1 (by simp)
        | some b0 =>
          obtain ⟨b1, hb1, _, hhp, _, hiff⟩ := hinv.blocks _ b0 hS
          have hbeq : b1 = ab.2 := Option.some.inj (hb1.symm.trans hlk1)
          subst hbeq
          refine ⟨b0, rfl, ?_, ?_⟩
          · rw [← Block.isFree_eq_of_hptr _ _ hhp]
            exact habfree
          · intro hre
            have hmk := hiff.mpr (Or.inr (Or.inr hre))
            rw [habm] at hmk
            exact Bool.noConfusion hmk
      · -- every used unreachable block of the walk is destroyed
        intro x b0 hxl0 hfree hre
        have hS : h.mem.lookup x = some b0 := hlookup0 (x, b0) hxl0
        have hxm : x ∈ l1.map Prod.fst := by
          rw [hmap]
          exact List.mem_map_of_mem Prod.fst hxl0
        obtain ⟨ab1, hab1, habx⟩ := List.mem_map.mp hxm
        obtain ⟨b1, hb1, _, hhp, _, hiff⟩ := hinv.blocks x b0 hS
        have hlk1 : m1.lookup ab1.1 = some ab1.2 := hlookup1 ab1 hab1
        rw [habx] at hlk1
        have hbeq : b1 = ab1.2 := Option.some.inj (hb1.symm.trans hlk1)
        have hb1m : b1.mark = false := by
          cases hq : b1.mark with
          | false => rfl
          | true =>
            rcases hiff.mp hq with h1 | h1 | h1
            · rw [hclear x b0 hS] at h1
              exact Bool.noConfusion h1
            · exact h1.elim
            · exact absurd h1 hre
        have hb1f : b1.isFree = false := by
          rw [Block.isFree_eq_of_hptr _ _ hhp]
          exact hfree
        rw [hlog]
        refine List.mem_map.mpr ⟨ab1, ?_, habx⟩
        refine List.mem_filter.mpr ⟨hab1, ?_⟩
        rw [← hbeq]
        simp [hb1m, hb1f]

theorem C7_destructors_witness :
    List.Pairwise (· < ·) [64] ∧
    (∃ b0, c7Heap.mem.lookup 64 = some b0 ∧ b0.isFree = false ∧
      ¬∃ r ∈ c7Heap.mRoots, Reaches c7Heap.mem r (64 + Align)) := by
  have happ := C7_destructors c7Heap c7Mem_WF c7Mem_clear c7Mem_rootsOk
    ⟨[(0, ⟨16, false, .typeDesc tyPtr, [(0, some 48)]⟩),
      (32, ⟨16, false, .typeDesc tyPtr, [(0, some 16)]⟩),
      (64, ⟨16, false, .free none, []⟩)], some 64, [16], 96⟩ [64]
    (by decide)
    [(0, ⟨16, false, .typeDesc tyPtr, [(0, some 48)]⟩),
     (32, ⟨16, false, .typeDesc tyPtr, [(0, some 16)]⟩),
     (64, ⟨16, false, .typeDesc ty16, []⟩)] 96 (by decide)
  exact ⟨happ.1, happ.2.1 64 (by decide)⟩

end SswGc
